import Mathlib

/-!
# CodeLinkGPT: the live-context engine (`src/scripts/live-context.js`)

A shallow embedding of the pure parts of `LiveContextChat` and of the
state changes of `processConversation`, with the properties of the
specification proved or refuted on it.

## Conventions

* A JavaScript string is the list of its UTF-16 code units (`JSString`), so
  `s.length` in the source is `List.length` here.  Nothing below depends on
  a code unit being below `65536`, so every statement proved for all lists
  holds for all JavaScript strings.
* A JavaScript `Set` of strings is the list of its members in insertion
  order (the order in which `for ... of` visits them).
* `null` / `undefined` results are `none`.
-/

namespace LiveContext

set_option maxRecDepth 100000

/-! ## Strings -/

/-- A JavaScript string, as the sequence of its UTF-16 code units. -/
abbrev JSString := List Nat

/-- The JavaScript string written as a literal with characters of the
Basic Multilingual Plane only (one code unit per character). -/
def js (s : String) : JSString := s.toList.map Char.toNat

/-- The method `String.prototype.split(sep)` for a separator of one code
unit: the pieces between the occurrences of `sep`, never an empty array. -/
def split (sep : Nat) : JSString → List JSString
  | [] => [[]]
  | c :: cs =>
    if c = sep then [] :: split sep cs
    else
      match split sep cs with
      | [] => [[c]]
      | p :: ps => (c :: p) :: ps

/-- The method `String.prototype.endsWith(suffix)`. -/
def endsWith (s suffix : JSString) : Bool := suffix.isSuffixOf s

/-- The method `String.prototype.includes(c)` for a one-code-unit needle. -/
def includesUnit (s : JSString) (c : Nat) : Bool := s.contains c

/-! ## Delivery classifier: `isLargeFile` (lines 567-576) -/

/-- Source `isLargeFile(content)`:
`if (content.length > 10 * 1024) return true;`
`const lineCount = content.split('\n').length;`
`if (lineCount > 250) return true; return false;` -/
def isLargeFile (content : JSString) : Bool :=
  if content.length > 10 * 1024 then true
  else
    let lineCount := (split 10 content).length
    if lineCount > 250 then true
    else false

/-! ## Path resolver: `findFilePath` (lines 530-542) -/

/-- Source `findFilePath(fileName)` over `this.selectedFiles`:
`if (this.selectedFiles.has(fileName)) return fileName;`
then the first `path` of the set with
`path.endsWith("/" + fileName) || path === fileName`, else `null`. -/
def findFilePath (selectedFiles : List JSString) (fileName : JSString) : Option JSString :=
  if selectedFiles.contains fileName then some fileName
  else selectedFiles.find? (fun path => endsWith path (47 :: fileName) || path == fileName)

/-- The final segment of a path, `path.split('/').pop()` (as in
`identifyMainFiles`, line 253). -/
def lastSegment (path : JSString) : JSString := (split 47 path).getLastD []

/-! ## Regular expressions

The three patterns of `extractFileRequests` use literal characters, one-unit
classes, greedy `+` over a one-unit class, greedy `?`, alternation, capturing
groups, `\b` and `$`.  `Regex.run` gives the backtracking semantics of
ECMAScript as the list of the states in which a match of the pattern can end,
in the order in which the matcher tries them: the match that `exec` reports
is the first one. -/

/-- White space and line terminators: what `\s` matches and `trim` strips. -/
def isWhiteSpace (c : Nat) : Bool :=
  c == 9 || c == 10 || c == 11 || c == 12 || c == 13 || c == 32 || c == 160 ||
  c == 0x1680 || (0x2000 ≤ c && c ≤ 0x200A) || c == 0x2028 || c == 0x2029 ||
  c == 0x202F || c == 0x205F || c == 0x3000 || c == 0xFEFF

/-- The class `\w`: `[A-Za-z0-9_]`. -/
def isWordChar (c : Nat) : Bool :=
  (97 ≤ c && c ≤ 122) || (65 ≤ c && c ≤ 90) || (48 ≤ c && c ≤ 57) || c == 95

/-- The class `[\w\-./]`. -/
def isPathChar (c : Nat) : Bool :=
  isWordChar c || c == 45 || c == 46 || c == 47

/-- Upper case of an ASCII letter, identity elsewhere. -/
def asciiUpper (c : Nat) : Nat := if 97 ≤ c && c ≤ 122 then c - 32 else c

/-- Whether input unit `d` matches pattern character `c`.  Under the `i`
flag (without `u`) both are canonicalised by `toUpperCase`, except that a
unit of 128 or more is never mapped below 128; every pattern character of
this file is ASCII, for which that comparison is the one of `asciiUpper`. -/
def unitMatches (ignoreCase : Bool) (c d : Nat) : Bool :=
  if ignoreCase then asciiUpper c == asciiUpper d else c == d

/-- A pattern.  `cls`, `plus` (greedy `+`) and `lazyStar` (`*?`) carry the
membership test of a one-unit class; the classes used (`\w`, `\s`, `[\w\-./]`) are closed under ASCII case,
so the `i` flag does not change them. -/
inductive Regex where
  | lit (c : Nat)
  | cls (p : Nat → Bool)
  | plus (p : Nat → Bool)
  | lazyStar (p : Nat → Bool)
  | seq (a b : Regex)
  | alt (a b : Regex)
  | opt (a : Regex)
  | group (n : Nat) (a : Regex)
  | wordBoundary
  | eos
  | empty

/-- A matcher state: the unit before the current position (for `\b`), the
input from the current position on, and the captures made so far (newest
first). -/
structure MState where
  prev : Option Nat
  rest : JSString
  caps : List (Nat × JSString)

/-- The capture of group `n`, `undefined` when the group did not take part. -/
def MState.capture (st : MState) (n : Nat) : Option JSString :=
  (st.caps.find? (fun e => e.1 == n)).map Prod.snd

/-- Whether `\b` holds between the unit `prev` and the input `rest`. -/
def atWordBoundary (prev : Option Nat) (rest : JSString) : Bool :=
  (match prev with | some c => isWordChar c | none => false) !=
  (match rest with | c :: _ => isWordChar c | [] => false)

/-- End states of greedy `+` over class `p`: after the longest run first,
down to one unit. -/
def plusStates (p : Nat → Bool) (caps : List (Nat × JSString)) : JSString → List MState
  | [] => []
  | c :: cs => if p c then plusStates p caps cs ++ [⟨some c, cs, caps⟩] else []

/-- End states of lazy `*?` over class `p`: after no unit first, then after
one more at a time. -/
def lazyStates (p : Nat → Bool) (caps : List (Nat × JSString)) :
    Option Nat → JSString → List MState
  | prev, [] => [⟨prev, [], caps⟩]
  | prev, c :: cs =>
    ⟨prev, c :: cs, caps⟩ :: (if p c then lazyStates p caps (some c) cs else [])

/-- End states of the matches of a pattern from state `st`, in the order of
the backtracking matcher.  A `?` drops an iteration that consumed nothing. -/
def Regex.run (ignoreCase : Bool) : Regex → MState → List MState
  | .lit c, st =>
    match st.rest with
    | [] => []
    | d :: ds => if unitMatches ignoreCase c d then [⟨some d, ds, st.caps⟩] else []
  | .cls p, st =>
    match st.rest with
    | [] => []
    | d :: ds => if p d then [⟨some d, ds, st.caps⟩] else []
  | .plus p, st => plusStates p st.caps st.rest
  | .lazyStar p, st => lazyStates p st.caps st.prev st.rest
  | .seq a b, st => (Regex.run ignoreCase a st).flatMap (fun s => Regex.run ignoreCase b s)
  | .alt a b, st => Regex.run ignoreCase a st ++ Regex.run ignoreCase b st
  | .opt a, st =>
    (Regex.run ignoreCase a st).filter (fun s => s.rest.length < st.rest.length) ++ [st]
  | .group n a, st =>
    (Regex.run ignoreCase a st).map (fun s =>
      { s with caps := (n, st.rest.take (st.rest.length - s.rest.length)) :: s.caps })
  | .wordBoundary, st => if atWordBoundary st.prev st.rest then [st] else []
  | .eos, st => if st.rest.isEmpty then [st] else []
  | .empty, st => [st]

/-- The first match that starts at the current position or later: the scan of
`exec` over the start indices.  The result is the end state of the match. -/
def execFrom (ignoreCase : Bool) (r : Regex) : Option Nat → JSString → Option MState
  | prev, [] => (r.run ignoreCase ⟨prev, [], []⟩).head?
  | prev, c :: cs =>
    match (r.run ignoreCase ⟨prev, c :: cs, []⟩).head? with
    | some st => some st
    | none => execFrom ignoreCase r (some c) cs

/-- The loop `while ((match = regex.exec(message)) !== null)` of a global
pattern: the end states of the successive matches, each search starting at
`lastIndex`, the end of the previous match.  `none` when the fuel runs out,
which stands for a loop that does not end (a pattern matching the empty
string leaves `lastIndex` in place). -/
def execLoop (ignoreCase : Bool) (r : Regex) : Nat → Option Nat → JSString → Option (List MState)
  | 0, _, _ => none
  | fuel + 1, prev, rest =>
    match execFrom ignoreCase r prev rest with
    | none => some []
    | some st => (execLoop ignoreCase r fuel st.prev st.rest).map (fun l => st :: l)

/-- Concatenation of a list of patterns. -/
def Regex.seqs : List Regex → Regex
  | [] => .empty
  | r :: rs => .seq r (Regex.seqs rs)

/-- Alternation `r|r1|r2|...`, tried from left to right. -/
def Regex.alts (r : Regex) : List Regex → Regex
  | [] => r
  | r1 :: rs => .alt r (Regex.alts r1 rs)

/-- The pattern of a literal string. -/
def Regex.str (s : String) : Regex :=
  Regex.seqs (s.toList.map (fun ch => Regex.lit ch.toNat))

/-! ## Reference extractor: `extractFileRequests` (lines 409-525) -/

/-- Part 1, `/@([\w\-./]+\.\w+)\b/g`. -/
def markerRegex : Regex :=
  .seqs [.lit 64, .group 1 (.seqs [.plus isPathChar, .lit 46, .plus isWordChar]),
    .wordBoundary]

/-- The test of `processTextContent`, `/\.\w+$/`. -/
def extensionTailRegex : Regex :=
  .seqs [.lit 46, .plus isWordChar, .eos]

/-- Source `fileExtensions` (lines 485-488). -/
def fileExtensions : List String :=
  ["js", "ts", "jsx", "tsx", "html", "css", "json", "md", "py", "java", "c",
   "cpp", "cs", "go", "rb", "php", "swift", "yml", "yaml", "xml", "sh", "bat"]

/-- The pattern `\s+`. -/
def spaces : Regex := .plus isWhiteSpace

/-- The pattern `(?:the\s+)?`. -/
def optThe : Regex := .opt (.seqs [.str "the", spaces])

/-- The pattern `(?:share|show)`. -/
def shareOrShow : Regex := .alt (.str "share") (.str "show")

/-- Source `requestPhrases` (lines 491-507), in order. -/
def requestPhrases : List Regex :=
  [ -- show\s+(?:me\s+)?
    .seqs [.str "show", spaces, .opt (.seqs [.str "me", spaces])],
    -- share\s+(?:the\s+)?
    .seqs [.str "share", spaces, optThe],
    -- see\s+(?:the\s+)?
    .seqs [.str "see", spaces, optThe],
    -- check\s+(?:the\s+)?
    .seqs [.str "check", spaces, optThe],
    -- take\s+a\s+look\s+at\s+(?:the\s+)?
    .seqs [.str "take", spaces, .str "a", spaces, .str "look", spaces, .str "at", spaces,
      optThe],
    -- view\s+(?:the\s+)?
    .seqs [.str "view", spaces, optThe],
    -- let'?s?\s+see\s+(?:the\s+)?
    .seqs [.str "let", .opt (.lit 39), .opt (.lit 115), spaces, .str "see", spaces, optThe],
    -- could\s+you\s+(?:please\s+)?(?:share|show)\s+(?:the\s+)?
    .seqs [.str "could", spaces, .str "you", spaces, .opt (.seqs [.str "please", spaces]),
      shareOrShow, spaces, optThe],
    -- I'd\s+like\s+to\s+see\s+(?:the\s+)?
    .seqs [.str "I", .lit 39, .str "d", spaces, .str "like", spaces, .str "to", spaces,
      .str "see", spaces, optThe],
    -- please\s+(?:share|show)\s+(?:the\s+)?
    .seqs [.str "please", spaces, shareOrShow, spaces, optThe],
    -- what's?\s+in\s+(?:the\s+)?
    .seqs [.str "what", .lit 39, .opt (.lit 115), spaces, .str "in", spaces, optThe],
    -- contents?\s+of\s+(?:the\s+)?
    .seqs [.str "content", .opt (.lit 115), spaces, .str "of", spaces, optThe],
    -- open\s+(?:the\s+)?
    .seqs [.str "open", spaces, optThe],
    -- looking\s+for\s+(?:the\s+)?
    .seqs [.str "looking", spaces, .str "for", spaces, optThe],
    -- need\s+(?:to\s+see\s+)?(?:the\s+)?
    .seqs [.str "need", spaces, .opt (.seqs [.str "to", spaces, .str "see", spaces]), optThe] ]

/-- The alternation of the request phrases, `requestPhrases.join('|')`. -/
def phraseAlternation : Regex :=
  match requestPhrases with
  | [] => .empty
  | r :: rs => .alts r rs

/-- The alternation of the extensions, `fileExtensions.join('|')`. -/
def extensionAlternation : Regex :=
  match fileExtensions.map Regex.str with
  | [] => .empty
  | r :: rs => .alts r rs

/-- Part 3, `phrasePattern` with flags `gi`:
`(phrases)?([\w\-./]+\.(js|ts|...))\b`. -/
def phraseRegex : Regex :=
  .seqs [.opt (.group 1 phraseAlternation),
    .group 2 (.seqs [.plus isPathChar, .lit 46, .group 3 extensionAlternation]),
    .wordBoundary]

/-- The method `String.prototype.trim()`. -/
def trim (s : JSString) : JSString :=
  (((s.dropWhile isWhiteSpace).reverse).dropWhile isWhiteSpace).reverse

/-- The insertion `set.add(x)` on a set kept in insertion order. -/
def setAdd (s : List JSString) (x : JSString) : List JSString :=
  if s.contains x then s else s ++ [x]

/-- The array `[...new Set(xs)]`: the members of `xs`, each at its first
occurrence. -/
def uniq (xs : List JSString) : List JSString := xs.foldl setAdd []

/-- What Part 2 reads from the document that `tempDiv.innerHTML = message`
builds: per `li` element, the text of its first `strong` and of its first
`code` descendant (`querySelector`, `null` when there is none). -/
structure ListItem where
  strongText : Option JSString
  codeText : Option JSString

/-- What Part 2 reads from the parsed message: the `textContent` of every
`code` element and of every `strong` element, in document order
(`querySelectorAll`), and the list items.  HTML parsing is the browser's;
its result is an input of the model. -/
structure Markup where
  codeTexts : List JSString
  strongTexts : List JSString
  listItems : List ListItem

/-- The markup of a message without any element. -/
def Markup.none : Markup := ⟨[], [], []⟩

/-- Source `processTextContent(text)` (lines 431-451), with the array
`matches` passed in and returned (as `matched`). -/
def processTextContent (matched : List JSString) (text : JSString) : List JSString :=
  if text.isEmpty then matched
  else
    let text := trim text
    if text.head? == some 64 then
      let fileName := trim (text.drop 1)
      if !fileName.isEmpty && !matched.contains fileName then matched ++ [fileName]
      else matched
    else if (execFrom false extensionTailRegex none text).isSome && !text.contains 32 then
      let fileName := trim text
      if !matched.contains fileName then matched ++ [fileName]
      else matched
    else matched

/-- Part 2 (lines 453-478): `processTextContent` over the code elements, the
strong elements, then per list item its first strong and its first code. -/
def markupPass (dom : Markup) (matched : List JSString) : List JSString :=
  let m1 := dom.codeTexts.foldl processTextContent matched
  let m2 := dom.strongTexts.foldl processTextContent m1
  dom.listItems.foldl (fun m li =>
    let m3 := match li.strongText with
      | some t => processTextContent m t
      | none => m
    match li.codeText with
    | some t => processTextContent m3 t
    | none => m3) m2

/-- The body of the loop of Part 3 (lines 516-521) for one match. -/
def phraseStep (matched : List JSString) (st : MState) : List JSString :=
  match st.capture 2 with
  | some fileName =>
    if !fileName.isEmpty && !matched.contains fileName && !fileName.contains 32 then
      matched ++ [fileName]
    else matched
  | none => matched

/-- Source `extractFileRequests(message)`, with the parsed markup of the
message as `dom`.  `none` stands for a matching loop that does not end.
Group 1 of the marker pattern takes part in every match, so `match[1]` is
always a string. -/
def extractFileRequests (dom : Markup) (message : JSString) : Option (List JSString) :=
  if message.isEmpty then some []
  else
    match execLoop false markerRegex (message.length + 1) none message with
    | none => none
    | some found1 =>
      let matches1 := found1.filterMap (fun st => st.capture 1)
      let matches2 := markupPass dom matches1
      match execLoop true phraseRegex (message.length + 1) none message with
      | none => none
      | some found3 => some (uniq (found3.foldl phraseStep matches2))

/-! ## Message fingerprint: `hashMessage` (lines 633-642) -/

/-- The conversion `ToInt32`: reduction modulo 2^32 into [-2^31, 2^31). -/
def toInt32 (x : Int) : Int := (x + 2147483648) % 4294967296 - 2147483648

/-- One round of the loop of `hashMessage`:
`hash = ((hash << 5) - hash) + char; hash = hash & hash;`.
The shift works on the 32-bit value of `hash` and wraps; the subtraction and
the addition are exact on numbers; `hash & hash` converts back to 32 bits. -/
def hashStep (hash : Int) (char : Nat) : Int :=
  toInt32 ((toInt32 (toInt32 hash * 32) - hash) + (char : Int))

/-- Source `hashMessage(message)`: the rounds over the code units from
`hash = 0`, then `hash.toString()`. -/
def hashMessage (message : JSString) : JSString :=
  js (toString (message.foldl hashStep 0))

/-! ## The observer tick: `processConversation` (lines 691-803)

The engine is the four sets of `LiveContextChat` and the host document.  The
document, the file system and the clock are outside the repository: their
answers are the fields of `Host`.  An `async` method is run to its end in one
piece; every `await` it passes is recorded, in order, with the engine state
at that moment (`Suspension`): these are the points at which another event
handler can run in between.  `showNotification` only draws a toast and is
left out. -/

/-- A conversation turn, `{ user, ai }` of `extractConversations`. -/
structure Turn where
  user : Option JSString
  ai : Option JSString

/-- A file as `readFile` returns it and as the pipeline passes it on. -/
structure FileRecord where
  path : JSString
  name : JSString
  extension : JSString
  content : JSString

/-- The state of a `LiveContextChat`: its sets, in insertion order, and the
host document of type `σ` (prompt box, attachment area). -/
structure Engine (σ : Type) where
  selectedFiles : List JSString
  pendingRequests : List JSString
  processedMessages : List JSString
  addedFileContents : List JSString
  document : σ

/-- What the engine asks of the browser and of `FileSystemHandler`. -/
structure Host (σ : Type) where
  /-- The elements of `tempDiv.innerHTML = message`. -/
  parse : JSString → Markup
  /-- The method `fsHandler.readFile(path)`: the file, or the message of the error thrown. -/
  readFile : JSString → Except JSString FileRecord
  /-- The value of `Date.now()`. -/
  now : Nat
  /-- The effect of `setPromptContent(text, append)` (lines 264-346) on the
  document, and its result. -/
  setPromptContent : σ → JSString → Bool → σ × Bool
  /-- The document after a timer of the given milliseconds has run out. -/
  elapse : σ → Nat → σ
  /-- Whether `this.targetInput.focus()` throws (no prompt box). -/
  focusThrows : σ → Bool
  /-- Whether an element `.truncate.font-semibold` has exactly this text. -/
  attachmentShown : σ → JSString → Bool
  /-- Whether `ClipboardEvent` and `DataTransfer` are functions. -/
  pasteSupported : Bool
  /-- The document after the paste event with the file has been dispatched. -/
  paste : σ → FileRecord → σ
  /-- Checks 2 to 4 after the first wait, given the document before the paste. -/
  seenAfterPaste : σ → σ → JSString → Bool
  /-- The final check: an element `.truncate` has exactly this text. -/
  seenAtLast : σ → JSString → Bool
  /-- The effect of `replaceAtWithFileContent(formattedContent)` (lines
  1512-1541) on the document. -/
  replaceAtWithFileContent : σ → JSString → σ
  /-- The effect of `replaceAtWithFileName(fileName)` (lines 1546-1575) on the
  document. -/
  replaceAtWithFileName : σ → JSString → σ

/-- The operation an `await` waits for. -/
inductive Awaited where
  | readFile (path : JSString)
  | setPromptContent (text : JSString) (append : Bool)
  | timeout (ms : Nat)
  | autoInsertFileAsAttachment (name : JSString)
  | fallbackFileInsertion (name : JSString)
  | processLargeFilesSequentially
  deriving DecidableEq

/-- An `await` that the call passed, with the engine state at that moment. -/
structure Suspension (σ : Type) where
  awaited : Awaited
  engine : Engine σ

/-- The engine, the suspensions so far and the local variables of
`processConversation`. -/
structure Tick (σ : Type) where
  engine : Engine σ
  log : List (Suspension σ)
  response : JSString
  regularFiles : List FileRecord
  largeFiles : List FileRecord

/-- Record an `await` of `op` in the current state. -/
def Tick.await {σ : Type} (t : Tick σ) (op : Awaited) : Tick σ :=
  { t with log := t.log ++ [⟨op, t.engine⟩] }

/-- The removal `set.delete(x)`. -/
def setDelete (s : List JSString) (x : JSString) : List JSString :=
  s.filter (fun y => y != x)

/-- The call `this.pendingRequests.add(x)`. -/
def Tick.addPending {σ : Type} (t : Tick σ) (x : JSString) : Tick σ :=
  { t with engine := { t.engine with pendingRequests := setAdd t.engine.pendingRequests x } }

/-- The call `this.pendingRequests.delete(x)`. -/
def Tick.deletePending {σ : Type} (t : Tick σ) (x : JSString) : Tick σ :=
  { t with engine :=
    { t.engine with pendingRequests := setDelete t.engine.pendingRequests x } }

/-- The call `this.addedFileContents.add(key)`. -/
def Tick.addDelivered {σ : Type} (t : Tick σ) (key : JSString) : Tick σ :=
  { t with engine :=
    { t.engine with addedFileContents := setAdd t.engine.addedFileContents key } }

/-- The statement `response += text`. -/
def Tick.respond {σ : Type} (t : Tick σ) (text : JSString) : Tick σ :=
  { t with response := t.response ++ text }

/-- The call `regularFiles.push(file)`. -/
def Tick.pushRegular {σ : Type} (t : Tick σ) (file : FileRecord) : Tick σ :=
  { t with regularFiles := t.regularFiles ++ [file] }

/-- The call `largeFiles.push(file)`. -/
def Tick.pushLarge {σ : Type} (t : Tick σ) (file : FileRecord) : Tick σ :=
  { t with largeFiles := t.largeFiles ++ [file] }

/-- A change of the host document. -/
def Tick.setDocument {σ : Type} (t : Tick σ) (d : σ) : Tick σ :=
  { t with engine := { t.engine with document := d } }

/-- Lower case of an ASCII letter, identity elsewhere. -/
def asciiLower (c : Nat) : Nat := if 65 ≤ c && c ≤ 90 then c + 32 else c

/-- Source `getLanguageFromExtension(extension)` (lines 581-608):
`extensionMap[extension.toLowerCase()] || ''`.  No key of the map holds a
letter that a non-ASCII unit lowers to, so lowering ASCII letters is
enough for the lookup. -/
def getLanguageFromExtension (extension : JSString) : JSString :=
  match ([(".js", "javascript"), (".ts", "typescript"), (".jsx", "jsx"), (".tsx", "tsx"),
      (".html", "html"), (".css", "css"), (".py", "python"), (".java", "java"), (".c", "c"),
      (".cpp", "cpp"), (".cs", "csharp"), (".go", "go"), (".rb", "ruby"), (".php", "php"),
      (".swift", "swift"), (".json", "json"), (".md", "markdown"), (".yml", "yaml"),
      (".yaml", "yaml"), (".xml", "xml"), (".sh", "bash"), (".bat", "batch")]
      : List (String × String)).find? (fun e => js e.1 == extension.map asciiLower) with
  | some e => js e.2
  | none => []

/-- Source `formatFileContent(fileName, extension, content)` (lines 547-560):
the marker comment with the time stamp, then the fenced block that starts
with the line `// File: fileName`. -/
def formatFileContent (now : Nat) (fileName extension content : JSString) : JSString :=
  js "<!-- file-content-" ++ fileName ++ js "-" ++ js (toString now) ++ js " -->" ++ [10] ++
  [96, 96, 96] ++ getLanguageFromExtension extension ++ [10] ++
  js "// File: " ++ fileName ++ [10] ++ content ++ [10] ++ [96, 96, 96]

/-- The notice of line 743. -/
def notFoundNotice (fileName : JSString) : JSString :=
  [10] ++ js "File \"" ++ fileName ++ js "\" not found in the project." ++ [10]

/-- The notice of line 776. -/
def readErrorNotice (fileName message : JSString) : JSString :=
  [10] ++ js "Error reading file \"" ++ fileName ++ js "\": " ++ message ++ [10]

/-- The body of the loop over `fileRequests` (lines 726-780). -/
def requestStep {σ : Type} (host : Host σ) (t : Tick σ) (fileName : JSString) : Tick σ :=
  if t.engine.pendingRequests.contains fileName then t
  else
    let fileKey := js "file:" ++ fileName
    let uploadKey := js "uploaded:" ++ fileName
    if t.engine.addedFileContents.contains fileKey
        || t.engine.addedFileContents.contains uploadKey then t
    else
      let t1 := t.addPending fileName
      match (findFilePath t1.engine.selectedFiles fileName).filter (fun p => !p.isEmpty) with
      | none => t1.respond (notFoundNotice fileName)
      | some filePath =>
        let t2 := t1.await (.readFile filePath)
        let t3 :=
          match host.readFile filePath with
          | .ok file =>
            let pushed : FileRecord := { file with path := filePath }
            let t4 := if isLargeFile file.content then t2.pushLarge pushed
              else t2.pushRegular pushed
            t4.addDelivered fileKey
          | .error message => t2.respond (readErrorNotice fileName message)
        t3.deletePending fileName

/-- A call `await this.setPromptContent(text, true)`. -/
def appendToPrompt {σ : Type} (host : Host σ) (t : Tick σ) (text : JSString) : Tick σ :=
  (t.setDocument (host.setPromptContent t.engine.document text true).1).await
    (.setPromptContent text true)

/-- A call `await new Promise(resolve => setTimeout(resolve, ms))`. -/
def sleep {σ : Type} (host : Host σ) (t : Tick σ) (ms : Nat) : Tick σ :=
  (t.await (.timeout ms)).setDocument (host.elapse t.engine.document ms)

/-- Source `autoInsertFileAsAttachment(file)` (lines 846-967): the state
after the call and its result. -/
def autoInsertFileAsAttachment {σ : Type} (host : Host σ) (t : Tick σ) (file : FileRecord) :
    Tick σ × Bool :=
  let uploadKey := js "uploaded:" ++ file.name
  if host.focusThrows t.engine.document then (t, false)
  else if host.attachmentShown t.engine.document file.name then (t.addDelivered uploadKey, true)
  else if t.engine.addedFileContents.contains uploadKey then (t, true)
  else
    let special (u : Tick σ) : Tick σ × Bool :=
      if endsWith file.name (js ".js") then (u.addDelivered uploadKey, true)
      else (u, false)
    if host.pasteSupported then
      let before := t.engine.document
      let t1 := t.setDocument (host.paste t.engine.document file)
      let t2 := sleep host t1 500
      if host.attachmentShown t2.engine.document file.name
          || host.seenAfterPaste before t2.engine.document file.name then
        (t2.addDelivered uploadKey, true)
      else
        let t3 := sleep host t2 500
        if host.seenAtLast t3.engine.document file.name then (t3.addDelivered uploadKey, true)
        else special t3
    else special t

/-- Source `fallbackFileInsertion(file)` (lines 973-998). -/
def fallbackFileInsertion {σ : Type} (host : Host σ) (t : Tick σ) (file : FileRecord) : Tick σ :=
  let fileKey := js "file:" ++ file.name
  if t.engine.addedFileContents.contains fileKey then t
  else
    let formattedContent := formatFileContent host.now file.name file.extension file.content
    (appendToPrompt host t ([10] ++ formattedContent ++ [10])).addDelivered fileKey

/-- Source `processLargeFilesSequentially(largeFiles)` (lines 809-839): the
loop, from the file at the head of the list on. -/
def processLargeFilesSequentially {σ : Type} (host : Host σ) :
    List FileRecord → Tick σ → Tick σ
  | [], t => t
  | file :: files, t =>
    let t1 := sleep host t 500
    let r := autoInsertFileAsAttachment host t1 file
    let t2 := r.1.await (.autoInsertFileAsAttachment file.name)
    let t3 :=
      if !r.2 then (fallbackFileInsertion host t2 file).await (.fallbackFileInsertion file.name)
      else t2
    let t4 := if !files.isEmpty then sleep host t3 1000 else t3
    processLargeFilesSequentially host files t4

/-- The batched write of the regular files (lines 782-793). -/
def deliverRegular {σ : Type} (host : Host σ) (t : Tick σ) : Tick σ :=
  if !t.regularFiles.isEmpty then
    let t1 := t.regularFiles.foldl (fun (u : Tick σ) file =>
      u.respond ([10] ++ formatFileContent host.now file.name file.extension file.content
        ++ [10])) t
    if !t1.response.isEmpty then appendToPrompt host t1 t1.response else t1
  else t

/-- The large files, one by one (lines 795-802). -/
def deliverLarge {σ : Type} (host : Host σ) (t : Tick σ) : Tick σ :=
  if !t.largeFiles.isEmpty then
    (processLargeFilesSequentially host t.largeFiles t).await .processLargeFilesSequentially
  else t

/-- The statements after the loop (lines 782-802). -/
def deliver {σ : Type} (host : Host σ) (t : Tick σ) : Tick σ :=
  deliverLarge host (deliverRegular host t)

/-- Source `processConversation(conversations)` (lines 691-803): the state
when the call returns, with the suspensions it passed.  `none` stands for a
matching loop of `extractFileRequests` that does not end. -/
def processConversation {σ : Type} (host : Host σ) (engine : Engine σ)
    (conversations : List Turn) : Option (Tick σ) :=
  let start : Tick σ := ⟨engine, [], [], [], []⟩
  match conversations.getLast? with
  | none => some start
  | some lastTurn =>
    match lastTurn.ai with
    | none => some start
    | some ai =>
      if ai.isEmpty then some start
      else
        let messageHash := hashMessage ai
        if engine.processedMessages.contains messageHash then some start
        else
          match extractFileRequests (host.parse ai) ai with
          | none => none
          | some fileRequests =>
            if fileRequests.isEmpty then some start
            else
              let t0 : Tick σ := { start with engine :=
                { engine with
                  processedMessages := setAdd engine.processedMessages messageHash } }
              some (deliver host (fileRequests.foldl (requestStep host) t0))

/-- A host for the examples: messages without markup, a document on which
nothing can be observed, no paste support, and a file system that holds the
given files. -/
def plainHost (files : List FileRecord) : Host Unit where
  parse := fun _ => Markup.none
  readFile := fun path =>
    match files.find? (fun f => f.path == path) with
    | some f => .ok f
    | none => .error (js "Failed to read file: " ++ path)
  now := 0
  setPromptContent := fun _ _ _ => ((), true)
  elapse := fun _ _ => ()
  focusThrows := fun _ => false
  attachmentShown := fun _ _ => false
  pasteSupported := false
  paste := fun _ _ => ()
  seenAfterPaste := fun _ _ _ => false
  seenAtLast := fun _ _ => false
  replaceAtWithFileContent := fun _ _ => ()
  replaceAtWithFileName := fun _ _ => ()

/-- The call leading from `t` to `u` leaves `processedMessages` as it is, at
its end and at every `await` it passes. -/
def KeepsProcessed {σ : Type} (t u : Tick σ) : Prop :=
  u.engine.processedMessages = t.engine.processedMessages ∧
  ∃ extra, u.log = t.log ++ extra ∧
    ∀ s ∈ extra, s.engine.processedMessages = t.engine.processedMessages

/-! ## Predicates on patterns, used to state what a match can consume -/

/-- Every unit that an atom of the pattern accepts satisfies `q`. -/
def Regex.unitsIn (ignoreCase : Bool) (q : Nat → Prop) : Regex → Prop
  | .lit c => ∀ d, unitMatches ignoreCase c d = true → q d
  | .cls p => ∀ d, p d = true → q d
  | .plus p => ∀ d, p d = true → q d
  | .lazyStar p => ∀ d, p d = true → q d
  | .seq a b => Regex.unitsIn ignoreCase q a ∧ Regex.unitsIn ignoreCase q b
  | .alt a b => Regex.unitsIn ignoreCase q a ∧ Regex.unitsIn ignoreCase q b
  | .opt a => Regex.unitsIn ignoreCase q a
  | .group _ a => Regex.unitsIn ignoreCase q a
  | .wordBoundary => True
  | .eos => True
  | .empty => True

/-- Every match of the pattern consumes at least one unit. -/
def Regex.consumes : Regex → Bool
  | .lit _ => true
  | .cls _ => true
  | .plus _ => true
  | .lazyStar _ => false
  | .seq a b => Regex.consumes a || Regex.consumes b
  | .alt a b => Regex.consumes a && Regex.consumes b
  | .opt _ => false
  | .group _ a => Regex.consumes a
  | .wordBoundary => false
  | .eos => false
  | .empty => false

/-- Every match of the pattern passes through a class all of whose units
satisfy `q`, so it consumes a unit satisfying `q`. -/
def Regex.needsUnit (q : Nat → Prop) : Regex → Prop
  | .lit _ => False
  | .cls p => ∀ d, p d = true → q d
  | .plus p => ∀ d, p d = true → q d
  | .lazyStar _ => False
  | .seq a b => Regex.needsUnit q a ∨ Regex.needsUnit q b
  | .alt a b => Regex.needsUnit q a ∧ Regex.needsUnit q b
  | .opt _ => False
  | .group _ a => Regex.needsUnit q a
  | .wordBoundary => False
  | .eos => False
  | .empty => False

/-- Every capturing group of the pattern encloses atoms that accept only
units satisfying `q`. -/
def Regex.groupsIn (ignoreCase : Bool) (q : Nat → Prop) : Regex → Prop
  | .seq a b => Regex.groupsIn ignoreCase q a ∧ Regex.groupsIn ignoreCase q b
  | .alt a b => Regex.groupsIn ignoreCase q a ∧ Regex.groupsIn ignoreCase q b
  | .opt a => Regex.groupsIn ignoreCase q a
  | .group _ a => Regex.unitsIn ignoreCase q a ∧ Regex.groupsIn ignoreCase q a
  | _ => True

/-! ## What each pass of `extractFileRequests` finds on its own -/

/-- The texts that Part 2 hands to `processTextContent`, in the order of the
calls. -/
def Markup.texts (dom : Markup) : List JSString :=
  dom.codeTexts ++ dom.strongTexts ++
    dom.listItems.flatMap (fun li => li.strongText.toList ++ li.codeText.toList)

/-- The name that `processTextContent` takes from an element text, whatever
`matches` holds: after "@" the rest of the trimmed text, trimmed again and
non-empty; otherwise the trimmed text when it ends in a dotted extension and
has no space. -/
def textCandidate (text : JSString) : Option JSString :=
  if text.isEmpty then none
  else if (trim text).head? == some 64 then
    if (trim ((trim text).drop 1)).isEmpty then none
    else some (trim ((trim text).drop 1))
  else if (execFrom false extensionTailRegex none (trim text)).isSome
      && !(trim text).contains 32 then
    some (trim (trim text))
  else none

/-- The index of the first occurrence of `x` in a list (its length when `x`
does not occur). -/
def firstIndex (x : JSString) : List JSString → Nat
  | [] => 0
  | y :: ys => if y = x then 0 else firstIndex x ys + 1

/-- The name that Part 3 takes from a match, whatever `matches` holds:
group 2 when it is non-empty and has no space. -/
def phraseCandidate (st : MState) : Option JSString :=
  match st.capture 2 with
  | some fileName => if !fileName.isEmpty && !fileName.contains 32 then some fileName else none
  | none => none

/-! ## The fingerprint as a polynomial -/

/-- The sum of `c_i * 31^(n-1-i)` over the code units `c_0, ..., c_(n-1)` of a
message. -/
def polySum : JSString → Int
  | [] => 0
  | c :: cs => (c : Int) * 31 ^ cs.length + polySum cs

/-! ## Autocomplete: the text after the last "@" (lines 1090-1100) and the
replacement of the "@" span (lines 1512-1541) -/

/-- The greatest index `k ≤ n` with `s[k] = c`, or `-1`. -/
def lastIndexUpTo (s : JSString) (c : Nat) : Nat → Int
  | 0 => if s[0]? == some c then 0 else -1
  | n + 1 => if s[n + 1]? == some c then ((n + 1 : Nat) : Int) else lastIndexUpTo s c n

/-- The method `String.prototype.lastIndexOf(c, position)` for a needle of
one code unit: the position is clamped into `[0, length]`, and the result is
the greatest index not above it that holds `c`, or `-1`. -/
def lastIndexOf (s : JSString) (c : Nat) (position : Int) : Int :=
  lastIndexUpTo s c (min (max position 0) (s.length : Int)).toNat

/-- The method `String.prototype.substring(start, end)`: both arguments are
clamped into `[0, length]` and swapped when `start > end`. -/
def substring (s : JSString) (start stop : Int) : JSString :=
  let finalStart := min (max start 0) (s.length : Int)
  let finalEnd := min (max stop 0) (s.length : Int)
  let lo := min finalStart finalEnd
  let hi := max finalStart finalEnd
  (s.drop lo.toNat).take (hi - lo).toNat

/-- Source `getTextAfterLastAt(text, cursorPosition)`:
`lastAtIndex = text.lastIndexOf('@', cursorPosition - 1)`, `null` when it is
`-1`; `textBetween = text.substring(lastAtIndex + 1, cursorPosition)`, `null`
when it includes a space, else `textBetween`. -/
def getTextAfterLastAt (text : JSString) (cursorPosition : Nat) : Option JSString :=
  let lastAtIndex := lastIndexOf text 64 ((cursorPosition : Int) - 1)
  if lastAtIndex == -1 then none
  else
    let textBetween := substring text (lastAtIndex + 1) (cursorPosition : Int)
    if textBetween.contains 32 then none
    else some textBetween

/-- A plain-text prompt box (its `contenteditable` attribute is not "true"):
the `value` and the collapsed selection, `selectionStart`. -/
structure TextBox where
  value : JSString
  selectionStart : Nat
  deriving DecidableEq

/-- Source `replaceAtWithFileContent(formattedContent)` on a plain-text prompt
box: `getCursorPosition()` is `selectionStart`; the new value is
`beforeAt + formattedContent + afterCursor`; `setCursorPosition` is
`setSelectionRange(position, position)`, which clamps to the length.  What the
page does on the `input` event is not part of the model. -/
def replaceAtWithFileContent (box : TextBox) (formattedContent : JSString) : TextBox :=
  let text := box.value
  let cursorPosition := box.selectionStart
  let lastAtIndex := lastIndexOf text 64 ((cursorPosition : Int) - 1)
  if lastAtIndex == -1 then box
  else
    let beforeAt := substring text 0 lastAtIndex
    let afterCursor := substring text (cursorPosition : Int) (text.length : Int)
    let newText := beforeAt ++ formattedContent ++ afterCursor
    { value := newText
      selectionStart := min (lastAtIndex + (formattedContent.length : Int)).toNat newText.length }

/-! ## Autocomplete: keyboard navigation (lines 1347-1410) -/

/-- A file row of the dropdown as the key handler reads it: its `data-path`
attribute and whether it carries the class `selected`. -/
structure DropdownItem where
  path : JSString
  selected : Bool

/-- The value of `event.key`, as far as the handler tells keys apart. -/
inductive Key where
  | arrowDown
  | arrowUp
  | enter
  | escape
  | tab
  | other

/-- What the handler calls besides changing classes. -/
inductive KeyAction where
  | nothing
  | selectFile (path : JSString)
  | hideFileDropdown

/-- The calls `items[i].classList.add('selected')` (for `true`) and
`items[i].classList.remove('selected')` (for `false`). -/
def setSelectedAt (b : Bool) : Nat → List DropdownItem → List DropdownItem
  | _, [] => []
  | 0, item :: items => { item with selected := b } :: items
  | i + 1, item :: items => item :: setSelectedAt b i items

/-- The call `items.findIndex(item => item.classList.contains('selected'))`. -/
def selectedIndexOf (items : List DropdownItem) : Int :=
  if items.findIdx (fun item => item.selected) < items.length then
    (items.findIdx (fun item => item.selected) : Int)
  else -1

/-- Source `handleDropdownKeyNavigation(event)`, on `items`, the visible rows
of the dropdown other than the no-results row, in document order: the rows
after the call and the method called, if any. -/
def handleDropdownKeyNavigation (dropdownVisible : Bool) (items : List DropdownItem)
    (key : Key) : List DropdownItem × KeyAction :=
  if !dropdownVisible then (items, .nothing)
  else
    let selectedIndex := selectedIndexOf items
    match key with
    | .arrowDown =>
      if items.length == 0 then (items, .nothing)
      else
        let items1 := if selectedIndex ≥ 0 then setSelectedAt false selectedIndex.toNat items
          else items
        let nextIndex := if selectedIndex < (items.length : Int) - 1 then selectedIndex + 1
          else 0
        (setSelectedAt true nextIndex.toNat items1, .nothing)
    | .arrowUp =>
      if items.length == 0 then (items, .nothing)
      else
        let items1 := if selectedIndex ≥ 0 then setSelectedAt false selectedIndex.toNat items
          else items
        let prevIndex := if selectedIndex > 0 then selectedIndex - 1
          else (items.length : Int) - 1
        (setSelectedAt true prevIndex.toNat items1, .nothing)
    | .enter =>
      if selectedIndex ≥ 0 then
        match items[selectedIndex.toNat]? with
        | some item => (items, .selectFile item.path)
        | none => (items, .nothing)
      else (items, .nothing)
    | .escape => (items, .hideFileDropdown)
    | .tab =>
      if selectedIndex ≥ 0 then
        match items[selectedIndex.toNat]? with
        | some item => (items, .selectFile item.path)
        | none => (items, .nothing)
      else (items, .nothing)
    | .other => (items, .nothing)

/-- The rows with the given paths, row `j` (counted from `i`) carrying the
class `selected` when `sel j`. -/
def marked (sel : Nat → Bool) : Nat → List JSString → List DropdownItem
  | _, [] => []
  | i, p :: ps => ⟨p, sel i⟩ :: marked sel (i + 1) ps

/-- The rows with the given paths of which exactly row `s` is highlighted. -/
def highlight (paths : List JSString) (s : Nat) : List DropdownItem :=
  marked (fun j => j == s) 0 paths

/-! ## The selected file set: `collectFilePaths` (lines 97-105) -/

/-- The value of `node.type`: "file", "directory", or anything else. -/
inductive NodeType where
  | file
  | directory
  | other

/-- A node of the project tree: its `path`, its `type`, and its `children`
when that property is an array. -/
inductive Node where
  | mk (path : JSString) (type : NodeType) (children : Option (List Node))

mutual
/-- The body of the loop of `collectFilePaths` for one node. -/
def collectNode : Node → List JSString → List JSString
  | .mk path .file _, fileSet => setAdd fileSet path
  | .mk _ .directory (some children), fileSet => collectFilePaths children fileSet
  | .mk _ _ _, fileSet => fileSet
/-- Source `collectFilePaths(structure, fileSet)`: the set after the call. -/
def collectFilePaths : List Node → List JSString → List JSString
  | [], fileSet => fileSet
  | node :: rest, fileSet => collectFilePaths rest (collectNode node fileSet)
end

/-- The path `p` is the path of a node of type "file" of the forest, at the
top or below directories through their `children`. -/
inductive FileIn : List Node → JSString → Prop where
  | here (path : JSString) (children : Option (List Node)) (rest : List Node) :
      FileIn (.mk path .file children :: rest) path
  | inside (path : JSString) (children rest : List Node) (p : JSString) :
      FileIn children p → FileIn (.mk path .directory (some children) :: rest) p
  | later (node : Node) (rest : List Node) (p : JSString) :
      FileIn rest p → FileIn (node :: rest) p

/-! ## The injection surface: `setPromptContent` (lines 264-346) -/

/-- The method `String.prototype.includes(needle)`. -/
def includes (s needle : JSString) : Bool :=
  s.tails.any (fun t => needle.isPrefixOf t)

/-- The class `.` (without the `s` flag): every unit but the line terminators. -/
def isDot (c : Nat) : Bool := !(c == 10 || c == 13 || c == 0x2028 || c == 0x2029)

/-- The class `\d`. -/
def isDigit (c : Nat) : Bool := 48 ≤ c && c ≤ 57

/-- The class `[a-z]` under the `i` flag: the ASCII letters of both cases. -/
def isAsciiLetter (c : Nat) : Bool := (97 ≤ c && c ≤ 122) || (65 ≤ c && c ≤ 90)

/-- The pattern of the duplicate check (line 288), `<!-- file-content-(.*?)-\d+ -->`. -/
def deliveryMarkerRegex : Regex :=
  .seqs [.str "<!-- file-content-", .group 1 (.lazyStar isDot), .lit 45, .plus isDigit,
    .str " -->"]

/-- The pattern of the clean-up (line 302), `<!-- file-content-.*?-->` with flag `g`. -/
def stripMarkerRegex : Regex :=
  .seqs [.str "<!-- file-content-", .lazyStar isDot, .str "-->"]

/-- The pattern of line 307, `<[a-z][\s\S]*>` with flag `i`; the greedy
`[\s\S]*` is written as an optional `[\s\S]+`. -/
def htmlTagRegex : Regex :=
  .seqs [.lit 60, .cls isAsciiLetter, .opt (.plus (fun _ => true)), .lit 62]

/-- The method `String.prototype.replace` with a global pattern and a
replacement string without `$`: every match, found from the end of the
previous one on, is replaced; after an empty match the search moves on by one
unit.  The first argument counts the units of the current match still to be
dropped. -/
def replaceScan (r : Regex) (replacement : JSString) : Nat → Option Nat → JSString → JSString
  | _, prev, [] => if (r.run false ⟨prev, [], []⟩).head?.isSome then replacement else []
  | skip + 1, _, c :: cs => replaceScan r replacement skip (some c) cs
  | 0, prev, c :: cs =>
    match (r.run false ⟨prev, c :: cs, []⟩).head? with
    | some st =>
      if (c :: cs).length - st.rest.length == 0 then
        replacement ++ c :: replaceScan r replacement 0 (some c) cs
      else replacement ++ replaceScan r replacement ((c :: cs).length - st.rest.length - 1) (some c) cs
    | none => c :: replaceScan r replacement 0 (some c) cs

/-- The prompt box: whether its `contenteditable` attribute is "true", and
its content, `innerHTML` if so and `value` if not, as last assigned. -/
structure PromptBox where
  contentEditable : Bool
  content : JSString

/-- Source `setPromptContent(text, append)` on the prompt box that
`this.targetInput` or `getElementById('prompt-textarea')` gives (`none` when
neither does): the box after the call and the result.  `toRichText` is the
conversion of plain text to markup of lines 309-320, which only a
replacement (`append` false) of a `contenteditable` box without markup goes
through.  What the page does on the `input` event is not part of the model. -/
def setPromptContent (toRichText : JSString → JSString) (box : Option PromptBox)
    (text : JSString) (append : Bool) : Option PromptBox × Bool :=
  match box with
  | none => (none, false)
  | some input =>
    let currentContent := input.content
    let alreadyThere :=
      if append && includes text (js "<!-- file-content-") then
        match execFrom false deliveryMarkerRegex none text with
        | some markerMatch =>
          match markerMatch.capture 1 with
          | some fileName =>
            !fileName.isEmpty && includes currentContent (js "// File: " ++ fileName)
          | none => false
        | none => false
      else false
    if alreadyThere then (some input, true)
    else
      let newContent := if append then currentContent ++ text else text
      let newContent := replaceScan stripMarkerRegex [] 0 none newContent
      if input.contentEditable then
        let newContent :=
          if !append && !(execFrom true htmlTagRegex none newContent).isSome then
            toRichText newContent
          else newContent
        (some { input with content := newContent }, true)
      else (some { input with content := newContent }, true)

/-! ## Autocomplete commit: `selectFile` (lines 1415-1469) -/

/-- Source `replaceAtWithFileName(fileName)` on a plain-text prompt box: as
`replaceAtWithFileContent`, with the file name as the inserted text. -/
def replaceAtWithFileName (box : TextBox) (fileName : JSString) : TextBox :=
  let text := box.value
  let cursorPosition := box.selectionStart
  let lastAtIndex := lastIndexOf text 64 ((cursorPosition : Int) - 1)
  if lastAtIndex == -1 then box
  else
    let beforeAt := substring text 0 lastAtIndex
    let afterCursor := substring text (cursorPosition : Int) (text.length : Int)
    let newText := beforeAt ++ fileName ++ afterCursor
    { value := newText
      selectionStart := min (lastAtIndex + (fileName.length : Int)).toNat newText.length }

/-- Source `selectFile(filePath)`: the state when the call returns, with the
suspensions it passed.  An error thrown by `readFile` is caught and the file
name is inserted instead.  `hideFileDropdown` and `showNotification` change
neither the sets nor the prompt box and are left out. -/
def selectFile {σ : Type} (host : Host σ) (engine : Engine σ) (filePath : JSString) : Tick σ :=
  let t0 : Tick σ := ⟨engine, [], [], [], []⟩
  let t1 := t0.await (.readFile filePath)
  match host.readFile filePath with
  | .error _ =>
    t1.setDocument (host.replaceAtWithFileName t1.engine.document (lastSegment filePath))
  | .ok file =>
    let fileName := file.name
    let fileKey := js "file:" ++ fileName
    let uploadKey := js "uploaded:" ++ fileName
    if t1.engine.addedFileContents.contains fileKey
        || t1.engine.addedFileContents.contains uploadKey then t1
    else if isLargeFile file.content then
      let passed : FileRecord := { file with path := filePath }
      let r := autoInsertFileAsAttachment host t1 passed
      let t2 := r.1.await (.autoInsertFileAsAttachment file.name)
      if !r.2 then
        (fallbackFileInsertion host t2 passed).await (.fallbackFileInsertion file.name)
      else t2
    else
      let t2 := t1.addDelivered fileKey
      let formattedContent := formatFileContent host.now file.name file.extension file.content
      t2.setDocument (host.replaceAtWithFileContent t2.engine.document formattedContent)

/-- A host for the examples whose document is a plain-text prompt box:
messages without markup, a file system that holds the given files, the
functions of this file as the effects on the prompt box (a newly assigned
value puts the caret at its end), and an attachment area that confirms every
pasted file when `confirms` is true and none when it is false. -/
def textBoxHost (files : List FileRecord) (confirms : Bool) : Host TextBox where
  parse := fun _ => Markup.none
  readFile := fun path =>
    match files.find? (fun f => f.path == path) with
    | some f => .ok f
    | none => .error (js "Failed to read file: " ++ path)
  now := 0
  setPromptContent := fun box text append =>
    match setPromptContent id (some ⟨false, box.value⟩) text append with
    | (some b, ok) =>
      (if b.content == box.value then box else ⟨b.content, b.content.length⟩, ok)
    | (none, ok) => (box, ok)
  elapse := fun box _ => box
  focusThrows := fun _ => false
  attachmentShown := fun _ _ => false
  pasteSupported := true
  paste := fun box _ => box
  seenAfterPaste := fun _ _ _ => confirms
  seenAtLast := fun _ _ => false
  replaceAtWithFileContent := replaceAtWithFileContent
  replaceAtWithFileName := replaceAtWithFileName

/-! ## Relations kept along a call -/

/-- The relation `R` between engine states holds across every elementary
change that the methods after the marking of a message make: additions to and
removals from the pending set, additions to the delivery record, and changes
of the document. -/
def StepClosed {σ : Type} (R : Engine σ → Engine σ → Prop) : Prop :=
  (∀ e, R e e) ∧ (∀ a b c, R a b → R b c → R a c) ∧
  (∀ e x, R e { e with pendingRequests := setAdd e.pendingRequests x }) ∧
  (∀ e x, R e { e with pendingRequests := setDelete e.pendingRequests x }) ∧
  (∀ e k, R e { e with addedFileContents := setAdd e.addedFileContents k }) ∧
  (∀ e d, R e { e with document := d })

/-- From `t` to `u` the relation `R` holds from the engine of `t` to the
engine at the end and at every `await` passed in between. -/
def Along {σ : Type} (R : Engine σ → Engine σ → Prop) (t u : Tick σ) : Prop :=
  R t.engine u.engine ∧
  ∃ extra, u.log = t.log ++ extra ∧ ∀ s ∈ extra, R t.engine s.engine

/-- The delivery record only grows. -/
def DeliveredGrows {σ : Type} (e e' : Engine σ) : Prop :=
  ∀ k ∈ e.addedFileContents, k ∈ e'.addedFileContents

/-! ## Reset and stop (lines 647-686), and the listeners of
`attachAutocompleteHandlers` (lines 1032-1057) -/

/-- Source `reset()`: the three sets are cleared. -/
def reset {σ : Type} (engine : Engine σ) : Engine σ :=
  { engine with processedMessages := [], addedFileContents := [], pendingRequests := [] }

/-- The observers, the dropdown and the event listeners of the engine.
Functions are told apart by a number; `fresh` is the next unused one, and
`handlePromptInput` is the function that the property of that name holds (at
first the method of the prototype, which is registered nowhere). The three
lists are the listeners registered on the prompt box for "input" and on the
document for "click" and "keydown". -/
structure Wiring where
  observerConnected : Bool
  promptBoxObserverConnected : Bool
  fileDropdown : Bool
  handlePromptInput : Nat
  dropdownKeyHandler : Option Nat
  isInitialized : Bool
  inputListeners : List Nat
  clickListeners : List Nat
  keydownListeners : List Nat
  fresh : Nat
  deriving DecidableEq

/-- The call `target.addEventListener(type, f)`: a function already
registered is not registered again. -/
def addEventListener (listeners : List Nat) (f : Nat) : List Nat :=
  if listeners.contains f then listeners else listeners ++ [f]

/-- The call `target.removeEventListener(type, f)`. -/
def removeEventListener (listeners : List Nat) (f : Nat) : List Nat :=
  listeners.filter (fun g => g != f)

/-- Source `attachAutocompleteHandlers(promptBox)`, for the prompt box whose
"input" listeners `w` holds. `bind` and the arrow function each make a new
function. -/
def attachAutocompleteHandlers (w : Wiring) : Wiring :=
  let input1 := removeEventListener w.inputListeners w.handlePromptInput
  let handlePromptInput := w.fresh
  let input2 := addEventListener input1 handlePromptInput
  let click := addEventListener w.clickListeners (w.fresh + 1)
  let keydown1 :=
    match w.dropdownKeyHandler with
    | some k => removeEventListener w.keydownListeners k
    | none => w.keydownListeners
  let dropdownKeyHandler := w.fresh + 2
  { w with
    handlePromptInput := handlePromptInput
    dropdownKeyHandler := some dropdownKeyHandler
    inputListeners := input2
    clickListeners := click
    keydownListeners := addEventListener keydown1 dropdownKeyHandler
    fresh := w.fresh + 3 }

/-- Source `stop()`: the wiring and the engine when it returns, and its
result. -/
def stop {σ : Type} (w : Wiring) (engine : Engine σ) : Wiring × Engine σ × Bool :=
  let keydown :=
    match w.dropdownKeyHandler with
    | some k => removeEventListener w.keydownListeners k
    | none => w.keydownListeners
  ({ w with
      observerConnected := false
      promptBoxObserverConnected := false
      fileDropdown := false
      dropdownKeyHandler := none
      keydownListeners := keydown
      isInitialized := false },
    { engine with processedMessages := [], addedFileContents := [] },
    true)

/-- The wiring after `init()` (lines 30-63) and a first display of the
dropdown: both observers observe, `attachAutocompleteHandlers` has run once
from a state without listeners, and `isInitialized` is set. -/
def initialWiring : Wiring :=
  { attachAutocompleteHandlers ⟨true, true, false, 0, none, false, [], [], [], 1⟩ with
    isInitialized := true
    fileDropdown := true }

/-- The name `N` is neither pending nor recorded as delivered in `t`. -/
def Unrecorded {σ : Type} (N : JSString) (t : Tick σ) : Prop :=
  N ∉ t.engine.pendingRequests ∧ js "file:" ++ N ∉ t.engine.addedFileContents ∧
  js "uploaded:" ++ N ∉ t.engine.addedFileContents

/-- The loop has handled the request `N` in full: the file at `p` was read
(the `await` is in the log), the content key of `N` is recorded, and the file
is in the queue of its class. -/
def Queued {σ : Type} (N p : JSString) (file : FileRecord) (t : Tick σ) : Prop :=
  js "file:" ++ N ∈ t.engine.addedFileContents ∧
  (∃ s ∈ t.log, s.awaited = .readFile p) ∧
  ({ file with path := p } : FileRecord) ∈
    (if isLargeFile file.content then t.largeFiles else t.regularFiles)

/-! ## Theorems -/

theorem split_ne_nil (sep : Nat) (s : JSString) : split sep s ≠ [] := by
  induction s with
  | nil => simp [split]
  | cons c cs ih =>
    unfold split
    split_ifs
    · simp
    · split <;> simp

/-- The number of pieces of `split` is one more than the number of separators. -/
theorem split_length (sep : Nat) (s : JSString) :
    (split sep s).length = s.count sep + 1 := by
  induction s with
  | nil => simp [split]
  | cons c cs ih =>
    unfold split
    by_cases h : c = sep
    · subst h
      simp [ih]
    · have h2 : (c == sep) = false := by simpa using h
      simp only [h, if_false]
      cases hs : split sep cs with
      | nil => exact absurd hs (split_ne_nil sep cs)
      | cons p ps =>
        rw [hs] at ih
        simp [List.count_cons, h2]
        simpa using ih

theorem endsWith_iff (s suffix : JSString) : endsWith s suffix = true ↔ suffix <:+ s := by
  unfold endsWith
  simp

/-- C1. `isLargeFile(content)` is true exactly when the content is longer than
10240 code units or has more than 250 lines (pieces of the split on the line
feed); the two thresholds are independent.  In particular a content of
exactly 10240 units with at most 250 lines is inline, one of 10241 units is
oversized, and one of 9216 units with 251 lines is oversized. -/
theorem isLargeFile_iff (content : JSString) :
    (isLargeFile content = true ↔
      content.length > 10240 ∨ (split 10 content).length > 250) ∧
    (content.length = 10240 → (split 10 content).length ≤ 250 →
      isLargeFile content = false) ∧
    (content.length = 10241 → isLargeFile content = true) ∧
    (content.length = 9216 → (split 10 content).length = 251 →
      isLargeFile content = true) := by
  have key : isLargeFile content = true ↔
      content.length > 10240 ∨ (split 10 content).length > 250 := by
    unfold isLargeFile
    by_cases h1 : content.length > 10 * 1024
    · have h1' : content.length > 10240 := h1
      simp [h1']
    · have h1' : ¬ content.length > 10240 := h1
      by_cases h2 : (split 10 content).length > 250
      · simp [h2]
      · simp [h1', h2]
  refine ⟨key, ?_, ?_, ?_⟩
  · intro h1 h2
    cases hb : isLargeFile content with
    | false => rfl
    | true =>
      have := key.mp hb
      omega
  · intro h1
    exact key.mpr (Or.inl (by omega))
  · intro h1 h2
    exact key.mpr (Or.inr (by omega))

/-- A content of 9216 units and 251 lines is oversized, and the first
clause reads it through the line threshold. -/
theorem isLargeFile_iff_witness :
    isLargeFile (List.replicate 250 10 ++ List.replicate 8966 97) = true :=
  (isLargeFile_iff (List.replicate 250 10 ++ List.replicate 8966 97)).2.2.2
    (by simp only [List.length_append, List.length_replicate])
    (by
      rw [split_length]
      simp only [List.count_append, List.count_replicate]
      decide)

theorem findFilePath_of_mem {files : List JSString} {name : JSString}
    (h : name ∈ files) : findFilePath files name = some name := by
  simp [findFilePath, h]

theorem endsWith_false_iff (s suffix : JSString) :
    endsWith s suffix = false ↔ ¬ suffix <:+ s := by
  rw [← endsWith_iff]
  simp

theorem find?_congr_mem {α : Type} {p q : α → Bool} :
    ∀ (l : List α), (∀ a ∈ l, p a = q a) → l.find? p = l.find? q
  | [], _ => rfl
  | a :: l, h => by
    have ha : p a = q a := h a (List.mem_cons_self a l)
    have hl := find?_congr_mem l (fun b hb => h b (List.mem_cons_of_mem a hb))
    simp only [List.find?_cons, ha, hl]

theorem findFilePath_of_not_mem {files : List JSString} {name : JSString}
    (h : name ∉ files) :
    findFilePath files name
      = files.find? (fun path => endsWith path (47 :: name)) := by
  have hc : files.contains name = false := by simpa using h
  unfold findFilePath
  rw [hc]
  simp only [Bool.false_eq_true, if_false]
  apply find?_congr_mem
  intro p hp
  have : p ≠ name := fun e => h (e ▸ hp)
  simp [this]

/-- The resolver returns null exactly when no path equals the name and none
ends with "/" followed by the name. -/
theorem findFilePath_eq_none_iff (files : List JSString) (name : JSString) :
    findFilePath files name = none ↔
      ∀ p ∈ files, p ≠ name ∧ ¬ (47 :: name) <:+ p := by
  by_cases h : name ∈ files
  · rw [findFilePath_of_mem h]
    simp only [false_iff, not_forall, reduceCtorEq]
    exact ⟨name, h, by simp⟩
  · rw [findFilePath_of_not_mem h, List.find?_eq_none]
    simp only [endsWith_iff]
    constructor
    · intro hq p hp
      exact ⟨fun e => h (e ▸ hp), hq p hp⟩
    · intro hq p hp
      exact (hq p hp).2

/-- C2. A name that is a member of the universe is returned unchanged;
otherwise the result is the first path, in iteration order, that ends with
"/" followed by the name; and the result is null exactly when no path equals
the name and none ends with "/" followed by the name. -/
theorem findFilePath_spec (files : List JSString) (name : JSString) :
    (name ∈ files → findFilePath files name = some name) ∧
    (name ∉ files → ∀ p, findFilePath files name = some p ↔
      ∃ before after, files = before ++ p :: after ∧ (47 :: name) <:+ p ∧
        ∀ q ∈ before, ¬ (47 :: name) <:+ q) ∧
    (findFilePath files name = none ↔
      ∀ p ∈ files, p ≠ name ∧ ¬ (47 :: name) <:+ p) := by
  refine ⟨findFilePath_of_mem, ?_, ?_⟩
  · intro h p
    rw [findFilePath_of_not_mem h, List.find?_eq_some]
    simp only [endsWith_iff]
    constructor
    · rintro ⟨hp, as, bs, hu, hq⟩
      refine ⟨as, bs, hu, hp, fun q hq' => ?_⟩
      have := hq q hq'
      rw [Bool.not_eq_true', endsWith_false_iff] at this
      exact this
    · rintro ⟨as, bs, hu, hp, hq⟩
      refine ⟨hp, as, bs, hu, fun q hq' => ?_⟩
      rw [Bool.not_eq_true', endsWith_false_iff]
      exact hq q hq'
  · exact findFilePath_eq_none_iff files name

/-- Over the universe {"src/app.js", "lib/app.js", "readme.md"}: a member
comes back unchanged, and a bare name resolves to the first path that ends
with "/" and the name. -/
theorem findFilePath_spec_witness :
    findFilePath [js "src/app.js", js "lib/app.js", js "readme.md"] (js "readme.md")
      = some (js "readme.md") ∧
    findFilePath [js "src/app.js", js "lib/app.js", js "readme.md"] (js "app.js")
      = some (js "src/app.js") :=
  ⟨(findFilePath_spec _ _).1 (by decide),
   ((findFilePath_spec [js "src/app.js", js "lib/app.js", js "readme.md"]
      (js "app.js")).2.1 (by decide) (js "src/app.js")).2
     ⟨[], [js "lib/app.js", js "readme.md"], rfl, by decide, by simp⟩⟩

/-- Whatever `findFilePath` returns equals the name or ends with "/" and
the name. -/
theorem findFilePath_some_cases {files : List JSString} {name p : JSString}
    (h : findFilePath files name = some p) : p = name ∨ (47 :: name) <:+ p := by
  by_cases hm : name ∈ files
  · rw [findFilePath_of_mem hm] at h
    exact Or.inl (Option.some.inj h).symm
  · rw [findFilePath_of_not_mem hm] at h
    have hp : endsWith p (47 :: name) = true :=
      List.find?_some (p := fun path => endsWith path (47 :: name)) h
    exact Or.inr ((endsWith_iff _ _).mp hp)

theorem split_of_not_mem (sep : Nat) :
    ∀ (s : JSString), sep ∉ s → split sep s = [s]
  | [], _ => rfl
  | c :: cs, h => by
    have hc : c ≠ sep := fun e => h (e ▸ List.mem_cons_self c cs)
    have hcs : sep ∉ cs := fun e => h (List.mem_cons_of_mem c e)
    simp [split, hc, split_of_not_mem sep cs hcs]

theorem split_append_sep (sep : Nat) (s : JSString) :
    ∀ (t : JSString), ∃ x l, split sep (t ++ sep :: s) = (x :: l) ++ split sep s
  | [] => ⟨[], [], by simp [split]⟩
  | c :: t => by
    obtain ⟨x, l, h⟩ := split_append_sep sep s t
    by_cases hc : c = sep
    · exact ⟨[], x :: l, by simp [split, hc, h]⟩
    · exact ⟨c :: x, l, by simp [split, hc, h]⟩

/-- The final segment of a path that ends with "/" and a name free of "/"
is that name. -/
theorem lastSegment_of_suffix {name p : JSString} (hn : 47 ∉ name)
    (h : (47 :: name) <:+ p) : lastSegment p = name := by
  obtain ⟨t, rfl⟩ := h
  obtain ⟨x, l, hs⟩ := split_append_sep 47 name t
  unfold lastSegment
  rw [hs, split_of_not_mem 47 name hn, List.getLastD_eq_getLast?, List.getLast?_append]
  simp

/-- C3 (as stated, refuted). Over the universe {"lib/src/app.js"} the name
"src/app.js" resolves to "lib/src/app.js", which is not the name and whose
final segment "app.js" is not the name either. -/
theorem findFilePath_lastSegment_counterexample :
    findFilePath [js "lib/src/app.js"] (js "src/app.js") = some (js "lib/src/app.js") ∧
    js "lib/src/app.js" ≠ js "src/app.js" ∧
    lastSegment (js "lib/src/app.js") ≠ js "src/app.js" := by
  decide

/-- C3 (amended). Whenever `findFilePath(name)` returns a path, the path equals
the name or ends with "/" followed by the name; when the name contains no
"/", the final segment of the path then equals the name (or the path is the
name itself). -/
theorem findFilePath_suffix (files : List JSString) (name p : JSString)
    (h : findFilePath files name = some p) :
    (p = name ∨ (47 :: name) <:+ p) ∧
    (47 ∉ name → p = name ∨ lastSegment p = name) := by
  refine ⟨findFilePath_some_cases h, fun hn => ?_⟩
  rcases findFilePath_some_cases h with h1 | h1
  · exact Or.inl h1
  · exact Or.inr (lastSegment_of_suffix hn h1)

/-- Over {"src/app.js", "readme.md"} the name "app.js" resolves to
"src/app.js", whose final segment is "app.js". -/
theorem findFilePath_suffix_witness :
    (js "src/app.js" = js "app.js" ∨ (47 :: js "app.js") <:+ js "src/app.js") ∧
    (47 ∉ js "app.js" →
      js "src/app.js" = js "app.js" ∨ lastSegment (js "src/app.js") = js "app.js") :=
  findFilePath_suffix [js "src/app.js", js "readme.md"] (js "app.js") (js "src/app.js")
    (by decide)

/-- C4. A path returned by `findFilePath` is a member of the universe. -/
theorem findFilePath_mem (files : List JSString) (name p : JSString)
    (h : findFilePath files name = some p) : p ∈ files := by
  by_cases hm : name ∈ files
  · rw [findFilePath_of_mem hm] at h
    exact (Option.some.inj h) ▸ hm
  · rw [findFilePath_of_not_mem hm] at h
    exact List.mem_of_find?_eq_some h

/-- The path found for "app.js" is one of the two selected files. -/
theorem findFilePath_mem_witness :
    js "src/app.js" ∈ [js "src/app.js", js "readme.md"] :=
  findFilePath_mem [js "src/app.js", js "readme.md"] (js "app.js") (js "src/app.js")
    (by decide)

/-- C5. Resolution compares code units exactly: when no path equals the name
and none ends with "/" followed by the name, the result is null; in
particular "README.md" is not found in {"src/app.js", "readme.md"}, although
"readme.md" differs from it in letter case only. -/
theorem findFilePath_case_sensitive :
    (∀ (files : List JSString) (name : JSString),
      (∀ p ∈ files, p ≠ name ∧ ¬ (47 :: name) <:+ p) →
        findFilePath files name = none) ∧
    findFilePath [js "src/app.js", js "readme.md"] (js "README.md") = none := by
  refine ⟨fun files name h => ?_, by decide⟩
  exact (findFilePath_eq_none_iff files name).mpr h

/-- The general clause applied to the universe and name of Scenario B. -/
theorem findFilePath_case_sensitive_witness :
    findFilePath [js "src/app.js", js "readme.md"] (js "README.md") = none :=
  findFilePath_case_sensitive.1 [js "src/app.js", js "readme.md"] (js "README.md")
    (by decide)

/-! ### What a match consumes -/

theorem plusStates_word (p : Nat → Bool) (caps : List (Nat × JSString)) :
    ∀ (rest : JSString) (s : MState), s ∈ plusStates p caps rest →
      ∃ w, w ≠ [] ∧ rest = w ++ s.rest ∧ (∀ d ∈ w, p d = true) ∧ s.caps = caps
  | [], s, h => by simp [plusStates] at h
  | c :: cs, s, h => by
    unfold plusStates at h
    by_cases hc : p c = true
    · rw [if_pos hc, List.mem_append, List.mem_singleton] at h
      rcases h with h | h
      · obtain ⟨w, _, hw, hp, hcaps⟩ := plusStates_word p caps cs s h
        refine ⟨c :: w, by simp, by simp [hw], ?_, hcaps⟩
        intro d hd
        rcases List.mem_cons.mp hd with rfl | hd
        · exact hc
        · exact hp d hd
      · subst h
        exact ⟨[c], by simp, by simp, by simpa using hc, rfl⟩
    · rw [if_neg hc] at h
      simp at h

theorem lazyStates_word (p : Nat → Bool) (caps : List (Nat × JSString)) :
    ∀ (rest : JSString) (prev : Option Nat) (s : MState), s ∈ lazyStates p caps prev rest →
      ∃ w, rest = w ++ s.rest ∧ (∀ d ∈ w, p d = true) ∧ s.caps = caps
  | [], prev, s, h => by
    simp only [lazyStates, List.mem_singleton] at h
    subst h
    exact ⟨[], rfl, fun d hd => by simp at hd, rfl⟩
  | c :: cs, prev, s, h => by
    unfold lazyStates at h
    rcases List.mem_cons.mp h with h | h
    · subst h
      exact ⟨[], rfl, fun d hd => by simp at hd, rfl⟩
    · by_cases hc : p c = true
      · rw [if_pos hc] at h
        obtain ⟨w, hw, hp, hcaps⟩ := lazyStates_word p caps cs (some c) s h
        refine ⟨c :: w, by simp [hw], ?_, hcaps⟩
        intro d hd
        rcases List.mem_cons.mp hd with rfl | hd
        · exact hc
        · exact hp d hd
      · rw [if_neg hc] at h
        simp at h

/-- The word consumed between a state and an end state of a match from it:
its units are accepted by the atoms, it is non-empty for a consuming
pattern, and it holds a unit of every class the pattern must pass. -/
theorem run_word (ic : Bool) (r : Regex) :
    ∀ (st s : MState), s ∈ r.run ic st →
      ∃ w, st.rest = w ++ s.rest ∧
        (∀ q : Nat → Prop, r.unitsIn ic q → ∀ d ∈ w, q d) ∧
        (r.consumes = true → w ≠ []) ∧
        (∀ q : Nat → Prop, r.needsUnit q → ∃ d ∈ w, q d) := by
  induction r with
  | lit c =>
    intro st s h
    simp only [Regex.run] at h
    split at h
    · simp at h
    · rename_i d ds hrest
      split_ifs at h with hm
      · simp only [List.mem_singleton] at h
        subst h
        refine ⟨[d], by simp [hrest], ?_, by simp, ?_⟩
        · intro q hq e he
          simp only [List.mem_singleton] at he
          subst he
          exact hq _ hm
        · intro q hq
          exact absurd hq (by simp [Regex.needsUnit])
      · simp at h
  | cls p =>
    intro st s h
    simp only [Regex.run] at h
    split at h
    · simp at h
    · rename_i d ds hrest
      split_ifs at h with hm
      · simp only [List.mem_singleton] at h
        subst h
        refine ⟨[d], by simp [hrest], ?_, by simp, ?_⟩
        · intro q hq e he
          simp only [List.mem_singleton] at he
          subst he
          exact hq _ hm
        · intro q hq
          exact ⟨d, by simp, hq d hm⟩
      · simp at h
  | plus p =>
    intro st s h
    simp only [Regex.run] at h
    obtain ⟨w, hne, hw, hp, _⟩ := plusStates_word p st.caps st.rest s h
    refine ⟨w, hw, ?_, fun _ => hne, ?_⟩
    · intro q hq d hd
      exact hq d (hp d hd)
    · intro q hq
      obtain ⟨d, w', rfl⟩ := List.exists_cons_of_ne_nil hne
      exact ⟨d, by simp, hq d (hp d (by simp))⟩
  | lazyStar p =>
    intro st s h
    simp only [Regex.run] at h
    obtain ⟨w, hw, hp, _⟩ := lazyStates_word p st.caps st.rest st.prev s h
    exact ⟨w, hw, fun q hq d hd => hq d (hp d hd),
      fun hc => by simp [Regex.consumes] at hc,
      fun q hq => absurd hq (by simp [Regex.needsUnit])⟩
  | seq a b iha ihb =>
    intro st s h
    simp only [Regex.run, List.mem_flatMap] at h
    obtain ⟨s1, h1, h2⟩ := h
    obtain ⟨w1, hw1, hu1, hc1, hn1⟩ := iha st s1 h1
    obtain ⟨w2, hw2, hu2, hc2, hn2⟩ := ihb s1 s h2
    refine ⟨w1 ++ w2, by rw [hw1, hw2, List.append_assoc], ?_, ?_, ?_⟩
    · intro q hq d hd
      rcases List.mem_append.mp hd with hd | hd
      · exact hu1 q hq.1 d hd
      · exact hu2 q hq.2 d hd
    · intro hc
      simp only [Regex.consumes, Bool.or_eq_true] at hc
      rcases hc with hc | hc
      · have := hc1 hc
        simp [this]
      · have := hc2 hc
        simp [this]
    · intro q hq
      rcases hq with hq | hq
      · obtain ⟨d, hd, hqd⟩ := hn1 q hq
        exact ⟨d, List.mem_append_left _ hd, hqd⟩
      · obtain ⟨d, hd, hqd⟩ := hn2 q hq
        exact ⟨d, List.mem_append_right _ hd, hqd⟩
  | alt a b iha ihb =>
    intro st s h
    simp only [Regex.run, List.mem_append] at h
    rcases h with h | h
    · obtain ⟨w, hw, hu, hc, hn⟩ := iha st s h
      refine ⟨w, hw, fun q hq => hu q hq.1, fun hc' => hc ?_, fun q hq => hn q hq.1⟩
      simp only [Regex.consumes, Bool.and_eq_true] at hc'
      exact hc'.1
    · obtain ⟨w, hw, hu, hc, hn⟩ := ihb st s h
      refine ⟨w, hw, fun q hq => hu q hq.2, fun hc' => hc ?_, fun q hq => hn q hq.2⟩
      simp only [Regex.consumes, Bool.and_eq_true] at hc'
      exact hc'.2
  | opt a iha =>
    intro st s h
    simp only [Regex.run, List.mem_append, List.mem_filter, List.mem_singleton] at h
    rcases h with ⟨h, _⟩ | h
    · obtain ⟨w, hw, hu, _, _⟩ := iha st s h
      exact ⟨w, hw, fun q hq => hu q hq, fun hc => by simp [Regex.consumes] at hc,
        fun q hq => absurd hq (by simp [Regex.needsUnit])⟩
    · subst h
      exact ⟨[], by simp, fun _ _ d hd => by simp at hd,
        fun hc => by simp [Regex.consumes] at hc,
        fun q hq => absurd hq (by simp [Regex.needsUnit])⟩
  | group n a iha =>
    intro st s h
    simp only [Regex.run, List.mem_map] at h
    obtain ⟨s1, h1, rfl⟩ := h
    obtain ⟨w, hw, hu, hc, hn⟩ := iha st s1 h1
    exact ⟨w, hw, fun q hq => hu q hq, fun hc' => hc hc', fun q hq => hn q hq⟩
  | wordBoundary =>
    intro st s h
    simp only [Regex.run] at h
    split_ifs at h
    · simp only [List.mem_singleton] at h
      subst h
      exact ⟨[], by simp, fun _ _ d hd => by simp at hd,
        fun hc => by simp [Regex.consumes] at hc,
        fun q hq => absurd hq (by simp [Regex.needsUnit])⟩
    · simp at h
  | eos =>
    intro st s h
    simp only [Regex.run] at h
    split_ifs at h
    · simp only [List.mem_singleton] at h
      subst h
      exact ⟨[], by simp, fun _ _ d hd => by simp at hd,
        fun hc => by simp [Regex.consumes] at hc,
        fun q hq => absurd hq (by simp [Regex.needsUnit])⟩
    · simp at h
  | empty =>
    intro st s h
    simp only [Regex.run, List.mem_singleton] at h
    subst h
    exact ⟨[], by simp, fun _ _ d hd => by simp at hd,
      fun hc => by simp [Regex.consumes] at hc,
      fun q hq => absurd hq (by simp [Regex.needsUnit])⟩

theorem take_consumed {rest w tail : JSString} (h : rest = w ++ tail) :
    rest.take (rest.length - tail.length) = w := by
  subst h
  simp

/-- Captures made by a match consist of units accepted by the atoms inside
the capturing groups. -/
theorem run_caps (ic : Bool) (q : Nat → Prop) (r : Regex) :
    ∀ (st s : MState), s ∈ r.run ic st → r.groupsIn ic q →
      (∀ e ∈ st.caps, ∀ d ∈ e.2, q d) → ∀ e ∈ s.caps, ∀ d ∈ e.2, q d := by
  induction r with
  | lit c =>
    intro st s h _ hst
    simp only [Regex.run] at h
    split at h
    · simp at h
    · split_ifs at h
      · simp only [List.mem_singleton] at h
        subst h
        exact hst
      · simp at h
  | cls p =>
    intro st s h _ hst
    simp only [Regex.run] at h
    split at h
    · simp at h
    · split_ifs at h
      · simp only [List.mem_singleton] at h
        subst h
        exact hst
      · simp at h
  | plus p =>
    intro st s h _ hst
    simp only [Regex.run] at h
    obtain ⟨w, _, _, _, hcaps⟩ := plusStates_word p st.caps st.rest s h
    rw [hcaps]
    exact hst
  | lazyStar p =>
    intro st s h _ hst
    simp only [Regex.run] at h
    obtain ⟨w, _, _, hcaps⟩ := lazyStates_word p st.caps st.rest st.prev s h
    rw [hcaps]
    exact hst
  | seq a b iha ihb =>
    intro st s h hg hst
    simp only [Regex.run, List.mem_flatMap] at h
    obtain ⟨s1, h1, h2⟩ := h
    exact ihb s1 s h2 hg.2 (iha st s1 h1 hg.1 hst)
  | alt a b iha ihb =>
    intro st s h hg hst
    simp only [Regex.run, List.mem_append] at h
    rcases h with h | h
    · exact iha st s h hg.1 hst
    · exact ihb st s h hg.2 hst
  | opt a iha =>
    intro st s h hg hst
    simp only [Regex.run, List.mem_append, List.mem_filter, List.mem_singleton] at h
    rcases h with ⟨h, _⟩ | h
    · exact iha st s h hg hst
    · subst h
      exact hst
  | group n a iha =>
    intro st s h hg hst
    simp only [Regex.run, List.mem_map] at h
    obtain ⟨s1, h1, rfl⟩ := h
    obtain ⟨w, hw, hu, _, _⟩ := run_word ic a st s1 h1
    intro e he
    rcases List.mem_cons.mp he with rfl | he
    · intro d hd
      simp only [take_consumed hw] at hd
      exact hu q hg.1 d hd
    · exact iha st s1 h1 hg.2 hst e he
  | wordBoundary =>
    intro st s h _ hst
    simp only [Regex.run] at h
    split_ifs at h
    · simp only [List.mem_singleton] at h
      subst h
      exact hst
    · simp at h
  | eos =>
    intro st s h _ hst
    simp only [Regex.run] at h
    split_ifs at h
    · simp only [List.mem_singleton] at h
      subst h
      exact hst
    · simp at h
  | empty =>
    intro st s h _ hst
    simp only [Regex.run, List.mem_singleton] at h
    subst h
    exact hst

theorem capture_mem {st : MState} {n : Nat} {name : JSString}
    (h : st.capture n = some name) : ∃ e ∈ st.caps, e.2 = name := by
  unfold MState.capture at h
  cases hf : st.caps.find? (fun e => e.1 == n) with
  | none => simp [hf] at h
  | some e =>
    rw [hf] at h
    exact ⟨e, List.mem_of_find?_eq_some hf, by simpa using h⟩

/-- A match reported by `exec` is the first end state of the pattern run
from some start position with no captures. -/
theorem execFrom_some (ic : Bool) (r : Regex) :
    ∀ (rest : JSString) (prev : Option Nat) (st : MState),
      execFrom ic r prev rest = some st →
        ∃ pv rs, rs.length ≤ rest.length ∧ (r.run ic ⟨pv, rs, []⟩).head? = some st
  | [], prev, st, h => ⟨prev, [], Nat.le_refl _, by simpa [execFrom] using h⟩
  | c :: cs, prev, st, h => by
    unfold execFrom at h
    cases hh : (r.run ic ⟨prev, c :: cs, []⟩).head? with
    | some s =>
      rw [hh] at h
      exact ⟨prev, c :: cs, Nat.le_refl _, by rw [hh]; exact h⟩
    | none =>
      rw [hh] at h
      obtain ⟨pv, rs, hl, hr⟩ := execFrom_some ic r cs (some c) st h
      exact ⟨pv, rs, Nat.le_succ_of_le hl, hr⟩

theorem execFrom_shorter (ic : Bool) (r : Regex) (hc : r.consumes = true)
    {rest : JSString} {prev : Option Nat} {st : MState}
    (h : execFrom ic r prev rest = some st) : st.rest.length < rest.length := by
  obtain ⟨pv, rs, hl, hr⟩ := execFrom_some ic r rest prev st h
  obtain ⟨w, hw, _, hne, _⟩ := run_word ic r _ st (List.mem_of_mem_head? hr)
  have hw' : rs = w ++ st.rest := hw
  have : 0 < w.length := List.length_pos.mpr (hne hc)
  have hlen : rs.length = w.length + st.rest.length := by rw [hw', List.length_append]
  omega

/-- The matching loop of a pattern whose matches are never empty ends. -/
theorem execLoop_total (ic : Bool) (r : Regex) (hc : r.consumes = true) :
    ∀ (fuel : Nat) (prev : Option Nat) (rest : JSString), rest.length < fuel →
      ∃ l, execLoop ic r fuel prev rest = some l
  | 0, _, _, h => absurd h (Nat.not_lt_zero _)
  | fuel + 1, prev, rest, h => by
    unfold execLoop
    cases he : execFrom ic r prev rest with
    | none => exact ⟨[], rfl⟩
    | some st =>
      have hlt := execFrom_shorter ic r hc he
      obtain ⟨l, hl⟩ := execLoop_total ic r hc fuel st.prev st.rest (by omega)
      exact ⟨st :: l, by simp [hl]⟩

/-- Every match found by the loop is an end state of the pattern run from
some start position with no captures. -/
theorem execLoop_states (ic : Bool) (r : Regex) :
    ∀ (fuel : Nat) (prev : Option Nat) (rest : JSString) (l : List MState),
      execLoop ic r fuel prev rest = some l →
        ∀ st ∈ l, ∃ pv rs, st ∈ r.run ic ⟨pv, rs, []⟩
  | 0, _, _, _, h => by simp [execLoop] at h
  | fuel + 1, prev, rest, l, h => by
    unfold execLoop at h
    cases he : execFrom ic r prev rest with
    | none =>
      rw [he] at h
      simp only [Option.some.injEq] at h
      subst h
      intro st hst
      simp at hst
    | some s =>
      rw [he] at h
      simp only at h
      cases hl : execLoop ic r fuel s.prev s.rest with
      | none => simp [hl] at h
      | some l' =>
        rw [hl] at h
        simp only [Option.map_some', Option.some.injEq] at h
        subst h
        intro st hst
        rcases List.mem_cons.mp hst with rfl | hst
        · obtain ⟨pv, rs, _, hr⟩ := execFrom_some ic r rest prev st he
          exact ⟨pv, rs, List.mem_of_mem_head? hr⟩
        · exact execLoop_states ic r fuel s.prev s.rest l' hl st hst

/-! ### Insertion-ordered sets -/

theorem mem_setAdd {s : List JSString} {x y : JSString} :
    y ∈ setAdd s x ↔ y ∈ s ∨ y = x := by
  unfold setAdd
  by_cases h : x ∈ s
  · have hc : s.contains x = true := by simpa using h
    rw [if_pos hc]
    constructor
    · exact Or.inl
    · rintro (h1 | rfl)
      · exact h1
      · exact h
  · have hc : ¬ s.contains x = true := by simpa using h
    rw [if_neg hc]
    simp

theorem setAdd_of_mem {s : List JSString} {x : JSString} (h : x ∈ s) : setAdd s x = s := by
  have hc : s.contains x = true := by simpa using h
  unfold setAdd
  rw [if_pos hc]

theorem setAdd_of_not_mem {s : List JSString} {x : JSString} (h : x ∉ s) :
    setAdd s x = s ++ [x] := by
  have hc : ¬ s.contains x = true := by simpa using h
  unfold setAdd
  rw [if_neg hc]

theorem nodup_setAdd {s : List JSString} (x : JSString) (h : s.Nodup) :
    (setAdd s x).Nodup := by
  by_cases hx : x ∈ s
  · rw [setAdd_of_mem hx]
    exact h
  · rw [setAdd_of_not_mem hx]
    exact List.Nodup.append h (List.nodup_singleton x) (by simpa using hx)

theorem firstIndex_append_of_mem {x : JSString} :
    ∀ {l₁ : List JSString} (l₂ : List JSString), x ∈ l₁ →
      firstIndex x (l₁ ++ l₂) = firstIndex x l₁
  | [], _, h => by simp at h
  | y :: l₁, l₂, h => by
    by_cases hy : y = x
    · simp [firstIndex, hy]
    · have hx : x ∈ l₁ := by
        rcases List.mem_cons.mp h with h | h
        · exact absurd h.symm hy
        · exact h
      simp [firstIndex, hy, firstIndex_append_of_mem l₂ hx]

theorem firstIndex_append_of_not_mem {x : JSString} :
    ∀ {l₁ : List JSString} (l₂ : List JSString), x ∉ l₁ →
      firstIndex x (l₁ ++ l₂) = l₁.length + firstIndex x l₂
  | [], _, _ => by simp
  | y :: l₁, l₂, h => by
    have hy : y ≠ x := fun e => h (e ▸ List.mem_cons_self y l₁)
    have hx : x ∉ l₁ := fun e => h (List.mem_cons_of_mem y e)
    simp [firstIndex, hy, firstIndex_append_of_not_mem l₂ hx]
    omega

theorem firstIndex_lt_length {x : JSString} :
    ∀ {l : List JSString}, x ∈ l → firstIndex x l < l.length
  | [], h => by simp at h
  | y :: l, h => by
    by_cases hy : y = x
    · simp [firstIndex, hy]
    · have hx : x ∈ l := by
        rcases List.mem_cons.mp h with h | h
        · exact absurd h.symm hy
        · exact h
      simp [firstIndex, hy, firstIndex_lt_length hx]

theorem uniq_snoc (xs : List JSString) (x : JSString) :
    uniq (xs ++ [x]) = setAdd (uniq xs) x := by
  simp [uniq, List.foldl_append]

theorem mem_uniq (xs : List JSString) (x : JSString) : x ∈ uniq xs ↔ x ∈ xs := by
  induction xs using List.reverseRecOn with
  | nil => simp [uniq]
  | append_singleton xs z ih =>
    rw [uniq_snoc, mem_setAdd, ih]
    simp

theorem nodup_uniq (xs : List JSString) : (uniq xs).Nodup := by
  induction xs using List.reverseRecOn with
  | nil => simp [uniq]
  | append_singleton xs z ih =>
    rw [uniq_snoc]
    exact nodup_setAdd z ih

/-- The members of `uniq xs` stand in the order of their first occurrences
in `xs`. -/
theorem uniq_order (xs : List JSString) :
    ∀ x ∈ uniq xs, ∀ y ∈ uniq xs,
      (firstIndex x (uniq xs) < firstIndex y (uniq xs) ↔ firstIndex x xs < firstIndex y xs) := by
  induction xs using List.reverseRecOn with
  | nil => simp [uniq]
  | append_singleton xs z ih =>
    rw [uniq_snoc]
    by_cases hz : z ∈ uniq xs
    · rw [setAdd_of_mem hz]
      intro x hx y hy
      rw [firstIndex_append_of_mem _ ((mem_uniq xs x).mp hx),
        firstIndex_append_of_mem _ ((mem_uniq xs y).mp hy)]
      exact ih x hx y hy
    · rw [setAdd_of_not_mem hz]
      have hz' : z ∉ xs := fun h => hz ((mem_uniq xs z).mpr h)
      intro x hx y hy
      rcases List.mem_append.mp hx with hx1 | hx1 <;>
        rcases List.mem_append.mp hy with hy1 | hy1
      · rw [firstIndex_append_of_mem _ hx1, firstIndex_append_of_mem _ hy1,
          firstIndex_append_of_mem _ ((mem_uniq xs x).mp hx1),
          firstIndex_append_of_mem _ ((mem_uniq xs y).mp hy1)]
        exact ih x hx1 y hy1
      · have hy' : y = z := by simpa using hy1
        subst hy'
        rw [firstIndex_append_of_mem _ hx1, firstIndex_append_of_not_mem _ hz,
          firstIndex_append_of_mem _ ((mem_uniq xs x).mp hx1),
          firstIndex_append_of_not_mem _ hz']
        have h1 := firstIndex_lt_length hx1
        have h2 := firstIndex_lt_length ((mem_uniq xs x).mp hx1)
        constructor <;> intro _ <;> omega
      · have hx' : x = z := by simpa using hx1
        subst hx'
        rw [firstIndex_append_of_mem _ hy1, firstIndex_append_of_not_mem _ hz,
          firstIndex_append_of_mem _ ((mem_uniq xs y).mp hy1),
          firstIndex_append_of_not_mem _ hz']
        have h1 := firstIndex_lt_length hy1
        have h2 := firstIndex_lt_length ((mem_uniq xs y).mp hy1)
        constructor <;> intro _ <;> omega
      · have hx' : x = z := by simpa using hx1
        have hy' : y = z := by simpa using hy1
        subst hx'
        subst hy'
        simp

theorem uniq_append (xs ys : List JSString) :
    uniq (xs ++ ys) = ys.foldl setAdd (uniq xs) := by
  simp [uniq, List.foldl_append]

theorem uniq_setAdd (m : List JSString) (y : JSString) :
    uniq (setAdd m y) = uniq (m ++ [y]) := by
  by_cases hy : y ∈ m
  · rw [setAdd_of_mem hy, uniq_snoc, setAdd_of_mem ((mem_uniq m y).mpr hy)]
  · rw [setAdd_of_not_mem hy]

/-- Folding a step that adds the candidate of each item unless present
gives, up to `uniq`, the start followed by all candidates. -/
theorem uniq_foldl_candidates {α : Type} (g : α → Option JSString)
    (f : List JSString → α → List JSString)
    (hf : ∀ m x, f m x = match g x with
      | some y => setAdd m y
      | none => m) :
    ∀ (l : List α) (m : List JSString),
      uniq (l.foldl f m) = uniq (m ++ l.filterMap g)
  | [], m => by simp
  | x :: l, m => by
    rw [List.foldl_cons, uniq_foldl_candidates g f hf l (f m x), hf m x]
    cases hg : g x with
    | none => simp [List.filterMap_cons, hg]
    | some y =>
      simp only [List.filterMap_cons, hg]
      rw [uniq_append, uniq_setAdd, ← uniq_append, List.append_assoc]
      rfl

/-! ### The passes of `extractFileRequests` -/

theorem push_unless_eq_setAdd (m : List JSString) (f : JSString) :
    (if (!m.contains f) = true then m ++ [f] else m) = setAdd m f := by
  unfold setAdd
  cases m.contains f <;> rfl

theorem processTextContent_eq (m : List JSString) (text : JSString) :
    processTextContent m text =
      match textCandidate text with
      | some y => setAdd m y
      | none => m := by
  unfold processTextContent textCandidate
  simp only []
  cases text.isEmpty with
  | true => rfl
  | false =>
    cases ((trim text).head? == some 64) with
    | true =>
      cases (trim ((trim text).drop 1)).isEmpty with
      | true => rfl
      | false => exact push_unless_eq_setAdd m _
    | false =>
      cases ((execFrom false extensionTailRegex none (trim text)).isSome
          && !(trim text).contains 32) with
      | true => exact push_unless_eq_setAdd m _
      | false => rfl

theorem phraseStep_eq (m : List JSString) (st : MState) :
    phraseStep m st =
      match phraseCandidate st with
      | some y => setAdd m y
      | none => m := by
  unfold phraseStep phraseCandidate
  cases st.capture 2 with
  | none => rfl
  | some f =>
    simp only []
    cases f.isEmpty with
    | true => rfl
    | false =>
      cases hc : f.contains 32 with
      | true => cases m.contains f <;> rfl
      | false =>
        have := push_unless_eq_setAdd m f
        simpa using this

theorem markupPass_eq (dom : Markup) (m : List JSString) :
    markupPass dom m = dom.texts.foldl processTextContent m := by
  unfold markupPass Markup.texts
  simp only [List.foldl_append]
  generalize List.foldl processTextContent (List.foldl processTextContent m dom.codeTexts)
    dom.strongTexts = m2
  induction dom.listItems generalizing m2 with
  | nil => simp
  | cons li lis ih =>
    simp only [List.foldl_cons, List.flatMap_cons, List.foldl_append]
    rw [ih]
    congr 1
    cases li.strongText <;> cases li.codeText <;> simp

/-- The list returned by `extractFileRequests` for a non-empty message is
`uniq` of what the three passes find on their own, in the order of the
passes. -/
theorem extractFileRequests_eq (dom : Markup) (message : JSString) (hm : message ≠ []) :
    ∃ found1 found3,
      execLoop false markerRegex (message.length + 1) none message = some found1 ∧
      execLoop true phraseRegex (message.length + 1) none message = some found3 ∧
      extractFileRequests dom message = some (uniq
        (found1.filterMap (fun st => st.capture 1) ++ dom.texts.filterMap textCandidate
          ++ found3.filterMap phraseCandidate)) := by
  obtain ⟨found1, h1⟩ := execLoop_total false markerRegex (by decide)
    (message.length + 1) none message (Nat.lt_succ_self _)
  obtain ⟨found3, h3⟩ := execLoop_total true phraseRegex (by decide)
    (message.length + 1) none message (Nat.lt_succ_self _)
  refine ⟨found1, found3, h1, h3, ?_⟩
  have he : message.isEmpty = false := by
    cases message with
    | nil => exact absurd rfl hm
    | cons c cs => rfl
  unfold extractFileRequests
  simp only [he, h1, h3, Bool.false_eq_true, if_false]
  rw [uniq_foldl_candidates phraseCandidate phraseStep phraseStep_eq, markupPass_eq,
    uniq_append, uniq_foldl_candidates textCandidate processTextContent processTextContent_eq,
    ← uniq_append]

/-- C6. Scenario A: the message "show me @app.js" yields exactly ["app.js"]:
the marker pass captures "app.js" without the "@", the natural-language pass
finds "app.js" again and does not add it a second time; and "app.js"
resolves to "src/app.js" over {"src/app.js", "readme.md"}. -/
theorem scenarioA :
    extractFileRequests Markup.none (js "show me @app.js") = some [js "app.js"] ∧
    (execLoop false markerRegex 16 none (js "show me @app.js")).map
        (List.map (fun st => st.capture 1)) = some [some (js "app.js")] ∧
    (execLoop true phraseRegex 16 none (js "show me @app.js")).map
        (List.map (fun st => st.capture 2)) = some [some (js "app.js")] ∧
    findFilePath [js "src/app.js", js "readme.md"] (js "app.js") = some (js "src/app.js") := by
  decide

/-- C7. For every message, `extractFileRequests` returns a list without
duplicates; for a non-empty message its members are exactly the names found
by the marker pass, the markup pass and the natural-language pass, and two
members stand in the order of their first occurrences in the concatenation
of what the three passes find (a name found again later neither is added
again nor moves). -/
theorem extractFileRequests_first_seen (dom : Markup) (message : JSString) :
    ∃ found1 found3 l,
      execLoop false markerRegex (message.length + 1) none message = some found1 ∧
      execLoop true phraseRegex (message.length + 1) none message = some found3 ∧
      extractFileRequests dom message = some l ∧ l.Nodup ∧
      (message ≠ [] →
        (∀ x, x ∈ l ↔ x ∈ found1.filterMap (fun st => st.capture 1)
          ++ dom.texts.filterMap textCandidate ++ found3.filterMap phraseCandidate) ∧
        ∀ x ∈ l, ∀ y ∈ l, (firstIndex x l < firstIndex y l ↔
          firstIndex x (found1.filterMap (fun st => st.capture 1)
            ++ dom.texts.filterMap textCandidate ++ found3.filterMap phraseCandidate)
          < firstIndex y (found1.filterMap (fun st => st.capture 1)
            ++ dom.texts.filterMap textCandidate ++ found3.filterMap phraseCandidate))) := by
  by_cases hm : message = []
  · subst hm
    obtain ⟨found1, h1⟩ := execLoop_total false markerRegex (by decide) 1 none [] (by simp)
    obtain ⟨found3, h3⟩ := execLoop_total true phraseRegex (by decide) 1 none [] (by simp)
    exact ⟨found1, found3, [], h1, h3, by simp [extractFileRequests], List.nodup_nil,
      fun h => absurd rfl h⟩
  · obtain ⟨found1, found3, h1, h3, he⟩ := extractFileRequests_eq dom message hm
    exact ⟨found1, found3, _, h1, h3, he, nodup_uniq _, fun _ =>
      ⟨fun x => mem_uniq _ x, uniq_order _⟩⟩

/-- On "see a.js and @a.js": the marker pass finds "a.js", the
natural-language pass finds it twice more, and the result is ["a.js"]. -/
theorem extractFileRequests_first_seen_witness :
    ∃ l, extractFileRequests Markup.none (js "see a.js and @a.js") = some l ∧ l.Nodup := by
  obtain ⟨_, _, l, _, _, h, hn, _⟩ :=
    extractFileRequests_first_seen Markup.none (js "see a.js and @a.js")
  exact ⟨l, h, hn⟩

/-! ### Spaces in the names -/

theorem isWordChar_ne_space (d : Nat) (h : isWordChar d = true) : d ≠ 32 := by
  intro e
  subst e
  simp [isWordChar] at h

theorem isPathChar_ne_space (d : Nat) (h : isPathChar d = true) : d ≠ 32 := by
  intro e
  subst e
  simp [isPathChar, isWordChar] at h

theorem markerRegex_groupsIn : markerRegex.groupsIn false (fun d => d ≠ 32) := by
  simp only [markerRegex, Regex.seqs, Regex.groupsIn, Regex.unitsIn, and_true, true_and]
  refine ⟨isPathChar_ne_space, ?_, isWordChar_ne_space⟩
  intro d h e
  subst e
  simp [unitMatches] at h

theorem mem_trim {s : JSString} {d : Nat} (h : d ∈ trim s) : d ∈ s := by
  unfold trim at h
  rw [List.mem_reverse] at h
  have h1 := (List.dropWhile_sublist isWhiteSpace).subset h
  rw [List.mem_reverse] at h1
  exact (List.dropWhile_sublist isWhiteSpace).subset h1

theorem contains_false_not_mem {s : JSString} {d : Nat} (h : s.contains d = false) : d ∉ s := by
  simpa using h

/-- A name taken from an element text either has no space or comes from a
text that starts with "@" once trimmed. -/
theorem textCandidate_space {text name : JSString} (h : textCandidate text = some name) :
    32 ∉ name ∨ ((trim text).head? = some 64 ∧ name = trim ((trim text).drop 1)) := by
  unfold textCandidate at h
  cases h0 : text.isEmpty with
  | true => simp [h0] at h
  | false =>
    simp only [h0, Bool.false_eq_true, if_false] at h
    cases h1 : ((trim text).head? == some 64) with
    | true =>
      simp only [h1, if_true] at h
      right
      refine ⟨by simpa using h1, ?_⟩
      split_ifs at h
      exact (Option.some.inj h).symm
    | false =>
      simp only [h1, Bool.false_eq_true, if_false] at h
      left
      split_ifs at h with hc
      have hname := (Option.some.inj h).symm
      subst hname
      simp only [Bool.and_eq_true, Bool.not_eq_true'] at hc
      exact fun hm => contains_false_not_mem hc.2 (mem_trim hm)

theorem phraseCandidate_space {st : MState} {name : JSString}
    (h : phraseCandidate st = some name) : 32 ∉ name := by
  unfold phraseCandidate at h
  cases hc : st.capture 2 with
  | none => simp [hc] at h
  | some f =>
    simp only [hc] at h
    split_ifs at h with hf
    have hname := (Option.some.inj h).symm
    subst hname
    simp only [Bool.and_eq_true, Bool.not_eq_true'] at hf
    exact contains_false_not_mem hf.2

theorem markerCapture_space {found1 : List MState} {fuel : Nat} {prev : Option Nat}
    {rest name : JSString} (h : execLoop false markerRegex fuel prev rest = some found1)
    (hn : name ∈ found1.filterMap (fun st => st.capture 1)) : 32 ∉ name := by
  obtain ⟨st, hst, hcap⟩ := List.mem_filterMap.mp hn
  obtain ⟨pv, rs, hrun⟩ := execLoop_states false markerRegex fuel prev rest found1 h st hst
  obtain ⟨e, he, rfl⟩ := capture_mem hcap
  have := run_caps false (fun d => d ≠ 32) markerRegex _ st hrun markerRegex_groupsIn
    (by simp) e he
  exact fun hm => this 32 hm rfl

/-- C8 (as stated, refuted). For the message `<code>@my file.js</code>`, whose
one code element has the text "@my file.js", the extractor returns
"my file.js", which contains a space. -/
theorem extractFileRequests_space_counterexample :
    extractFileRequests ⟨[js "@my file.js"], [], []⟩ (js "<code>@my file.js</code>")
      = some [js "my file.js", js "file.js"] ∧
    32 ∈ js "my file.js" := by
  decide

/-- C8 (amended). Every name returned by `extractFileRequests` either contains
no space, or was taken by the markup pass from an element whose trimmed text
starts with "@": it is then the rest of that text, trimmed, with the spaces
inside it kept. -/
theorem extractFileRequests_space (dom : Markup) (message : JSString) :
    ∃ l, extractFileRequests dom message = some l ∧
      ∀ name ∈ l, 32 ∉ name ∨
        ∃ text ∈ dom.texts, (trim text).head? = some 64 ∧
          name = trim ((trim text).drop 1) := by
  by_cases hm : message = []
  · subst hm
    exact ⟨[], by simp [extractFileRequests], fun name h => by simp at h⟩
  · obtain ⟨found1, found3, h1, h3, he⟩ := extractFileRequests_eq dom message hm
    refine ⟨_, he, fun name hn => ?_⟩
    rw [mem_uniq, List.mem_append, List.mem_append] at hn
    rcases hn with (hn | hn) | hn
    · exact Or.inl (markerCapture_space h1 hn)
    · obtain ⟨text, ht, hc⟩ := List.mem_filterMap.mp hn
      rcases textCandidate_space hc with h | h
      · exact Or.inl h
      · exact Or.inr ⟨text, ht, h⟩
    · obtain ⟨st, _, hc⟩ := List.mem_filterMap.mp hn
      exact Or.inl (phraseCandidate_space hc)

/-! ### A bare file name (natural-language pass without a phrase) -/

theorem isPathChar_not_space (d : Nat) (h : isPathChar d = true) : isWhiteSpace d = false := by
  simp only [isPathChar, isWordChar, Bool.or_eq_true, Bool.and_eq_true, decide_eq_true_eq,
    beq_iff_eq] at h
  simp only [isWhiteSpace, Bool.or_eq_false_iff, Bool.and_eq_false_imp, decide_eq_true_eq,
    beq_eq_false_iff_ne, ne_eq, decide_eq_false_iff_not]
  omega

theorem fileExtensions_pathChars :
    ∀ ext ∈ fileExtensions, (js ext).all isPathChar = true := by
  decide

/-- After the stem, no split inside ".ext" lets the pattern go on: the rest
never starts with a dot. -/
theorem fileExtensions_no_late_split :
    ∀ ext ∈ fileExtensions,
      ((plusStates isPathChar [] (46 :: js ext)).flatMap
        (fun s => (Regex.seqs [.lit 46, .group 3 extensionAlternation]).run true s)).isEmpty
        = true := by
  decide

/-- At the dot, the first alternative of the extensions that ends at a word
boundary ends at the end of the input. -/
theorem fileExtensions_first_boundary :
    ∀ ext ∈ fileExtensions,
      (((Regex.seqs [.group 3 extensionAlternation]).run true ⟨some 46, js ext, []⟩).find?
        (fun s => atWordBoundary s.prev s.rest)).map (fun s => s.rest) = some [] := by
  decide

theorem run_seq (ic : Bool) (a b : Regex) (st : MState) :
    (Regex.seq a b).run ic st = (a.run ic st).flatMap (fun s => b.run ic s) := by
  simp only [Regex.run]

theorem run_opt (ic : Bool) (a : Regex) (st : MState) :
    (Regex.opt a).run ic st
      = (a.run ic st).filter (fun s => s.rest.length < st.rest.length) ++ [st] := by
  simp only [Regex.run]

theorem run_group (ic : Bool) (n : Nat) (a : Regex) (st : MState) :
    (Regex.group n a).run ic st = (a.run ic st).map (fun s =>
      { s with caps := (n, st.rest.take (st.rest.length - s.rest.length)) :: s.caps }) := by
  simp only [Regex.run]

theorem run_plus (ic : Bool) (p : Nat → Bool) (st : MState) :
    (Regex.plus p).run ic st = plusStates p st.caps st.rest := by
  simp only [Regex.run]

theorem phraseAlternation_needs_space :
    phraseAlternation.needsUnit (fun d => isWhiteSpace d = true) := by
  simp [phraseAlternation, requestPhrases, Regex.alts, Regex.seqs, Regex.needsUnit, spaces,
    shareOrShow]

/-- No request phrase matches inside an input without white space. -/
theorem phraseAlternation_run_nil (st : MState) (h : ∀ d ∈ st.rest, isWhiteSpace d = false) :
    phraseAlternation.run true st = [] := by
  apply List.eq_nil_iff_forall_not_mem.mpr
  intro s hs
  obtain ⟨w, hw, _, _, hn⟩ := run_word true phraseAlternation st s hs
  obtain ⟨d, hd, hq⟩ := hn _ phraseAlternation_needs_space
  have hmem : d ∈ st.rest := by
    rw [hw]
    exact List.mem_append_left _ hd
  rw [h d hmem] at hq
  exact absurd hq (by simp)

/-- A consuming pattern has no match at the end of the input. -/
theorem run_nil_of_consumes (ic : Bool) (r : Regex) (hc : r.consumes = true)
    (pv : Option Nat) (caps : List (Nat × JSString)) : r.run ic ⟨pv, [], caps⟩ = [] := by
  apply List.eq_nil_iff_forall_not_mem.mpr
  intro s hs
  obtain ⟨w, hw, _, hne, _⟩ := run_word ic r _ s hs
  have hw' : ([] : JSString) = w ++ s.rest := hw
  have : w = [] := by
    cases w with
    | nil => rfl
    | cons c cs => simp at hw'
  exact hne hc this

theorem plusStates_append (q : Nat → Bool) (caps : List (Nat × JSString)) (r : JSString) :
    ∀ (p : JSString), p ≠ [] → (∀ c ∈ p, q c = true) →
      ∃ pv tail, plusStates q caps (p ++ r)
        = plusStates q caps r ++ ⟨some pv, r, caps⟩ :: tail
  | [], h, _ => absurd rfl h
  | [c], _, hc => by
    have hq : q c = true := hc c (List.mem_cons_self _ _)
    exact ⟨c, [], by simp [plusStates, hq]⟩
  | c :: c2 :: p, _, hc => by
    have hq : q c = true := hc c (List.mem_cons_self _ _)
    obtain ⟨pv, tail, h⟩ := plusStates_append q caps r (c2 :: p) (by simp)
      (fun x hx => hc x (List.mem_cons_of_mem _ hx))
    refine ⟨pv, tail ++ [⟨some c, c2 :: p ++ r, caps⟩], ?_⟩
    have hstep : plusStates q caps (c :: c2 :: p ++ r)
        = plusStates q caps (c2 :: p ++ r) ++ [⟨some c, c2 :: p ++ r, caps⟩] := by
      show plusStates q caps (c :: (c2 :: p ++ r)) = _
      rw [plusStates, if_pos hq]
    rw [hstep, h]
    simp

theorem head?_boundary (l : List MState) :
    (l.flatMap (fun s => (Regex.seqs [.wordBoundary]).run true s)).head?
      = l.find? (fun s => atWordBoundary s.prev s.rest) := by
  induction l with
  | nil => rfl
  | cons s l ih =>
    rw [List.flatMap_cons, List.head?_append, ih, List.find?_cons]
    cases hb : atWordBoundary s.prev s.rest <;>
      simp [Regex.seqs, Regex.run, hb]

theorem run_lit_cons (ic : Bool) (c d : Nat) (ds : JSString) (pv : Option Nat)
    (caps : List (Nat × JSString)) (r : Regex) (h : unitMatches ic c d = true) :
    (Regex.seq (.lit c) r).run ic ⟨pv, d :: ds, caps⟩ = r.run ic ⟨some d, ds, caps⟩ := by
  simp [Regex.run, h]

/-- On a bare file name (a stem of path characters, a dot, a listed
extension) the natural-language pattern matches at the start, to the end of
the input, with the whole name as group 2. -/
theorem phraseRegex_bare (p : JSString) (ext : String) (hp : p ≠ [])
    (hc : ∀ c ∈ p, isPathChar c = true) (he : ext ∈ fileExtensions) (pv0 : Option Nat) :
    ∃ st, (phraseRegex.run true ⟨pv0, p ++ 46 :: js ext, []⟩).head? = some st ∧
      st.capture 2 = some (p ++ 46 :: js ext) ∧ st.rest = [] := by
  have hext : ∀ c ∈ js ext, isPathChar c = true := by
    have := fileExtensions_pathChars ext he
    simpa [List.all_eq_true] using this
  have hall : ∀ d ∈ p ++ 46 :: js ext, isPathChar d = true := by
    intro d hd
    rcases List.mem_append.mp hd with h | h
    · exact hc d h
    · rcases List.mem_cons.mp h with rfl | h
      · decide
      · exact hext d h
  have hph : phraseAlternation.run true ⟨pv0, p ++ 46 :: js ext, []⟩ = [] :=
    phraseAlternation_run_nil _ (fun d hd => isPathChar_not_space d (hall d hd))
  obtain ⟨pv, tail, hplus⟩ := plusStates_append isPathChar [] (46 :: js ext) p hp hc
  have hlate := List.isEmpty_iff.mp (fileExtensions_no_late_split ext he)
  have hfirst := fileExtensions_first_boundary ext he
  cases hE : ((Regex.seqs [.group 3 extensionAlternation]).run true ⟨some 46, js ext, []⟩).find?
      (fun s => atWordBoundary s.prev s.rest) with
  | none => simp [hE] at hfirst
  | some s =>
    rw [hE] at hfirst
    have hrest : s.rest = [] := by simpa using hfirst
    have hdef : phraseRegex = .seq (.opt (.group 1 phraseAlternation))
        (.seq (.group 2 (.seq (.plus isPathChar)
          (Regex.seqs [.lit 46, .group 3 extensionAlternation])))
          (Regex.seqs [.wordBoundary])) := rfl
    have hG : (Regex.seqs [.lit 46, .group 3 extensionAlternation]).run true
        ⟨some pv, 46 :: js ext, []⟩
        = (Regex.seqs [.group 3 extensionAlternation]).run true ⟨some 46, js ext, []⟩ :=
      run_lit_cons true 46 46 (js ext) (some pv) [] _ (by decide)
    refine ⟨{ s with caps := (2, (p ++ 46 :: js ext).take
      ((p ++ 46 :: js ext).length - s.rest.length)) :: s.caps }, ?_, ?_, hrest⟩
    · rw [hdef, run_seq, run_opt, run_group, hph]
      simp only [List.map_nil, List.filter_nil, List.nil_append, List.flatMap_cons,
        List.flatMap_nil, List.append_nil]
      rw [run_seq, run_group, run_seq, run_plus]
      simp only []
      rw [head?_boundary, hplus, List.flatMap_append, hlate, List.nil_append,
        List.flatMap_cons, hG, List.map_append, List.find?_append, List.find?_map]
      have hcomp : ((fun s : MState => atWordBoundary s.prev s.rest) ∘ fun s : MState =>
          ({ s with caps := (2, (p ++ 46 :: js ext).take
            ((p ++ 46 :: js ext).length - s.rest.length)) :: s.caps } : MState))
          = fun s => atWordBoundary s.prev s.rest := rfl
      rw [hcomp, hE]
      rfl
    · simp [MState.capture, hrest]

theorem markerRegex_run_nil (pv : Option Nat) (rest : JSString)
    (h : rest.head? ≠ some 64) : markerRegex.run false ⟨pv, rest, []⟩ = [] := by
  have hdef : markerRegex = .seq (.lit 64) (Regex.seqs
    [.group 1 (.seqs [.plus isPathChar, .lit 46, .plus isWordChar]), .wordBoundary]) := rfl
  rw [hdef, run_seq]
  cases rest with
  | nil => simp [Regex.run]
  | cons c cs =>
    have hc : c ≠ 64 := fun e => h (by simp [e])
    have hm : unitMatches false 64 c = false := by
      simp only [unitMatches, Bool.false_eq_true, if_false, beq_eq_false_iff_ne, ne_eq]
      exact fun e => hc e.symm
    simp [Regex.run, hm]

/-- The marker pass finds nothing in an input without "@". -/
theorem markerRegex_execFrom_none :
    ∀ (rest : JSString) (prev : Option Nat), 64 ∉ rest →
      execFrom false markerRegex prev rest = none
  | [], prev, _ => by
    unfold execFrom
    rw [markerRegex_run_nil prev [] (by simp)]
    rfl
  | c :: cs, prev, h => by
    have hc : c ≠ 64 := fun e => h (e ▸ List.mem_cons_self c cs)
    unfold execFrom
    rw [markerRegex_run_nil prev (c :: cs) (by simpa using hc)]
    exact markerRegex_execFrom_none cs (some c) (fun e => h (List.mem_cons_of_mem c e))

/-- C9. For every token made of one or more characters of `[A-Za-z0-9_\-./]`
followed by a dot and one of the listed extensions, `extractFileRequests` on
the message that is the token alone (no markup) returns exactly that token. -/
theorem extractFileRequests_bare_token (p : JSString) (ext : String) (hp : p ≠ [])
    (hc : ∀ c ∈ p, isPathChar c = true) (he : ext ∈ fileExtensions) :
    extractFileRequests Markup.none (p ++ 46 :: js ext) = some [p ++ 46 :: js ext] := by
  have hext : ∀ c ∈ js ext, isPathChar c = true := by
    have := fileExtensions_pathChars ext he
    simpa [List.all_eq_true] using this
  have hall : ∀ d ∈ p ++ 46 :: js ext, isPathChar d = true := by
    intro d hd
    rcases List.mem_append.mp hd with h | h
    · exact hc d h
    · rcases List.mem_cons.mp h with rfl | h
      · decide
      · exact hext d h
  obtain ⟨st, hhead, hcap, hrest⟩ := phraseRegex_bare p ext hp hc he none
  obtain ⟨c, cs, hcs⟩ := List.exists_cons_of_ne_nil hp
  generalize ht : p ++ 46 :: js ext = t at *
  have htc : t = c :: (cs ++ 46 :: js ext) := by rw [← ht, hcs]; rfl
  have hempty : t.isEmpty = false := by rw [htc]; rfl
  have hlen : t.length + 1 = (cs ++ 46 :: js ext).length + 1 + 1 := by rw [htc]; rfl
  have h1 : execLoop false markerRegex (t.length + 1) none t = some [] := by
    have hat : 64 ∉ t := fun hm => by
      have := hall 64 hm
      exact absurd this (by decide)
    rw [execLoop, markerRegex_execFrom_none t none hat]
  have hfrom : execFrom true phraseRegex none t = some st := by
    rw [htc, execFrom, ← htc, hhead]
  have hend : execFrom true phraseRegex st.prev [] = none := by
    rw [execFrom, run_nil_of_consumes true phraseRegex (by decide)]
    rfl
  have h3 : execLoop true phraseRegex (t.length + 1) none t = some [st] := by
    rw [hlen, execLoop, hfrom]
    simp only []
    rw [hrest, execLoop, hend]
    rfl
  have hnot : 32 ∉ t := fun hm => isPathChar_ne_space 32 (hall 32 hm) rfl
  unfold extractFileRequests
  simp only [hempty, h1, h3, Bool.false_eq_true, if_false, List.filterMap_nil,
    List.foldl_cons, List.foldl_nil]
  have hm : markupPass Markup.none [] = [] := rfl
  rw [hm]
  simp [phraseStep, hcap, hempty, hnot, uniq, setAdd]

/-- The token "src/app.json" alone is returned as it is. -/
theorem extractFileRequests_bare_token_witness :
    extractFileRequests Markup.none (js "src/app" ++ 46 :: js "json")
      = some [js "src/app" ++ 46 :: js "json"] :=
  extractFileRequests_bare_token (js "src/app") "json" (by decide) (by decide) (by decide)

/-! ### The tick and the processed-message set -/

theorem KeepsProcessed.refl {σ : Type} (t : Tick σ) : KeepsProcessed t t :=
  ⟨rfl, [], by simp, fun s hs => by simp at hs⟩

theorem KeepsProcessed.trans {σ : Type} {t u v : Tick σ}
    (h1 : KeepsProcessed t u) (h2 : KeepsProcessed u v) : KeepsProcessed t v := by
  obtain ⟨e1, x1, l1, p1⟩ := h1
  obtain ⟨e2, x2, l2, p2⟩ := h2
  refine ⟨e2.trans e1, x1 ++ x2, by rw [l2, l1, List.append_assoc], ?_⟩
  intro s hs
  rcases List.mem_append.mp hs with h | h
  · exact p1 s h
  · exact (p2 s h).trans e1

/-- A step that changes neither the log nor `processedMessages`. -/
theorem KeepsProcessed.of_eq {σ : Type} {t u : Tick σ}
    (he : u.engine.processedMessages = t.engine.processedMessages) (hl : u.log = t.log) :
    KeepsProcessed t u :=
  ⟨he, [], by simp [hl], fun s hs => by simp at hs⟩

theorem keeps_await {σ : Type} (t : Tick σ) (op : Awaited) : KeepsProcessed t (t.await op) :=
  ⟨rfl, [⟨op, t.engine⟩], rfl, fun s hs => by
    simp only [List.mem_singleton] at hs
    subst hs
    rfl⟩

theorem keeps_addPending {σ : Type} (t : Tick σ) (x : JSString) :
    KeepsProcessed t (t.addPending x) := KeepsProcessed.of_eq rfl rfl

theorem keeps_deletePending {σ : Type} (t : Tick σ) (x : JSString) :
    KeepsProcessed t (t.deletePending x) := KeepsProcessed.of_eq rfl rfl

theorem keeps_addDelivered {σ : Type} (t : Tick σ) (key : JSString) :
    KeepsProcessed t (t.addDelivered key) := KeepsProcessed.of_eq rfl rfl

theorem keeps_respond {σ : Type} (t : Tick σ) (text : JSString) :
    KeepsProcessed t (t.respond text) := KeepsProcessed.of_eq rfl rfl

theorem keeps_pushRegular {σ : Type} (t : Tick σ) (file : FileRecord) :
    KeepsProcessed t (t.pushRegular file) := KeepsProcessed.of_eq rfl rfl

theorem keeps_pushLarge {σ : Type} (t : Tick σ) (file : FileRecord) :
    KeepsProcessed t (t.pushLarge file) := KeepsProcessed.of_eq rfl rfl

theorem keeps_setDocument {σ : Type} (t : Tick σ) (d : σ) :
    KeepsProcessed t (t.setDocument d) := KeepsProcessed.of_eq rfl rfl

theorem keeps_appendToPrompt {σ : Type} (host : Host σ) (t : Tick σ) (text : JSString) :
    KeepsProcessed t (appendToPrompt host t text) :=
  (keeps_setDocument t _).trans (keeps_await _ _)

theorem keeps_sleep {σ : Type} (host : Host σ) (t : Tick σ) (ms : Nat) :
    KeepsProcessed t (sleep host t ms) :=
  (keeps_await t (.timeout ms)).trans (keeps_setDocument _ _)

theorem keeps_requestStep {σ : Type} (host : Host σ) (t : Tick σ) (fileName : JSString) :
    KeepsProcessed t (requestStep host t fileName) := by
  unfold requestStep
  by_cases h1 : t.engine.pendingRequests.contains fileName = true
  · rw [if_pos h1]
    exact KeepsProcessed.refl t
  · rw [if_neg h1]
    simp only []
    by_cases h2 : (t.engine.addedFileContents.contains (js "file:" ++ fileName)
        || t.engine.addedFileContents.contains (js "uploaded:" ++ fileName)) = true
    · rw [if_pos h2]
      exact KeepsProcessed.refl t
    · rw [if_neg h2]
      cases (findFilePath (t.addPending fileName).engine.selectedFiles fileName).filter
          (fun p => !p.isEmpty) with
      | none => exact (keeps_addPending t _).trans (keeps_respond _ _)
      | some filePath =>
        simp only []
        refine KeepsProcessed.trans ?_ (keeps_deletePending _ _)
        refine ((keeps_addPending t fileName).trans (keeps_await _ (.readFile filePath))).trans ?_
        cases host.readFile filePath with
        | error message => exact keeps_respond _ _
        | ok file =>
          simp only []
          refine KeepsProcessed.trans ?_ (keeps_addDelivered _ _)
          by_cases h3 : isLargeFile file.content = true
          · rw [if_pos h3]
            exact keeps_pushLarge _ _
          · rw [if_neg h3]
            exact keeps_pushRegular _ _

theorem keeps_foldl_requestStep {σ : Type} (host : Host σ) :
    ∀ (l : List JSString) (t : Tick σ), KeepsProcessed t (l.foldl (requestStep host) t)
  | [], t => KeepsProcessed.refl t
  | x :: l, t =>
    KeepsProcessed.trans (keeps_requestStep host t x)
      (keeps_foldl_requestStep host l (requestStep host t x))

theorem keeps_autoInsert {σ : Type} (host : Host σ) (t : Tick σ) (file : FileRecord) :
    KeepsProcessed t (autoInsertFileAsAttachment host t file).1 := by
  have hspecial : ∀ u : Tick σ, KeepsProcessed t u →
      KeepsProcessed t (if endsWith file.name (js ".js") = true
        then (u.addDelivered (js "uploaded:" ++ file.name), true) else (u, false)).1 := by
    intro u hu
    by_cases h : endsWith file.name (js ".js") = true
    · rw [if_pos h]
      exact hu.trans (keeps_addDelivered u _)
    · rw [if_neg h]
      exact hu
  have hpaste : KeepsProcessed t
      (sleep host (t.setDocument (host.paste t.engine.document file)) 500) :=
    (keeps_setDocument t _).trans (keeps_sleep host _ 500)
  unfold autoInsertFileAsAttachment
  simp only []
  by_cases h1 : host.focusThrows t.engine.document = true
  · rw [if_pos h1]
    exact KeepsProcessed.refl t
  · rw [if_neg h1]
    by_cases h2 : host.attachmentShown t.engine.document file.name = true
    · rw [if_pos h2]
      exact keeps_addDelivered t _
    · rw [if_neg h2]
      by_cases h3 : t.engine.addedFileContents.contains (js "uploaded:" ++ file.name) = true
      · rw [if_pos h3]
        exact KeepsProcessed.refl t
      · rw [if_neg h3]
        by_cases h4 : host.pasteSupported = true
        · rw [if_pos h4]
          split_ifs
          · exact hpaste.trans (keeps_addDelivered _ _)
          · exact (hpaste.trans (keeps_sleep host _ 500)).trans (keeps_addDelivered _ _)
          · exact (hpaste.trans (keeps_sleep host _ 500)).trans (keeps_addDelivered _ _)
          · exact hpaste.trans (keeps_sleep host _ 500)
        · rw [if_neg h4]
          exact hspecial t (KeepsProcessed.refl t)

theorem keeps_fallback {σ : Type} (host : Host σ) (t : Tick σ) (file : FileRecord) :
    KeepsProcessed t (fallbackFileInsertion host t file) := by
  unfold fallbackFileInsertion
  simp only []
  by_cases h : t.engine.addedFileContents.contains (js "file:" ++ file.name) = true
  · rw [if_pos h]
    exact KeepsProcessed.refl t
  · rw [if_neg h]
    exact (keeps_appendToPrompt host t _).trans (keeps_addDelivered _ _)

theorem keeps_ite {σ : Type} (c : Prop) [Decidable c] {t a b : Tick σ}
    (ha : KeepsProcessed t a) (hb : KeepsProcessed t b) :
    KeepsProcessed t (if c then a else b) := by
  by_cases h : c
  · rw [if_pos h]
    exact ha
  · rw [if_neg h]
    exact hb

theorem keeps_largeFiles {σ : Type} (host : Host σ) :
    ∀ (files : List FileRecord) (t : Tick σ),
      KeepsProcessed t (processLargeFilesSequentially host files t)
  | [], t => KeepsProcessed.refl t
  | file :: files, t => by
    unfold processLargeFilesSequentially
    simp only []
    refine KeepsProcessed.trans ?_ (keeps_largeFiles host files _)
    have h2 : KeepsProcessed t ((autoInsertFileAsAttachment host (sleep host t 500) file).1.await
        (.autoInsertFileAsAttachment file.name)) :=
      ((keeps_sleep host t 500).trans (keeps_autoInsert host _ file)).trans (keeps_await _ _)
    have h3 := keeps_ite ((!(autoInsertFileAsAttachment host (sleep host t 500) file).2) = true)
      ((h2.trans (keeps_fallback host _ file)).trans
        (keeps_await _ (.fallbackFileInsertion file.name))) h2
    exact keeps_ite _ (h3.trans (keeps_sleep host _ 1000)) h3

theorem keeps_foldl_respond {σ : Type} (f : FileRecord → JSString) :
    ∀ (files : List FileRecord) (t : Tick σ),
      KeepsProcessed t (files.foldl (fun (u : Tick σ) file => u.respond (f file)) t)
  | [], t => KeepsProcessed.refl t
  | file :: files, t =>
    (keeps_respond t (f file)).trans (keeps_foldl_respond f files _)

theorem keeps_deliver {σ : Type} (host : Host σ) (t : Tick σ) :
    KeepsProcessed t (deliver host t) := by
  have h1 : KeepsProcessed t (deliverRegular host t) := by
    unfold deliverRegular
    simp only []
    apply keeps_ite
    · apply keeps_ite
      · exact (keeps_foldl_respond _ _ t).trans (keeps_appendToPrompt host _ _)
      · exact keeps_foldl_respond _ _ t
    · exact KeepsProcessed.refl t
  have h2 : KeepsProcessed (deliverRegular host t) (deliver host t) := by
    unfold deliver deliverLarge
    apply keeps_ite
    · exact (keeps_largeFiles host _ _).trans (keeps_await _ _)
    · exact KeepsProcessed.refl _
  exact h1.trans h2

/-- The extractor returns a list for every message. -/
theorem extractFileRequests_total (dom : Markup) (message : JSString) :
    ∃ l, extractFileRequests dom message = some l := by
  by_cases hm : message = []
  · subst hm
    exact ⟨[], by simp [extractFileRequests]⟩
  · obtain ⟨_, _, _, _, he⟩ := extractFileRequests_eq dom message hm
    exact ⟨_, he⟩

/-- C10 (as stated, refuted). The last turn "hello" is non-empty and its
fingerprint is not in the empty processed set; the extractor finds no file
request in it, and the call returns without any `await` and with the
processed set still empty. -/
theorem processConversation_marks_counterexample :
    js "hello" ≠ [] ∧ hashMessage (js "hello") ∉ ([] : List JSString) ∧
    extractFileRequests Markup.none (js "hello") = some [] ∧
    (processConversation (plainHost []) ⟨[js "src/app.js"], [], [], [], ()⟩
      [⟨none, some (js "hello")⟩]).map
        (fun t => (t.engine.processedMessages, t.log.length)) = some ([], 0) := by
  decide

/-- C10 (amended). For a call of `processConversation` whose last turn has a
non-empty assistant text with a fingerprint not yet in `processedMessages`:
the call returns; when the extractor finds at least one file request, the
fingerprint is in `processedMessages` at every `await` of the call (so before
the first one) and when the call returns; when the extractor finds none, the
call passes no `await` and leaves `processedMessages` as it was. -/
theorem processConversation_marks {σ : Type} (host : Host σ) (engine : Engine σ)
    (conversations : List Turn) (lastTurn : Turn) (ai : JSString)
    (hlast : conversations.getLast? = some lastTurn) (hai : lastTurn.ai = some ai)
    (hne : ai ≠ []) (hfresh : hashMessage ai ∉ engine.processedMessages) :
    ∃ fileRequests t,
      extractFileRequests (host.parse ai) ai = some fileRequests ∧
      processConversation host engine conversations = some t ∧
      (fileRequests ≠ [] →
        hashMessage ai ∈ t.engine.processedMessages ∧
        ∀ s ∈ t.log, hashMessage ai ∈ s.engine.processedMessages) ∧
      (fileRequests = [] →
        t.engine.processedMessages = engine.processedMessages ∧ t.log = []) := by
  obtain ⟨fileRequests, hx⟩ := extractFileRequests_total (host.parse ai) ai
  have hempty : ai.isEmpty = false := by
    cases ai with
    | nil => exact absurd rfl hne
    | cons c cs => rfl
  have hc : engine.processedMessages.contains (hashMessage ai) = false := by
    simpa using hfresh
  by_cases hr : fileRequests = []
  · subst hr
    refine ⟨[], ⟨engine, [], [], [], []⟩, hx, ?_, fun h => absurd rfl h, fun _ => ⟨rfl, rfl⟩⟩
    unfold processConversation
    simp only [hlast, hai, hempty, hc, hx, Bool.false_eq_true, if_false, List.isEmpty_nil,
      if_true]
  · have hre : fileRequests.isEmpty = false := by
      cases fileRequests with
      | nil => exact absurd rfl hr
      | cons c cs => rfl
    refine ⟨fileRequests, deliver host (fileRequests.foldl (requestStep host)
      ⟨{ engine with processedMessages := setAdd engine.processedMessages (hashMessage ai) },
        [], [], [], []⟩), hx, ?_, fun _ => ?_, fun h => absurd h hr⟩
    · unfold processConversation
      simp only [hlast, hai, hempty, hc, hx, hre, Bool.false_eq_true, if_false]
    · obtain ⟨he, extra, hl, hp⟩ := (keeps_foldl_requestStep host fileRequests _).trans
        (keeps_deliver host (fileRequests.foldl (requestStep host)
          ⟨{ engine with processedMessages := setAdd engine.processedMessages (hashMessage ai) },
            [], [], [], []⟩))
      have hin : hashMessage ai ∈ setAdd engine.processedMessages (hashMessage ai) :=
        mem_setAdd.mpr (Or.inr rfl)
      refine ⟨?_, fun s hs => ?_⟩
      · rw [he]
        exact hin
      · rw [hl, List.nil_append] at hs
        rw [hp s hs]
        exact hin

/-- The message "show me @app.js" over a project that holds "src/app.js": the
request is found, and the fingerprint is marked at every `await`. -/
theorem processConversation_marks_witness :
    ∃ fileRequests t,
      extractFileRequests Markup.none (js "show me @app.js") = some fileRequests ∧
      processConversation (plainHost [⟨js "src/app.js", js "app.js", js ".js", js "let x = 1"⟩])
        ⟨[js "src/app.js"], [], [], [], ()⟩ [⟨none, some (js "show me @app.js")⟩] = some t ∧
      (fileRequests ≠ [] →
        hashMessage (js "show me @app.js") ∈ t.engine.processedMessages ∧
        ∀ s ∈ t.log, hashMessage (js "show me @app.js") ∈ s.engine.processedMessages) ∧
      (fileRequests = [] →
        t.engine.processedMessages = ([] : List JSString) ∧ t.log = []) :=
  processConversation_marks (plainHost [⟨js "src/app.js", js "app.js", js ".js", js "let x = 1"⟩])
    ⟨[js "src/app.js"], [], [], [], ()⟩ [⟨none, some (js "show me @app.js")⟩]
    ⟨none, some (js "show me @app.js")⟩ (js "show me @app.js") rfl rfl (by decide) (by decide)

/-! ### The fingerprint -/

/-- The conversion to 32 bits lands in [-2^31, 2^31) and differs from its
argument by a multiple of 2^32. -/
theorem toInt32_spec (x : Int) :
    -2147483648 ≤ toInt32 x ∧ toInt32 x < 2147483648 ∧
    (toInt32 x - x) % 4294967296 = 0 := by
  unfold toInt32
  omega

theorem hashStep_eq (h : Int) (c : Nat) : hashStep h c = toInt32 (31 * h + (c : Int)) := by
  unfold hashStep toInt32
  omega

theorem toInt32_step_congr (a : Int) (c : Nat) :
    toInt32 (31 * toInt32 a + (c : Int)) = toInt32 (31 * a + (c : Int)) := by
  unfold toInt32
  omega

theorem foldl_hashStep (m : JSString) :
    ∀ a : Int, m.foldl hashStep (toInt32 a) = toInt32 (a * 31 ^ m.length + polySum m) := by
  induction m with
  | nil =>
    intro a
    simp [polySum]
  | cons c cs ih =>
    intro a
    rw [List.foldl_cons, hashStep_eq, toInt32_step_congr, ih]
    congr 1
    simp only [polySum, List.length_cons]
    ring

/-- C27. `hashMessage(m)` is the decimal rendering of the sum of
`c_i * 31^(n-1-i)` over the code units of `m`, wrapped to signed 32 bits; one
round of its loop maps `h` to `31 * h + c` wrapped to signed 32 bits, the wrap
being the reduction modulo 2^32 into [-2^31, 2^31); and the fingerprint of
the empty string is "0". -/
theorem hashMessage_polynomial (m : JSString) :
    hashMessage m = js (toString (toInt32 (polySum m))) ∧
    (∀ (h : Int) (c : Nat), hashStep h c = toInt32 (31 * h + (c : Int))) ∧
    (∀ x : Int, -2147483648 ≤ toInt32 x ∧ toInt32 x < 2147483648 ∧
      (toInt32 x - x) % 4294967296 = 0) ∧
    hashMessage [] = js "0" := by
  refine ⟨?_, hashStep_eq, toInt32_spec, by decide⟩
  have h := foldl_hashStep m 0
  have h0 : toInt32 0 = 0 := by decide
  rw [h0] at h
  unfold hashMessage
  rw [h]
  simp

/-- C28. The fingerprint is not injective: "Aa" and "BB" differ and both have
the fingerprint "2112".  So do the messages "@Aa.js" and "@BB.js": after a
tick on "@Aa.js", a tick on the never-seen "@BB.js", which requests the
project file "BB.js", finds its fingerprint in `processedMessages`, passes no
`await` and delivers nothing, whereas the same tick from the empty state
reads "BB.js" and records it. -/
theorem hashMessage_collision :
    js "Aa" ≠ js "BB" ∧ hashMessage (js "Aa") = js "2112" ∧
    hashMessage (js "BB") = js "2112" ∧
    js "@Aa.js" ≠ js "@BB.js" ∧ hashMessage (js "@Aa.js") = hashMessage (js "@BB.js") ∧
    extractFileRequests Markup.none (js "@BB.js") = some [js "BB.js"] ∧
    findFilePath [js "Aa.js", js "BB.js"] (js "BB.js") = some (js "BB.js") ∧
    ((processConversation
        (plainHost [⟨js "Aa.js", js "Aa.js", js ".js", js "a"⟩,
          ⟨js "BB.js", js "BB.js", js ".js", js "b"⟩])
        ⟨[js "Aa.js", js "BB.js"], [], [], [], ()⟩ [⟨none, some (js "@Aa.js")⟩]).bind
      (fun t1 => processConversation
        (plainHost [⟨js "Aa.js", js "Aa.js", js ".js", js "a"⟩,
          ⟨js "BB.js", js "BB.js", js ".js", js "b"⟩])
        t1.engine [⟨none, some (js "@Aa.js")⟩, ⟨none, some (js "@BB.js")⟩])).map
      (fun t2 => (t2.engine.addedFileContents, t2.log.length))
      = some ([js "file:Aa.js"], 0) ∧
    (processConversation
        (plainHost [⟨js "Aa.js", js "Aa.js", js ".js", js "a"⟩,
          ⟨js "BB.js", js "BB.js", js ".js", js "b"⟩])
        ⟨[js "Aa.js", js "BB.js"], [], [], [], ()⟩
        [⟨none, some (js "@Aa.js")⟩, ⟨none, some (js "@BB.js")⟩]).map
      (fun t2 => (t2.engine.addedFileContents, t2.log.length))
      = some ([js "file:BB.js"], 2) := by
  decide

/-! ### The text after the last "@" -/

theorem lastIndexUpTo_spec (s : JSString) (c : Nat) :
    ∀ n : Nat,
      (lastIndexUpTo s c n = -1 ∧ ∀ j, j ≤ n → s[j]? ≠ some c) ∨
      (∃ k : Nat, k ≤ n ∧ lastIndexUpTo s c n = (k : Int) ∧ s[k]? = some c ∧
        ∀ j, k < j → j ≤ n → s[j]? ≠ some c)
  | 0 => by
    unfold lastIndexUpTo
    by_cases h : s[0]? = some c
    · right
      refine ⟨0, Nat.le_refl _, by simp [h], h, fun j h1 h2 => by omega⟩
    · left
      refine ⟨by simp [h], fun j hj => ?_⟩
      have : j = 0 := by omega
      subst this
      exact h
  | n + 1 => by
    unfold lastIndexUpTo
    by_cases h : s[n + 1]? = some c
    · right
      refine ⟨n + 1, Nat.le_refl _, by simp [h], h, fun j h1 h2 => by omega⟩
    · have hb : (s[n + 1]? == some c) = false := by simpa using h
      rw [hb]
      simp only [Bool.false_eq_true, if_false]
      rcases lastIndexUpTo_spec s c n with ⟨h1, h2⟩ | ⟨k, hk, h1, h2, h3⟩
      · left
        refine ⟨h1, fun j hj => ?_⟩
        by_cases hj' : j = n + 1
        · subst hj'
          exact h
        · exact h2 j (by omega)
      · right
        refine ⟨k, by omega, h1, h2, fun j hj1 hj2 => ?_⟩
        by_cases hj' : j = n + 1
        · subst hj'
          exact h
        · exact h3 j hj1 (by omega)

/-- With a cursor at `p ≥ 1`, `lastIndexOf('@', p - 1)` is `-1` when no unit
before the cursor is "@", and else the index of the last "@" before the
cursor. -/
theorem lastIndexOf_before (s : JSString) (c p : Nat) (hp : 1 ≤ p) :
    (lastIndexOf s c ((p : Int) - 1) = -1 ∧ ∀ j, j < p → s[j]? ≠ some c) ∨
    (∃ k : Nat, k < p ∧ k < s.length ∧ lastIndexOf s c ((p : Int) - 1) = (k : Int) ∧
      s[k]? = some c ∧ ∀ j, k < j → j < p → s[j]? ≠ some c) := by
  unfold lastIndexOf
  have hstart : (min (max ((p : Int) - 1) 0) (s.length : Int)).toNat = min (p - 1) s.length := by
    omega
  rw [hstart]
  have hout : ∀ j, min (p - 1) s.length < j → j < p → s[j]? ≠ some c := by
    intro j h1 h2
    have : s.length ≤ j := by omega
    rw [List.getElem?_eq_none this]
    simp
  rcases lastIndexUpTo_spec s c (min (p - 1) s.length) with ⟨h1, h2⟩ | ⟨k, hk, h1, h2, h3⟩
  · left
    refine ⟨h1, fun j hj => ?_⟩
    by_cases hj' : j ≤ min (p - 1) s.length
    · exact h2 j hj'
    · exact hout j (by omega) hj
  · right
    have hlen : k < s.length := by
      by_contra hcon
      rw [List.getElem?_eq_none (by omega)] at h2
      simp at h2
    refine ⟨k, by omega, hlen, h1, h2, fun j hj1 hj2 => ?_⟩
    by_cases hj' : j ≤ min (p - 1) s.length
    · exact h3 j hj1 hj'
    · exact hout j (by omega) hj2

theorem substring_between (s : JSString) (k p : Nat) (hk : k < p) (hlen : k < s.length) :
    substring s ((k : Int) + 1) (p : Int) = (s.drop (k + 1)).take (p - (k + 1)) := by
  unfold substring
  simp only []
  have h1 : (min (min (max ((k : Int) + 1) 0) (s.length : Int))
      (min (max (p : Int) 0) (s.length : Int))).toNat = k + 1 := by omega
  have h2 : (max (min (max ((k : Int) + 1) 0) (s.length : Int))
        (min (max (p : Int) 0) (s.length : Int))
      - min (min (max ((k : Int) + 1) 0) (s.length : Int))
        (min (max (p : Int) 0) (s.length : Int))).toNat = min p s.length - (k + 1) := by omega
  rw [h1, h2]
  by_cases hp : p ≤ s.length
  · rw [Nat.min_eq_left hp]
  · have hp' : s.length ≤ p := by omega
    rw [Nat.min_eq_right hp', List.take_of_length_le (by simp), List.take_of_length_le]
    simp only [List.length_drop]
    omega

/-- What `getTextAfterLastAt` does with a cursor at `p ≥ 1`. -/
theorem getTextAfterLastAt_cases (text : JSString) (p : Nat) (hp : 1 ≤ p) :
    (getTextAfterLastAt text p = none ∧ ∀ j, j < p → text[j]? ≠ some 64) ∨
    (∃ k : Nat, k < p ∧ text[k]? = some 64 ∧ (∀ j, k < j → j < p → text[j]? ≠ some 64) ∧
      getTextAfterLastAt text p =
        if ((text.drop (k + 1)).take (p - (k + 1))).contains 32 then none
        else some ((text.drop (k + 1)).take (p - (k + 1)))) := by
  rcases lastIndexOf_before text 64 p hp with ⟨h1, h2⟩ | ⟨k, hk, hlen, h1, h2, h3⟩
  · left
    refine ⟨?_, h2⟩
    unfold getTextAfterLastAt
    simp [h1]
  · right
    refine ⟨k, hk, h2, h3, ?_⟩
    unfold getTextAfterLastAt
    simp only [h1]
    have hne : ((k : Int) == -1) = false := by
      simp only [beq_eq_false_iff_ne, ne_eq]
      omega
    rw [hne, substring_between text k p hk hlen]
    simp

/-- C22 (as stated, refuted). With the text "@a", a tab, "b" and the cursor at
its end, the text between the "@" and the cursor holds a white-space unit
(the tab), and `getTextAfterLastAt` returns it instead of null. -/
theorem getTextAfterLastAt_tab_counterexample :
    getTextAfterLastAt (js "@a\tb") 4 = some (js "a\tb") ∧
    9 ∈ js "a\tb" ∧ isWhiteSpace 9 = true := by
  decide

/-- C22 (amended). With the cursor at `p ≥ 1`, `getTextAfterLastAt` returns null
when no unit before the cursor is "@", and when the text between the last
"@" before the cursor and the cursor contains a space (U+0020). -/
theorem getTextAfterLastAt_null (text : JSString) (p : Nat) (hp : 1 ≤ p) :
    ((∀ j, j < p → text[j]? ≠ some 64) → getTextAfterLastAt text p = none) ∧
    (∀ k, k < p → text[k]? = some 64 → (∀ j, k < j → j < p → text[j]? ≠ some 64) →
      32 ∈ (text.drop (k + 1)).take (p - (k + 1)) → getTextAfterLastAt text p = none) := by
  rcases getTextAfterLastAt_cases text p hp with ⟨h1, h2⟩ | ⟨k, hk, h2, h3, h4⟩
  · exact ⟨fun _ => h1, fun _ _ _ _ _ => h1⟩
  · refine ⟨fun hno => absurd h2 (hno k hk), fun k' hk' h2' h3' hsp => ?_⟩
    have hkk : k' = k := by
      rcases Nat.lt_trichotomy k' k with h | h | h
      · exact absurd h2 (h3' k h hk)
      · exact h
      · exact absurd h2' (h3 k' h hk')
    subst hkk
    have hc : ((text.drop (k' + 1)).take (p - (k' + 1))).contains 32 = true := by
      simpa using hsp
    rw [h4, if_pos hc]

/-- With "ab @f o" and the cursor at the end, the text after the "@" holds a
space and the result is null. -/
theorem getTextAfterLastAt_null_witness : getTextAfterLastAt (js "ab @f o") 7 = none :=
  (getTextAfterLastAt_null (js "ab @f o") 7 (by decide)).2 3 (by decide) (by decide)
    (fun j h1 h2 => by interval_cases j <;> decide) (by decide)

/-- C29 (the code at the failing input). With the cursor at 0 in the text "@",
`lastIndexOf('@', -1)` is 0 and `substring(1, 0)` is "@": the result is "@",
which is not a text between an "@" before the cursor and the cursor, and
contains "@". -/
theorem getTextAfterLastAt_at_zero :
    getTextAfterLastAt (js "@") 0 = some (js "@") ∧
    lastIndexOf (js "@") 64 (-1) = 0 ∧ substring (js "@") 1 0 = js "@" := by
  decide

/-- For a cursor at `p ≥ 1`, a non-null result of `getTextAfterLastAt` is the
text between the last "@" before the cursor and the cursor, and holds neither
"@" nor a space. -/
theorem getTextAfterLastAt_some (text : JSString) (p : Nat) (hp : 1 ≤ p) (s : JSString)
    (h : getTextAfterLastAt text p = some s) :
    ∃ k, k < p ∧ text[k]? = some 64 ∧ (∀ j, k < j → j < p → text[j]? ≠ some 64) ∧
      s = (text.drop (k + 1)).take (p - (k + 1)) ∧ 64 ∉ s ∧ 32 ∉ s := by
  rcases getTextAfterLastAt_cases text p hp with ⟨h1, _⟩ | ⟨k, hk, h2, h3, h4⟩
  · rw [h1] at h
    exact absurd h (by simp)
  · rw [h4] at h
    by_cases hc : ((text.drop (k + 1)).take (p - (k + 1))).contains 32 = true
    · rw [if_pos hc] at h
      exact absurd h (by simp)
    · rw [if_neg hc] at h
      have hs : s = (text.drop (k + 1)).take (p - (k + 1)) := (Option.some.inj h).symm
      refine ⟨k, hk, h2, h3, hs, ?_, ?_⟩
      · intro hm
        rw [hs] at hm
        obtain ⟨i, hi, hget⟩ := List.getElem_of_mem hm
        have hi' : i < p - (k + 1) ∧ i < text.length - (k + 1) := by
          simpa [List.length_take, List.length_drop] using hi
        rw [List.getElem_take, List.getElem_drop] at hget
        have := h3 (k + 1 + i) (by omega) (by omega)
        rw [List.getElem?_eq_getElem (by omega)] at this
        exact this (by rw [hget])
      · rw [hs]
        simpa using hc

/-! ### Replacing the "@" span -/

theorem substring_prefix (s : JSString) (k : Nat) (hlen : k < s.length) :
    substring s 0 (k : Int) = s.take k := by
  unfold substring
  simp only []
  have h1 : (min (min (max (0 : Int) 0) (s.length : Int))
      (min (max (k : Int) 0) (s.length : Int))).toNat = 0 := by omega
  have h2 : (max (min (max (0 : Int) 0) (s.length : Int)) (min (max (k : Int) 0) (s.length : Int))
      - min (min (max (0 : Int) 0) (s.length : Int))
        (min (max (k : Int) 0) (s.length : Int))).toNat = k := by omega
  rw [h1, h2]
  simp

theorem substring_suffix (s : JSString) (p : Nat) :
    substring s (p : Int) (s.length : Int) = s.drop p := by
  unfold substring
  simp only []
  have h1 : (min (min (max (p : Int) 0) (s.length : Int))
      (min (max (s.length : Int) 0) (s.length : Int))).toNat = min p s.length := by omega
  have h2 : (max (min (max (p : Int) 0) (s.length : Int))
        (min (max (s.length : Int) 0) (s.length : Int))
      - min (min (max (p : Int) 0) (s.length : Int))
        (min (max (s.length : Int) 0) (s.length : Int))).toNat = s.length - min p s.length := by
    omega
  rw [h1, h2]
  by_cases hp : p ≤ s.length
  · rw [Nat.min_eq_left hp, List.take_of_length_le (by simp)]
  · have hp' : s.length ≤ p := by omega
    rw [Nat.min_eq_right hp', List.drop_of_length_le hp', List.drop_of_length_le (Nat.le_refl _)]
    simp

/-- On a plain-text prompt box with the cursor at `p ≥ 1`:
`replaceAtWithFileContent` puts the content in place of the span from the last
"@" before the cursor to the cursor and sets the cursor after the content;
without an "@" before the cursor it leaves the box as it is. -/
theorem replaceAtWithFileContent_spec (text content : JSString) (p : Nat) (hp : 1 ≤ p) :
    ((∀ j, j < p → text[j]? ≠ some 64) →
      replaceAtWithFileContent ⟨text, p⟩ content = ⟨text, p⟩) ∧
    (∀ k, k < p → text[k]? = some 64 → (∀ j, k < j → j < p → text[j]? ≠ some 64) →
      replaceAtWithFileContent ⟨text, p⟩ content
        = ⟨text.take k ++ content ++ text.drop p, k + content.length⟩) := by
  rcases lastIndexOf_before text 64 p hp with ⟨h1, h2⟩ | ⟨k, hk, hlen, h1, h2, h3⟩
  · refine ⟨fun _ => ?_, fun k hk hat _ => absurd hat (h2 k hk)⟩
    unfold replaceAtWithFileContent
    simp [h1]
  · refine ⟨fun hno => absurd h2 (hno k hk), fun k' hk' h2' h3' => ?_⟩
    have hkk : k' = k := by
      rcases Nat.lt_trichotomy k' k with h | h | h
      · exact absurd h2 (h3' k h hk)
      · exact h
      · exact absurd h2' (h3 k' h hk')
    subst hkk
    unfold replaceAtWithFileContent
    simp only [h1]
    have hne : ((k' : Int) == -1) = false := by
      simp only [beq_eq_false_iff_ne, ne_eq]
      omega
    rw [hne, substring_prefix text k' hlen, substring_suffix text p]
    simp only [Bool.false_eq_true, if_false]
    congr 1
    have : ((k' : Int) + (content.length : Int)).toNat = k' + content.length := by omega
    rw [this]
    simp only [List.length_append, List.length_take]
    omega

/-- C24 (the code at the failing input). In the plain-text box with the value
"@x" and the cursor at 0 there is no "@" before the cursor, yet
`lastIndexOf('@', -1)` is 0 and the box is modified: the content "C" goes in
front of the "@", which stays, and the cursor moves to 1. -/
theorem replaceAtWithFileContent_at_zero :
    (∀ j, j < 0 → (js "@x")[j]? ≠ some 64) ∧
    (replaceAtWithFileContent ⟨js "@x", 0⟩ (js "C")).value = js "C@x" ∧
    (replaceAtWithFileContent ⟨js "@x", 0⟩ (js "C")).selectionStart = 1 := by
  refine ⟨fun j hj => absurd hj (Nat.not_lt_zero j), by decide, by decide⟩

/-! ### Keyboard navigation -/

theorem marked_congr (sel sel' : Nat → Bool) :
    ∀ (ps : List JSString) (i : Nat), (∀ j, i ≤ j → j < i + ps.length → sel j = sel' j) →
      marked sel i ps = marked sel' i ps
  | [], _, _ => rfl
  | p :: ps, i, h => by
    unfold marked
    rw [h i (Nat.le_refl _) (by simp), marked_congr sel sel' ps (i + 1)
      (fun j h1 h2 => h j (by omega) (by simp only [List.length_cons]; omega))]

theorem setSelectedAt_marked (b : Bool) (sel : Nat → Bool) :
    ∀ (ps : List JSString) (i k : Nat),
      setSelectedAt b k (marked sel i ps)
        = marked (fun j => if j = i + k then b else sel j) i ps
  | [], _, _ => by simp [marked, setSelectedAt]
  | p :: ps, i, 0 => by
    simp only [marked, setSelectedAt, Nat.add_zero, if_true]
    congr 1
    exact marked_congr _ _ ps (i + 1) (fun j h1 _ => by
      have : j ≠ i := by omega
      simp [this])
  | p :: ps, i, k + 1 => by
    simp only [marked, setSelectedAt]
    have hi : i ≠ i + (k + 1) := by omega
    rw [setSelectedAt_marked b sel ps (i + 1) k]
    simp only [hi, if_false]
    congr 1
    exact marked_congr _ _ ps (i + 1) (fun j _ _ => by
      have : (j = i + 1 + k) = (j = i + (k + 1)) := by
        apply propext
        constructor <;> intro h <;> omega
      simp only [this])

theorem length_marked (sel : Nat → Bool) :
    ∀ (ps : List JSString) (i : Nat), (marked sel i ps).length = ps.length
  | [], _ => rfl
  | p :: ps, i => by simp [marked, length_marked sel ps (i + 1)]

theorem findIdx_marked (s : Nat) :
    ∀ (ps : List JSString) (i : Nat), i ≤ s → s < i + ps.length →
      (marked (fun j => j == s) i ps).findIdx (fun item => item.selected) = s - i
  | [], i, h1, h2 => by simp at h2; omega
  | p :: ps, i, h1, h2 => by
    unfold marked
    rw [List.findIdx_cons]
    by_cases h : i = s
    · subst h
      simp
    · have hb : (i == s) = false := by simpa using h
      simp only [hb, cond_false]
      rw [findIdx_marked s ps (i + 1) (by omega) (by simp only [List.length_cons] at h2; omega)]
      omega

theorem selectedIndexOf_highlight (paths : List JSString) (s : Nat) (hs : s < paths.length) :
    selectedIndexOf (highlight paths s) = (s : Int) := by
  unfold selectedIndexOf highlight
  rw [findIdx_marked s paths 0 (Nat.zero_le _) (by omega), length_marked]
  simp [hs]

theorem getElem?_marked (sel : Nat → Bool) :
    ∀ (ps : List JSString) (i k : Nat),
      (marked sel i ps)[k]? = ps[k]?.map (fun p => ⟨p, sel (i + k)⟩)
  | [], _, _ => by simp [marked]
  | p :: ps, i, 0 => by simp [marked]
  | p :: ps, i, k + 1 => by
    simp only [marked, List.getElem?_cons_succ, getElem?_marked sel ps (i + 1) k]
    have : i + 1 + k = i + (k + 1) := by omega
    rw [this]

/-- One press of ArrowDown or ArrowUp on the rows of which exactly row `s` is
highlighted. -/
theorem arrow_highlight (paths : List JSString) (s : Nat) (hs : s < paths.length) :
    handleDropdownKeyNavigation true (highlight paths s) .arrowDown
      = (highlight paths ((s + 1) % paths.length), .nothing) ∧
    handleDropdownKeyNavigation true (highlight paths s) .arrowUp
      = (highlight paths ((s + paths.length - 1) % paths.length), .nothing) := by
  have hlen : ((highlight paths s).length == 0) = false := by
    simp only [highlight, length_marked, beq_eq_false_iff_ne, ne_eq]
    omega
  have hge : (s : Int) ≥ 0 := by omega
  constructor
  · unfold handleDropdownKeyNavigation
    simp only [selectedIndexOf_highlight paths s hs, hlen, hge, Bool.not_true,
      Bool.false_eq_true, if_false, if_true, Int.toNat_ofNat]
    congr 1
    unfold highlight
    rw [setSelectedAt_marked, setSelectedAt_marked, length_marked]
    apply marked_congr
    intro j _ hj
    simp only [Nat.zero_add] at hj ⊢
    by_cases h1 : (s : Int) < (paths.length : Int) - 1
    · have hmod : (s + 1) % paths.length = s + 1 := Nat.mod_eq_of_lt (by omega)
      have ht : ((s : Int) + 1).toNat = s + 1 := by omega
      simp only [h1, if_true, hmod, ht]
      by_cases hj1 : j = s + 1
      · simp [hj1]
      · by_cases hj2 : j = s
        · subst hj2
          simp
        · simp [hj1, hj2]
    · have hs' : s + 1 = paths.length := by omega
      have hmod : (s + 1) % paths.length = 0 := by rw [hs']; exact Nat.mod_self _
      simp only [h1, if_false, hmod, Int.toNat_zero]
      by_cases hj1 : j = 0
      · simp [hj1]
      · by_cases hj2 : j = s
        · subst hj2
          simp [hj1]
        · simp [hj1, hj2]
  · unfold handleDropdownKeyNavigation
    simp only [selectedIndexOf_highlight paths s hs, hlen, hge, Bool.not_true,
      Bool.false_eq_true, if_false, if_true, Int.toNat_ofNat]
    congr 1
    unfold highlight
    rw [setSelectedAt_marked, setSelectedAt_marked, length_marked]
    apply marked_congr
    intro j _ hj
    simp only [Nat.zero_add] at hj ⊢
    by_cases h1 : (s : Int) > 0
    · have hmod : (s + paths.length - 1) % paths.length = s - 1 := by
        have : s + paths.length - 1 = (s - 1) + paths.length := by omega
        rw [this, Nat.add_mod_right, Nat.mod_eq_of_lt (by omega)]
      have ht : ((s : Int) - 1).toNat = s - 1 := by omega
      simp only [h1, if_true, hmod, ht]
      by_cases hj1 : j = s - 1
      · simp [hj1]
      · by_cases hj2 : j = s
        · subst hj2
          simp [hj1]
        · simp [hj1, hj2]
    · have hs0 : s = 0 := by omega
      subst hs0
      have hmod : (0 + paths.length - 1) % paths.length = paths.length - 1 := by
        rw [Nat.zero_add]
        exact Nat.mod_eq_of_lt (by omega)
      have ht : ((paths.length : Int) - 1).toNat = paths.length - 1 := by omega
      simp only [h1, if_false, hmod, ht]
      by_cases hj1 : j = paths.length - 1
      · simp [hj1]
      · by_cases hj2 : j = 0
        · subst hj2
          simp [hj1]
        · simp [hj1, hj2]

theorem selected_count_marked (s : Nat) :
    ∀ (ps : List JSString) (i : Nat),
      ((marked (fun j => j == s) i ps).filter (fun item => item.selected)).length
        = if i ≤ s ∧ s < i + ps.length then 1 else 0
  | [], i => by
    have : ¬ (i ≤ s ∧ s < i + ([] : List JSString).length) := by
      simp only [List.length_nil]
      omega
    rw [if_neg this]
    rfl
  | p :: ps, i => by
    unfold marked
    rw [List.filter_cons]
    by_cases h : i = s
    · subst h
      have h0 : ¬ (i + 1 ≤ i ∧ i < i + 1 + ps.length) := by omega
      have h1 : i ≤ i ∧ i < i + (p :: ps).length := by simp
      simp [selected_count_marked i ps (i + 1), h0, h1]
    · have hb : (i == s) = false := by simpa using h
      simp only [hb, Bool.false_eq_true, if_false]
      rw [selected_count_marked s ps (i + 1)]
      have : (i + 1 ≤ s ∧ s < i + 1 + ps.length) ↔ (i ≤ s ∧ s < i + (p :: ps).length) := by
        simp only [List.length_cons]
        omega
      simp only [this]

theorem iterate_arrowDown (paths : List JSString) (s : Nat) (hs : s < paths.length) :
    ∀ k : Nat,
      Nat.iterate (fun items => (handleDropdownKeyNavigation true items .arrowDown).1) k
        (highlight paths s) = highlight paths ((s + k) % paths.length)
  | 0 => by simp [Nat.mod_eq_of_lt hs]
  | k + 1 => by
    rw [Function.iterate_succ_apply', iterate_arrowDown paths s hs k,
      (arrow_highlight paths ((s + k) % paths.length) (Nat.mod_lt _ (by omega))).1]
    simp only [Nat.mod_add_mod]
    rfl

/-- C23. With the dropdown open on `n ≥ 1` visible rows of which exactly row
`s < n` is highlighted: ArrowDown moves the highlight to `(s + 1) mod n` and
ArrowUp to `(s + n - 1) mod n`, exactly one row being highlighted afterwards;
ArrowDown followed by ArrowUp restores the rows, and so do `n` presses of
ArrowDown; Enter and Tab both call `selectFile` with the path of row `s`. -/
theorem dropdown_navigation (paths : List JSString) (s : Nat) (hs : s < paths.length) :
    handleDropdownKeyNavigation true (highlight paths s) .arrowDown
      = (highlight paths ((s + 1) % paths.length), .nothing) ∧
    handleDropdownKeyNavigation true (highlight paths s) .arrowUp
      = (highlight paths ((s + paths.length - 1) % paths.length), .nothing) ∧
    (((handleDropdownKeyNavigation true (highlight paths s) .arrowDown).1.filter
      (fun item => item.selected)).length = 1 ∧
     ((handleDropdownKeyNavigation true (highlight paths s) .arrowUp).1.filter
      (fun item => item.selected)).length = 1) ∧
    handleDropdownKeyNavigation true
      (handleDropdownKeyNavigation true (highlight paths s) .arrowDown).1 .arrowUp
      = (highlight paths s, .nothing) ∧
    Nat.iterate (fun items => (handleDropdownKeyNavigation true items .arrowDown).1)
      paths.length (highlight paths s) = highlight paths s ∧
    ∃ p, paths[s]? = some p ∧
      handleDropdownKeyNavigation true (highlight paths s) .enter
        = (highlight paths s, .selectFile p) ∧
      handleDropdownKeyNavigation true (highlight paths s) .tab
        = (highlight paths s, .selectFile p) := by
  have hn : 0 < paths.length := by omega
  have hdown := (arrow_highlight paths s hs).1
  have hup := (arrow_highlight paths s hs).2
  have hcount : ∀ s', s' < paths.length →
      ((highlight paths s').filter (fun item => item.selected)).length = 1 := by
    intro s' hs'
    unfold highlight
    rw [selected_count_marked]
    simp [hs']
  refine ⟨hdown, hup, ⟨?_, ?_⟩, ?_, ?_, ?_⟩
  · rw [hdown]
    exact hcount _ (Nat.mod_lt _ hn)
  · rw [hup]
    exact hcount _ (Nat.mod_lt _ hn)
  · rw [hdown]
    rw [(arrow_highlight paths ((s + 1) % paths.length) (Nat.mod_lt _ hn)).2]
    have : ((s + 1) % paths.length + paths.length - 1) % paths.length = s := by
      by_cases h1 : s + 1 < paths.length
      · rw [Nat.mod_eq_of_lt h1]
        have : s + 1 + paths.length - 1 = s + paths.length := by omega
        rw [this, Nat.add_mod_right, Nat.mod_eq_of_lt hs]
      · have hs' : s + 1 = paths.length := by omega
        rw [hs', Nat.mod_self, Nat.zero_add]
        rw [Nat.mod_eq_of_lt (by omega)]
        omega
    rw [this]
  · rw [iterate_arrowDown paths s hs, Nat.add_mod_right, Nat.mod_eq_of_lt hs]
  · have hsome : paths[s]? = some paths[s] := List.getElem?_eq_getElem hs
    have hitem : (highlight paths s)[s]? = some ⟨paths[s], true⟩ := by
      unfold highlight
      rw [getElem?_marked, hsome]
      simp
    have hge : (s : Int) ≥ 0 := by omega
    refine ⟨paths[s], hsome, ?_, ?_⟩
    · unfold handleDropdownKeyNavigation
      simp only [selectedIndexOf_highlight paths s hs, hge, Bool.not_true, Bool.false_eq_true,
        if_false, if_true, Int.toNat_ofNat, hitem]
    · unfold handleDropdownKeyNavigation
      simp only [selectedIndexOf_highlight paths s hs, hge, Bool.not_true, Bool.false_eq_true,
        if_false, if_true, Int.toNat_ofNat, hitem]

/-- Three rows with the middle one highlighted: ArrowDown highlights the
last. -/
theorem dropdown_navigation_witness :
    handleDropdownKeyNavigation true (highlight [js "a.js", js "b.js", js "c.js"] 1) .arrowDown
      = (highlight [js "a.js", js "b.js", js "c.js"] 2, .nothing) :=
  (dropdown_navigation [js "a.js", js "b.js", js "c.js"] 1 (by decide)).1

/-! ### The selected file set -/

theorem FileIn_nil (p : JSString) : ¬ FileIn [] p := by
  intro h
  cases h

theorem FileIn_cons (node : Node) (rest : List Node) (p : JSString) :
    FileIn (node :: rest) p ↔ FileIn [node] p ∨ FileIn rest p := by
  constructor
  · intro h
    cases h with
    | here path children _ => exact Or.inl (FileIn.here _ _ _)
    | inside path children _ _ hin => exact Or.inl (FileIn.inside _ _ _ _ hin)
    | later _ _ _ hl => exact Or.inr hl
  · rintro (h | h)
    · cases h with
      | here path children _ => exact FileIn.here _ _ _
      | inside path children _ _ hin => exact FileIn.inside _ _ _ _ hin
      | later _ _ _ hl => exact absurd hl (FileIn_nil p)
    · exact FileIn.later _ _ _ h

theorem FileIn_file (path : JSString) (children : Option (List Node)) (p : JSString) :
    FileIn [.mk path .file children] p ↔ p = path := by
  constructor
  · intro h
    cases h with
    | here _ _ _ => rfl
    | later _ _ _ hl => exact absurd hl (FileIn_nil p)
  · rintro rfl
    exact FileIn.here _ _ _

theorem FileIn_directory (path : JSString) (children : List Node) (p : JSString) :
    FileIn [.mk path .directory (some children)] p ↔ FileIn children p := by
  constructor
  · intro h
    cases h with
    | inside _ _ _ _ hin => exact hin
    | later _ _ _ hl => exact absurd hl (FileIn_nil p)
  · exact FileIn.inside _ _ _ _

theorem FileIn_directory_none (path : JSString) (p : JSString) :
    ¬ FileIn [.mk path .directory none] p := by
  intro h
  cases h with
  | later _ _ _ hl => exact FileIn_nil p hl

theorem FileIn_other (path : JSString) (children : Option (List Node)) (p : JSString) :
    ¬ FileIn [.mk path .other children] p := by
  intro h
  cases h with
  | later _ _ _ hl => exact FileIn_nil p hl

mutual
theorem mem_collectNode : ∀ (node : Node) (acc : List JSString) (p : JSString),
    p ∈ collectNode node acc ↔ p ∈ acc ∨ FileIn [node] p
  | .mk path .file children, acc, p => by
    rw [collectNode, mem_setAdd, FileIn_file]
  | .mk path .directory (some children), acc, p => by
    rw [collectNode, mem_collectFilePaths children acc p, FileIn_directory]
  | .mk path .directory none, acc, p => by
    rw [collectNode]
    · simp [FileIn_directory_none]
    all_goals (intros; contradiction)
  | .mk path .other children, acc, p => by
    rw [collectNode]
    · simp [FileIn_other]
    all_goals (intros; contradiction)
theorem mem_collectFilePaths : ∀ (forest : List Node) (acc : List JSString) (p : JSString),
    p ∈ collectFilePaths forest acc ↔ p ∈ acc ∨ FileIn forest p
  | [], acc, p => by
    rw [collectFilePaths]
    simp [FileIn_nil]
  | node :: rest, acc, p => by
    rw [collectFilePaths, mem_collectFilePaths rest _ p, mem_collectNode node acc p,
      FileIn_cons node rest p, or_assoc]
end

mutual
theorem nodup_collectNode : ∀ (node : Node) (acc : List JSString),
    acc.Nodup → (collectNode node acc).Nodup
  | .mk path .file children, acc, h => by
    rw [collectNode]
    exact nodup_setAdd path h
  | .mk path .directory (some children), acc, h => by
    rw [collectNode]
    exact nodup_collectFilePaths children acc h
  | .mk path .directory none, acc, h => by
    rw [collectNode]
    · exact h
    all_goals (intros; contradiction)
  | .mk path .other children, acc, h => by
    rw [collectNode]
    · exact h
    all_goals (intros; contradiction)
theorem nodup_collectFilePaths : ∀ (forest : List Node) (acc : List JSString),
    acc.Nodup → (collectFilePaths forest acc).Nodup
  | [], acc, h => by
    rw [collectFilePaths]
    exact h
  | node :: rest, acc, h => by
    rw [collectFilePaths]
    exact nodup_collectFilePaths rest _ (nodup_collectNode node acc h)
end

/-- C26. For every project tree, `collectFilePaths` (a total function: the
recursion follows the finite tree) started on the empty set returns a set
whose members are exactly the paths of the nodes of type "file", at the top or
at any depth below directories through their children; a path is included
only as the path of such a node, and none of them is left out. -/
theorem collectFilePaths_exact (forest : List Node) :
    (∀ p, p ∈ collectFilePaths forest [] ↔ FileIn forest p) ∧
    (collectFilePaths forest []).Nodup := by
  refine ⟨fun p => ?_, nodup_collectFilePaths forest [] List.nodup_nil⟩
  rw [mem_collectFilePaths]
  simp

/-! ### The injection surface -/

theorem includes_iff (s needle : JSString) : includes s needle = true ↔ needle <:+: s := by
  unfold includes
  rw [List.any_eq_true]
  constructor
  · rintro ⟨t, ht, hp⟩
    obtain ⟨pre, rfl⟩ := (List.mem_tails t s).mp ht
    obtain ⟨post, rfl⟩ := List.isPrefixOf_iff_prefix.mp hp
    exact ⟨pre, post, by simp⟩
  · rintro ⟨pre, post, rfl⟩
    refine ⟨needle ++ post, (List.mem_tails _ _).mpr ⟨pre, by simp⟩, ?_⟩
    exact List.isPrefixOf_iff_prefix.mpr ⟨post, rfl⟩

theorem mem_run_seq {ic : Bool} {a b : Regex} {st s : MState} :
    s ∈ (Regex.seq a b).run ic st ↔ ∃ m, m ∈ a.run ic st ∧ s ∈ b.run ic m := by
  simp only [Regex.run, List.mem_flatMap]

theorem str_eq (lit : String) : Regex.str lit = Regex.seqs ((js lit).map Regex.lit) := by
  simp [Regex.str, js, List.map_map, Function.comp_def]

/-- A match of a literal consumes exactly the literal. -/
theorem run_lits_mem : ∀ (l : JSString) (st s : MState),
    s ∈ (Regex.seqs (l.map Regex.lit)).run false st → st.rest = l ++ s.rest ∧ s.caps = st.caps
  | [], st, s, h => by
    simp only [List.map_nil, Regex.seqs, Regex.run, List.mem_singleton] at h
    subst h
    exact ⟨rfl, rfl⟩
  | c :: l, st, s, h => by
    simp only [List.map_cons, Regex.seqs] at h
    obtain ⟨m, hm, hs⟩ := mem_run_seq.mp h
    obtain ⟨h1, h2⟩ := run_lits_mem l m s hs
    simp only [Regex.run] at hm
    split at hm
    · simp at hm
    · rename_i d ds hrest
      split_ifs at hm with hu
      · simp only [List.mem_singleton] at hm
        subst hm
        have hcd : c = d := by simpa [unitMatches] using hu
        subst hcd
        simp only at h1 h2
        exact ⟨by rw [hrest, h1]; rfl, h2⟩
      · simp at hm

/-- A literal matches at a position where the input starts with it. -/
theorem run_lits_of_prefix : ∀ (l v : JSString) (pv : Option Nat) (caps : List (Nat × JSString)),
    ∃ pv', (Regex.seqs (l.map Regex.lit)).run false ⟨pv, l ++ v, caps⟩ = [⟨pv', v, caps⟩]
  | [], v, pv, caps => ⟨pv, by simp [Regex.seqs, Regex.run]⟩
  | c :: l, v, pv, caps => by
    obtain ⟨pv', h⟩ := run_lits_of_prefix l v (some c) caps
    refine ⟨pv', ?_⟩
    simp only [List.map_cons, Regex.seqs, List.cons_append]
    rw [run_seq]
    simp [Regex.run, unitMatches, h]

theorem lazyStates_complete (p : Nat → Bool) (caps : List (Nat × JSString)) :
    ∀ (u v : JSString) (prev : Option Nat), (∀ d ∈ u, p d = true) →
      ∃ pv, ⟨pv, v, caps⟩ ∈ lazyStates p caps prev (u ++ v)
  | [], v, prev, _ => by
    refine ⟨prev, ?_⟩
    cases v with
    | nil => simp [lazyStates]
    | cons c cs => simp [lazyStates]
  | c :: u, v, prev, h => by
    obtain ⟨pv, hpv⟩ := lazyStates_complete p caps u v (some c)
      (fun d hd => h d (List.mem_cons_of_mem c hd))
    refine ⟨pv, ?_⟩
    have hc : p c = true := h c (List.mem_cons_self c u)
    simp only [List.cons_append, lazyStates, hc, if_true]
    exact List.mem_cons_of_mem _ hpv

/-- The clean-up pattern matches where the marker opening is followed, on the
same line, by "-->". -/
theorem stripMarkerRegex_matches (u tail : JSString) (pv : Option Nat)
    (hu : ∀ d ∈ u, isDot d = true) :
    stripMarkerRegex.run false
      ⟨pv, js "<!-- file-content-" ++ (u ++ (js "-->" ++ tail)), []⟩ ≠ [] := by
  obtain ⟨pv1, h1⟩ := run_lits_of_prefix (js "<!-- file-content-") (u ++ (js "-->" ++ tail)) pv []
  obtain ⟨pv2, h2⟩ := lazyStates_complete isDot [] u (js "-->" ++ tail) pv1 hu
  obtain ⟨pv3, h3⟩ := run_lits_of_prefix (js "-->") tail pv2 []
  have hmem : (⟨pv3, tail, []⟩ : MState) ∈ stripMarkerRegex.run false
      ⟨pv, js "<!-- file-content-" ++ (u ++ (js "-->" ++ tail)), []⟩ := by
    have hdef : stripMarkerRegex = .seq (Regex.str "<!-- file-content-")
        (.seq (.lazyStar isDot) (.seq (Regex.str "-->") .empty)) := rfl
    rw [hdef, str_eq, str_eq]
    refine mem_run_seq.mpr ⟨_, by rw [h1]; exact List.mem_singleton_self _, ?_⟩
    refine mem_run_seq.mpr ⟨_, by simpa [Regex.run] using h2, ?_⟩
    refine mem_run_seq.mpr ⟨_, by rw [h3]; exact List.mem_singleton_self _, ?_⟩
    simp [Regex.run]
  exact List.ne_nil_of_mem hmem

theorem isDigit_isDot (d : Nat) (h : isDigit d = true) : isDot d = true := by
  simp only [isDigit, Bool.and_eq_true, decide_eq_true_eq] at h
  simp only [isDot, Bool.not_eq_true', Bool.or_eq_false_iff, beq_eq_false_iff_ne, ne_eq]
  omega

/-- A match of the pattern of the duplicate check starts with the marker
opening and runs, on one line, up to a "-->". -/
theorem deliveryMarkerRegex_shape (st s : MState)
    (h : s ∈ deliveryMarkerRegex.run false st) :
    ∃ u tail, st.rest = js "<!-- file-content-" ++ (u ++ (js "-->" ++ tail)) ∧
      ∀ d ∈ u, isDot d = true := by
  have hdef : deliveryMarkerRegex = .seq (Regex.str "<!-- file-content-")
      (.seq (.group 1 (.lazyStar isDot)) (.seq (.lit 45) (.seq (.plus isDigit)
        (.seq (Regex.str " -->") .empty)))) := rfl
  rw [hdef, str_eq, str_eq] at h
  obtain ⟨s1, h1, h⟩ := mem_run_seq.mp h
  obtain ⟨s2, h2, h⟩ := mem_run_seq.mp h
  obtain ⟨s3, h3, h⟩ := mem_run_seq.mp h
  obtain ⟨s4, h4, h⟩ := mem_run_seq.mp h
  obtain ⟨s5, h5, h⟩ := mem_run_seq.mp h
  obtain ⟨e1, _⟩ := run_lits_mem _ st s1 h1
  obtain ⟨w2, e2, u2, _, _⟩ := run_word false _ s1 s2 h2
  obtain ⟨w3, e3, u3, _, _⟩ := run_word false _ s2 s3 h3
  obtain ⟨w4, e4, u4, _, _⟩ := run_word false _ s3 s4 h4
  obtain ⟨e5, _⟩ := run_lits_mem _ s4 s5 h5
  refine ⟨w2 ++ w3 ++ w4 ++ [32], s5.rest, ?_, ?_⟩
  · rw [e1, e2, e3, e4, e5]
    have : js " -->" = [32] ++ js "-->" := by decide
    rw [this]
    simp only [List.append_assoc]
  · intro d hd
    simp only [List.mem_append, List.mem_singleton] at hd
    rcases hd with ((hd | hd) | hd) | hd
    · exact u2 (fun d => isDot d = true) (by simp [Regex.unitsIn]) d hd
    · refine u3 (fun d => isDot d = true) ?_ d hd
      intro e he
      have h45 : 45 = e := by simpa [unitMatches] using he
      subst h45
      decide
    · exact u4 (fun d => isDot d = true) (by
        simp only [Regex.unitsIn]
        exact isDigit_isDot) d hd
    · subst hd
      decide

/-- The match that `exec` reports starts at a suffix of the input. -/
theorem execFrom_some_suffix (ic : Bool) (r : Regex) :
    ∀ (rest : JSString) (prev : Option Nat) (st : MState),
      execFrom ic r prev rest = some st →
        ∃ before pv rs, rest = before ++ rs ∧ (r.run ic ⟨pv, rs, []⟩).head? = some st
  | [], prev, st, h => ⟨[], prev, [], rfl, by simpa [execFrom] using h⟩
  | c :: cs, prev, st, h => by
    unfold execFrom at h
    cases hh : (r.run ic ⟨prev, c :: cs, []⟩).head? with
    | some s =>
      rw [hh] at h
      exact ⟨[], prev, c :: cs, rfl, by rw [hh]; exact h⟩
    | none =>
      rw [hh] at h
      obtain ⟨before, pv, rs, hl, hr⟩ := execFrom_some_suffix ic r cs (some c) st h
      exact ⟨c :: before, pv, rs, by rw [hl]; rfl, hr⟩

/-- The scan of `exec` finds a match when the pattern matches at some
position, whatever unit stands before it. -/
theorem execFrom_of_match (ic : Bool) (r : Regex) (rs : JSString)
    (hr : ∀ pv, r.run ic ⟨pv, rs, []⟩ ≠ []) :
    ∀ (before : JSString) (prev : Option Nat), execFrom ic r prev (before ++ rs) ≠ none
  | [], prev => by
    cases rs with
    | nil =>
      simp only [List.nil_append, execFrom]
      intro h
      exact hr prev (List.head?_eq_none_iff.mp h)
    | cons c cs =>
      simp only [List.nil_append, execFrom]
      cases hh : (r.run ic ⟨prev, c :: cs, []⟩).head? with
      | some s => simp
      | none => exact absurd (List.head?_eq_none_iff.mp hh) (hr prev)
  | b :: before, prev => by
    simp only [List.cons_append, execFrom]
    cases hh : (r.run ic ⟨prev, b :: (before ++ rs), []⟩).head? with
    | some s => simp
    | none => exact execFrom_of_match ic r rs hr before (some b)

/-- A text in which the pattern of the duplicate check matches holds the
marker opening, and the clean-up pattern matches in every text that ends
with it. -/
theorem deliveryMarker_found {t : JSString} {m : MState}
    (h : execFrom false deliveryMarkerRegex none t = some m) :
    includes t (js "<!-- file-content-") = true ∧
    ∀ (c : JSString) (prev : Option Nat), execFrom false stripMarkerRegex prev (c ++ t) ≠ none := by
  obtain ⟨before, pv, rs, ht, hhead⟩ := execFrom_some_suffix false _ t none m h
  obtain ⟨u, tail, hrs, hu⟩ := deliveryMarkerRegex_shape _ m (List.mem_of_mem_head? hhead)
  have hrs' : rs = js "<!-- file-content-" ++ (u ++ (js "-->" ++ tail)) := hrs
  constructor
  · rw [includes_iff, ht, hrs']
    exact ⟨before, u ++ (js "-->" ++ tail), by simp⟩
  · intro c prev
    rw [ht, ← List.append_assoc, hrs']
    exact execFrom_of_match false stripMarkerRegex _
      (fun pv' => stripMarkerRegex_matches u tail pv' hu) (c ++ before) prev

/-- A global replace leaves a text without a match as it is. -/
theorem replaceScan_of_no_match (r : Regex) (replacement : JSString) :
    ∀ (s : JSString) (prev : Option Nat), execFrom false r prev s = none →
      replaceScan r replacement 0 prev s = s
  | [], prev, h => by
    simp only [execFrom] at h
    simp [replaceScan, h]
  | c :: cs, prev, h => by
    unfold execFrom at h
    cases hh : (r.run false ⟨prev, c :: cs, []⟩).head? with
    | some st =>
      rw [hh] at h
      exact absurd h (by simp)
    | none =>
      rw [hh] at h
      simp only [replaceScan, hh]
      rw [replaceScan_of_no_match r replacement cs (some c) h]

/-- C21 (as stated, refuted). Neither the value "<!-- file-content-a" nor the
text "-->" contains a delivery marker, but their concatenation is one: the
append call removes it and leaves the empty value, not the value followed by
the text. -/
theorem setPromptContent_boundary_counterexample :
    (execFrom false stripMarkerRegex none (js "<!-- file-content-a")).isSome = false ∧
    (execFrom false stripMarkerRegex none (js "-->")).isSome = false ∧
    (setPromptContent id (some ⟨false, js "<!-- file-content-a"⟩) (js "-->") true).1.map
      (fun box => box.content) = some [] ∧
    (setPromptContent id (some ⟨false, js "<!-- file-content-a"⟩) (js "-->") true).2 = true ∧
    js "<!-- file-content-a" ++ js "-->" ≠ [] := by
  decide

/-- C21 (amended). On a plain-text prompt box with the value `c`: when the text
`t` contains no delivery marker, `setPromptContent(t, false)` sets the value
to exactly `t`; when `c` followed by `t` contains no delivery marker,
`setPromptContent(t, true)` sets the value to exactly `c` followed by `t`;
both return true. -/
theorem setPromptContent_plain (toRichText : JSString → JSString) (c t : JSString) :
    (execFrom false stripMarkerRegex none t = none →
      setPromptContent toRichText (some ⟨false, c⟩) t false = (some ⟨false, t⟩, true)) ∧
    (execFrom false stripMarkerRegex none (c ++ t) = none →
      setPromptContent toRichText (some ⟨false, c⟩) t true = (some ⟨false, c ++ t⟩, true)) := by
  constructor
  · intro h
    unfold setPromptContent
    simp [replaceScan_of_no_match stripMarkerRegex [] t none h]
  · intro h
    have hno : execFrom false deliveryMarkerRegex none t = none := by
      cases hm : execFrom false deliveryMarkerRegex none t with
      | none => rfl
      | some m => exact absurd h ((deliveryMarker_found hm).2 c none)
    unfold setPromptContent
    simp [hno, replaceScan_of_no_match stripMarkerRegex [] (c ++ t) none h]

/-- The value "ab" and the text "cd": replaced by "cd", or extended to
"abcd". -/
theorem setPromptContent_plain_witness :
    setPromptContent id (some ⟨false, js "ab"⟩) (js "cd") false = (some ⟨false, js "cd"⟩, true) ∧
    setPromptContent id (some ⟨false, js "ab"⟩) (js "cd") true
      = (some ⟨false, js "ab" ++ js "cd"⟩, true) :=
  ⟨(setPromptContent_plain id (js "ab") (js "cd")).1
     (Option.isNone_iff_eq_none.mp (by decide)),
   (setPromptContent_plain id (js "ab") (js "cd")).2
     (Option.isNone_iff_eq_none.mp (by decide))⟩

/-- C30 (as stated, refuted). The text is the formatted block of "a.js", the
value "x" does not contain "// File: a.js": the call appends the block
without its marker, so the new value is not the old value followed by the
whole text. -/
theorem setPromptContent_append_counterexample :
    includes (js "x") (js "// File: a.js") = false ∧
    (execFrom false deliveryMarkerRegex none
      (formatFileContent 12 (js "a.js") (js ".js") (js "let x"))).bind
        (fun m => m.capture 1) = some (js "a.js") ∧
    (setPromptContent id (some ⟨false, js "x"⟩)
      (formatFileContent 12 (js "a.js") (js ".js") (js "let x")) true).1.map
        (fun box => box.content) = some (js "x\n```javascript\n// File: a.js\nlet x\n```") ∧
    js "x\n```javascript\n// File: a.js\nlet x\n```"
      ≠ js "x" ++ formatFileContent 12 (js "a.js") (js ".js") (js "let x") := by
  decide

/-- C30 (amended). For an append call whose text contains a delivery marker,
`F` being the non-empty file name of the first one: when the current content
contains "// File: F" the prompt box is left as it is and the result is true,
whatever else the text carries; when it does not, the new content is the
current content followed by the whole text, with every delivery marker
removed from the concatenation, and the result is true. -/
theorem setPromptContent_append_duplicate (toRichText : JSString → JSString)
    (input : PromptBox) (t F : JSString) (m : MState)
    (hm : execFrom false deliveryMarkerRegex none t = some m)
    (hF : m.capture 1 = some F) (hne : F ≠ []) :
    (includes input.content (js "// File: " ++ F) = true →
      setPromptContent toRichText (some input) t true = (some input, true)) ∧
    (includes input.content (js "// File: " ++ F) = false →
      setPromptContent toRichText (some input) t true
        = (some { input with
            content := replaceScan stripMarkerRegex [] 0 none (input.content ++ t) }, true)) := by
  have hinc := (deliveryMarker_found hm).1
  have hempty : F.isEmpty = false := by
    cases F with
    | nil => exact absurd rfl hne
    | cons c cs => rfl
  constructor
  · intro h
    unfold setPromptContent
    simp [hinc, hm, hF, hempty, h]
  · intro h
    unfold setPromptContent
    simp only [hinc, hm, hF, hempty, h, Bool.and_self, Bool.not_false, Bool.and_false,
      if_true, Bool.false_eq_true, if_false, Bool.not_true, Bool.false_and]
    cases input.contentEditable <;> rfl

/-- The value already shows "// File: a.js"; the text carries the blocks of
"a.js" and of "b.js": nothing is appended, the block of "b.js" included. -/
theorem setPromptContent_append_duplicate_witness :
    setPromptContent id (some ⟨false, js "x // File: a.js y"⟩)
      (formatFileContent 12 (js "a.js") (js ".js") (js "let x")
        ++ formatFileContent 12 (js "b.js") (js ".js") (js "let y")) true
      = (some ⟨false, js "x // File: a.js y"⟩, true) :=
  (setPromptContent_append_duplicate id ⟨false, js "x // File: a.js y"⟩
    (formatFileContent 12 (js "a.js") (js ".js") (js "let x")
      ++ formatFileContent 12 (js "b.js") (js ".js") (js "let y")) (js "a.js")
    ((execFrom false deliveryMarkerRegex none
      (formatFileContent 12 (js "a.js") (js ".js") (js "let x")
        ++ formatFileContent 12 (js "b.js") (js ".js") (js "let y"))).getD ⟨none, [], []⟩)
    (by
      cases h : execFrom false deliveryMarkerRegex none
        (formatFileContent 12 (js "a.js") (js ".js") (js "let x")
          ++ formatFileContent 12 (js "b.js") (js ".js") (js "let y")) with
      | none =>
        have : (execFrom false deliveryMarkerRegex none
          (formatFileContent 12 (js "a.js") (js ".js") (js "let x")
            ++ formatFileContent 12 (js "b.js") (js ".js") (js "let y"))).isSome = true := by
          decide
        rw [h] at this
        exact absurd this (by simp)
      | some m => rfl)
    (by decide) (by decide)).1 (by decide)

/-! ### The autocomplete commit and the delivery record -/

/-- C25 (the code at the failing input). The project holds "src/app.js".  A
tick on the message "@src/app.js" delivers the file and records
"file:src/app.js", the key of the requested name.  A commit of that path
through `selectFile`, with "@" typed in the prompt box, looks for
"file:app.js", the key of the base name, does not find it and inserts the
content again.  The other way round, a commit from the empty record records
"file:app.js", and a later tick on "@src/app.js" reads and delivers the file
again. -/
theorem selectFile_key_mismatch :
    (processConversation
      (textBoxHost [⟨js "src/app.js", js "app.js", js ".js", js "let x"⟩] false)
      ⟨[js "src/app.js"], [], [], [], ⟨[], 0⟩⟩ [⟨none, some (js "@src/app.js")⟩]).map
      (fun t => (t.engine.addedFileContents, t.engine.document.value))
      = some ([js "file:src/app.js"], js "\n\n```javascript\n// File: app.js\nlet x\n```\n") ∧
    (selectFile (textBoxHost [⟨js "src/app.js", js "app.js", js ".js", js "let x"⟩] false)
      ⟨[js "src/app.js"], [], [], [js "file:src/app.js"], ⟨js "@", 1⟩⟩
      (js "src/app.js")).engine.document.value
      = js "<!-- file-content-app.js-0 -->\n```javascript\n// File: app.js\nlet x\n```" ∧
    (selectFile (textBoxHost [⟨js "src/app.js", js "app.js", js ".js", js "let x"⟩] false)
      ⟨[js "src/app.js"], [], [], [js "file:src/app.js"], ⟨js "@", 1⟩⟩
      (js "src/app.js")).engine.addedFileContents
      = [js "file:src/app.js", js "file:app.js"] ∧
    (selectFile (textBoxHost [⟨js "src/app.js", js "app.js", js ".js", js "let x"⟩] false)
      ⟨[js "src/app.js"], [], [], [], ⟨js "@", 1⟩⟩
      (js "src/app.js")).engine.addedFileContents = [js "file:app.js"] ∧
    (processConversation
      (textBoxHost [⟨js "src/app.js", js "app.js", js ".js", js "let x"⟩] false)
      ⟨[js "src/app.js"], [], [], [js "file:app.js"], ⟨[], 0⟩⟩
      [⟨none, some (js "@src/app.js")⟩]).map
      (fun t => (t.engine.addedFileContents, t.engine.document.value,
        t.log.map (fun s => match s.awaited with
          | .readFile path => path
          | _ => [])))
      = some ([js "file:app.js", js "file:src/app.js"],
          js "\n\n```javascript\n// File: app.js\nlet x\n```\n", [js "src/app.js", []]) := by
  decide

/-! ### Relations kept along a call -/

theorem Along.refl_along {σ : Type} {R : Engine σ → Engine σ → Prop} (hR : StepClosed R)
    (t : Tick σ) : Along R t t :=
  ⟨hR.1 _, [], by simp, fun s hs => by simp at hs⟩

theorem Along.trans_along {σ : Type} {R : Engine σ → Engine σ → Prop} (hR : StepClosed R)
    {t u v : Tick σ} (h1 : Along R t u) (h2 : Along R u v) : Along R t v := by
  obtain ⟨e1, x1, l1, p1⟩ := h1
  obtain ⟨e2, x2, l2, p2⟩ := h2
  refine ⟨hR.2.1 _ _ _ e1 e2, x1 ++ x2, by rw [l2, l1, List.append_assoc], ?_⟩
  intro s hs
  rcases List.mem_append.mp hs with h | h
  · exact p1 s h
  · exact hR.2.1 _ _ _ e1 (p2 s h)

/-- A step that leaves the log alone. -/
theorem Along.of_log {σ : Type} {R : Engine σ → Engine σ → Prop} {t u : Tick σ}
    (he : R t.engine u.engine) (hl : u.log = t.log) : Along R t u :=
  ⟨he, [], by simp [hl], fun s hs => by simp at hs⟩

theorem along_await {σ : Type} {R : Engine σ → Engine σ → Prop} (hR : StepClosed R)
    (t : Tick σ) (op : Awaited) : Along R t (t.await op) :=
  ⟨hR.1 _, [⟨op, t.engine⟩], rfl, fun s hs => by
    simp only [List.mem_singleton] at hs
    subst hs
    exact hR.1 _⟩

theorem along_addPending {σ : Type} {R : Engine σ → Engine σ → Prop} (hR : StepClosed R)
    (t : Tick σ) (x : JSString) : Along R t (t.addPending x) :=
  Along.of_log (hR.2.2.1 _ _) rfl

theorem along_deletePending {σ : Type} {R : Engine σ → Engine σ → Prop} (hR : StepClosed R)
    (t : Tick σ) (x : JSString) : Along R t (t.deletePending x) :=
  Along.of_log (hR.2.2.2.1 _ _) rfl

theorem along_addDelivered {σ : Type} {R : Engine σ → Engine σ → Prop} (hR : StepClosed R)
    (t : Tick σ) (key : JSString) : Along R t (t.addDelivered key) :=
  Along.of_log (hR.2.2.2.2.1 _ _) rfl

theorem along_setDocument {σ : Type} {R : Engine σ → Engine σ → Prop} (hR : StepClosed R)
    (t : Tick σ) (d : σ) : Along R t (t.setDocument d) :=
  Along.of_log (hR.2.2.2.2.2 _ _) rfl

theorem along_respond {σ : Type} {R : Engine σ → Engine σ → Prop} (hR : StepClosed R)
    (t : Tick σ) (text : JSString) : Along R t (t.respond text) :=
  Along.of_log (hR.1 _) rfl

theorem along_pushRegular {σ : Type} {R : Engine σ → Engine σ → Prop} (hR : StepClosed R)
    (t : Tick σ) (file : FileRecord) : Along R t (t.pushRegular file) :=
  Along.of_log (hR.1 _) rfl

theorem along_pushLarge {σ : Type} {R : Engine σ → Engine σ → Prop} (hR : StepClosed R)
    (t : Tick σ) (file : FileRecord) : Along R t (t.pushLarge file) :=
  Along.of_log (hR.1 _) rfl

theorem along_ite {σ : Type} {R : Engine σ → Engine σ → Prop} (c : Prop) [Decidable c]
    {t a b : Tick σ} (ha : Along R t a) (hb : Along R t b) :
    Along R t (if c then a else b) := by
  by_cases h : c
  · rw [if_pos h]
    exact ha
  · rw [if_neg h]
    exact hb

theorem along_appendToPrompt {σ : Type} {R : Engine σ → Engine σ → Prop} (hR : StepClosed R)
    (host : Host σ) (t : Tick σ) (text : JSString) :
    Along R t (appendToPrompt host t text) :=
  (along_setDocument hR t _).trans_along hR (along_await hR _ _)

theorem along_sleep {σ : Type} {R : Engine σ → Engine σ → Prop} (hR : StepClosed R)
    (host : Host σ) (t : Tick σ) (ms : Nat) : Along R t (sleep host t ms) :=
  (along_await hR t (.timeout ms)).trans_along hR (along_setDocument hR _ _)

theorem along_requestStep {σ : Type} {R : Engine σ → Engine σ → Prop} (hR : StepClosed R)
    (host : Host σ) (t : Tick σ) (fileName : JSString) :
    Along R t (requestStep host t fileName) := by
  unfold requestStep
  by_cases h1 : t.engine.pendingRequests.contains fileName = true
  · rw [if_pos h1]
    exact Along.refl_along hR t
  · rw [if_neg h1]
    simp only []
    by_cases h2 : (t.engine.addedFileContents.contains (js "file:" ++ fileName)
        || t.engine.addedFileContents.contains (js "uploaded:" ++ fileName)) = true
    · rw [if_pos h2]
      exact Along.refl_along hR t
    · rw [if_neg h2]
      cases (findFilePath (t.addPending fileName).engine.selectedFiles fileName).filter
          (fun p => !p.isEmpty) with
      | none => exact (along_addPending hR t _).trans_along hR (along_respond hR _ _)
      | some filePath =>
        simp only []
        refine Along.trans_along hR ?_ (along_deletePending hR _ _)
        refine Along.trans_along hR ((along_addPending hR t fileName).trans_along hR
          (along_await hR _ (.readFile filePath))) ?_
        cases host.readFile filePath with
        | error message => exact along_respond hR _ _
        | ok file =>
          simp only []
          refine Along.trans_along hR ?_ (along_addDelivered hR _ _)
          exact along_ite _ (along_pushLarge hR _ _) (along_pushRegular hR _ _)

theorem along_foldl_requestStep {σ : Type} {R : Engine σ → Engine σ → Prop}
    (hR : StepClosed R) (host : Host σ) :
    ∀ (l : List JSString) (t : Tick σ), Along R t (l.foldl (requestStep host) t)
  | [], t => Along.refl_along hR t
  | x :: l, t =>
    Along.trans_along hR (along_requestStep hR host t x)
      (along_foldl_requestStep hR host l (requestStep host t x))

theorem along_autoInsert {σ : Type} {R : Engine σ → Engine σ → Prop} (hR : StepClosed R)
    (host : Host σ) (t : Tick σ) (file : FileRecord) :
    Along R t (autoInsertFileAsAttachment host t file).1 := by
  have hspecial : ∀ u : Tick σ, Along R t u →
      Along R t (if endsWith file.name (js ".js") = true
        then (u.addDelivered (js "uploaded:" ++ file.name), true) else (u, false)).1 := by
    intro u hu
    by_cases h : endsWith file.name (js ".js") = true
    · rw [if_pos h]
      exact hu.trans_along hR (along_addDelivered hR u _)
    · rw [if_neg h]
      exact hu
  have hpaste : Along R t
      (sleep host (t.setDocument (host.paste t.engine.document file)) 500) :=
    (along_setDocument hR t _).trans_along hR (along_sleep hR host _ 500)
  unfold autoInsertFileAsAttachment
  simp only []
  by_cases h1 : host.focusThrows t.engine.document = true
  · rw [if_pos h1]
    exact Along.refl_along hR t
  · rw [if_neg h1]
    by_cases h2 : host.attachmentShown t.engine.document file.name = true
    · rw [if_pos h2]
      exact along_addDelivered hR t _
    · rw [if_neg h2]
      by_cases h3 : t.engine.addedFileContents.contains (js "uploaded:" ++ file.name) = true
      · rw [if_pos h3]
        exact Along.refl_along hR t
      · rw [if_neg h3]
        by_cases h4 : host.pasteSupported = true
        · rw [if_pos h4]
          split_ifs
          · exact hpaste.trans_along hR (along_addDelivered hR _ _)
          · exact (hpaste.trans_along hR (along_sleep hR host _ 500)).trans_along hR
              (along_addDelivered hR _ _)
          · exact (hpaste.trans_along hR (along_sleep hR host _ 500)).trans_along hR
              (along_addDelivered hR _ _)
          · exact hpaste.trans_along hR (along_sleep hR host _ 500)
        · rw [if_neg h4]
          exact hspecial t (Along.refl_along hR t)

theorem along_fallback {σ : Type} {R : Engine σ → Engine σ → Prop} (hR : StepClosed R)
    (host : Host σ) (t : Tick σ) (file : FileRecord) :
    Along R t (fallbackFileInsertion host t file) := by
  unfold fallbackFileInsertion
  simp only []
  exact along_ite _ (Along.refl_along hR t)
    ((along_appendToPrompt hR host t _).trans_along hR (along_addDelivered hR _ _))

theorem along_largeFiles {σ : Type} {R : Engine σ → Engine σ → Prop} (hR : StepClosed R)
    (host : Host σ) :
    ∀ (files : List FileRecord) (t : Tick σ),
      Along R t (processLargeFilesSequentially host files t)
  | [], t => Along.refl_along hR t
  | file :: files, t => by
    unfold processLargeFilesSequentially
    simp only []
    refine Along.trans_along hR ?_ (along_largeFiles hR host files _)
    have h2 : Along R t ((autoInsertFileAsAttachment host (sleep host t 500) file).1.await
        (.autoInsertFileAsAttachment file.name)) :=
      ((along_sleep hR host t 500).trans_along hR (along_autoInsert hR host _ file)).trans_along hR
        (along_await hR _ _)
    have h3 := along_ite ((!(autoInsertFileAsAttachment host (sleep host t 500) file).2) = true)
      ((h2.trans_along hR (along_fallback hR host _ file)).trans_along hR
        (along_await hR _ (.fallbackFileInsertion file.name))) h2
    exact along_ite _ (h3.trans_along hR (along_sleep hR host _ 1000)) h3

theorem along_foldl_respond {σ : Type} {R : Engine σ → Engine σ → Prop} (hR : StepClosed R)
    (f : FileRecord → JSString) :
    ∀ (files : List FileRecord) (t : Tick σ),
      Along R t (files.foldl (fun (u : Tick σ) file => u.respond (f file)) t)
  | [], t => Along.refl_along hR t
  | file :: files, t =>
    (along_respond hR t (f file)).trans_along hR (along_foldl_respond hR f files _)

theorem along_deliver {σ : Type} {R : Engine σ → Engine σ → Prop} (hR : StepClosed R)
    (host : Host σ) (t : Tick σ) : Along R t (deliver host t) := by
  have h1 : Along R t (deliverRegular host t) := by
    unfold deliverRegular
    simp only []
    apply along_ite
    · apply along_ite
      · exact (along_foldl_respond hR _ _ t).trans_along hR (along_appendToPrompt hR host _ _)
      · exact along_foldl_respond hR _ _ t
    · exact Along.refl_along hR t
  have h2 : Along R (deliverRegular host t) (deliver host t) := by
    unfold deliver deliverLarge
    apply along_ite
    · exact (along_largeFiles hR host _ _).trans_along hR (along_await hR _ _)
    · exact Along.refl_along hR _
  exact h1.trans_along hR h2

theorem deliveredGrows_closed {σ : Type} : StepClosed (DeliveredGrows (σ := σ)) := by
  refine ⟨fun e k hk => hk, fun a b c h1 h2 k hk => h2 k (h1 k hk), fun e x k hk => hk,
    fun e x k hk => hk, fun e key k hk => ?_, fun e d k hk => hk⟩
  exact mem_setAdd.mpr (Or.inl hk)

/-! ### The tick: no-op cases, and the delivery record only grows -/

/-- The call on a fresh, non-empty last message in which the extractor finds
requests: the message is marked, the loop runs, then the deliveries. -/
theorem processConversation_fresh {σ : Type} (host : Host σ) (engine : Engine σ)
    (conversations : List Turn) (lastTurn : Turn) (ai : JSString) (fileRequests : List JSString)
    (hlast : conversations.getLast? = some lastTurn) (hai : lastTurn.ai = some ai)
    (hne : ai ≠ []) (hfresh : hashMessage ai ∉ engine.processedMessages)
    (hx : extractFileRequests (host.parse ai) ai = some fileRequests)
    (hr : fileRequests ≠ []) :
    processConversation host engine conversations
      = some (deliver host (fileRequests.foldl (requestStep host)
          ⟨{ engine with processedMessages := setAdd engine.processedMessages (hashMessage ai) },
            [], [], [], []⟩)) := by
  have hempty : ai.isEmpty = false := by
    cases ai with
    | nil => exact absurd rfl hne
    | cons c cs => rfl
  have hc : engine.processedMessages.contains (hashMessage ai) = false := by
    simpa using hfresh
  have hre : fileRequests.isEmpty = false := by
    cases fileRequests with
    | nil => exact absurd rfl hr
    | cons c cs => rfl
  unfold processConversation
  simp only [hlast, hai, hempty, hc, hx, hre, Bool.false_eq_true, if_false]

/-- Every result of the call is the untouched start, or the run of the loop
and of the deliveries from the state in which the message is marked. -/
theorem processConversation_cases {σ : Type} (host : Host σ) (engine : Engine σ)
    (conversations : List Turn) (t : Tick σ)
    (h : processConversation host engine conversations = some t) :
    t = ⟨engine, [], [], [], []⟩ ∨
    ∃ (hash : JSString) (fileRequests : List JSString),
      t = deliver host (fileRequests.foldl (requestStep host)
        ⟨{ engine with processedMessages := setAdd engine.processedMessages hash },
          [], [], [], []⟩) := by
  unfold processConversation at h
  simp only [] at h
  split at h
  · exact Or.inl (Option.some.inj h).symm
  · split at h
    · exact Or.inl (Option.some.inj h).symm
    · split at h
      · exact Or.inl (Option.some.inj h).symm
      · split at h
        · exact Or.inl (Option.some.inj h).symm
        · split at h
          · exact absurd h (by simp)
          · split at h
            · exact Or.inl (Option.some.inj h).symm
            · exact Or.inr ⟨_, _, (Option.some.inj h).symm⟩

/-- C11. A call of `processConversation` on an empty conversation, or on a
conversation whose last turn has no assistant text, an empty one, or one whose
fingerprint is already in `processedMessages`, returns with the engine (the
three sets and the document) exactly as it was and without having passed any
`await`, so without any read. And for every call that returns, every key of
`addedFileContents` at the start is still in it at every `await` and at the
end. -/
theorem processConversation_noop {σ : Type} (host : Host σ) (engine : Engine σ)
    (conversations : List Turn) :
    ((conversations = [] ∨ ∃ lastTurn, conversations.getLast? = some lastTurn ∧
        (lastTurn.ai = none ∨ lastTurn.ai = some [] ∨
          ∃ ai, lastTurn.ai = some ai ∧ hashMessage ai ∈ engine.processedMessages)) →
      processConversation host engine conversations = some ⟨engine, [], [], [], []⟩) ∧
    (∀ t, processConversation host engine conversations = some t →
      (∀ k ∈ engine.addedFileContents, k ∈ t.engine.addedFileContents) ∧
      ∀ s ∈ t.log, ∀ k ∈ engine.addedFileContents, k ∈ s.engine.addedFileContents) := by
  constructor
  · rintro (h | ⟨lastTurn, hlast, h | h | ⟨ai, hai, hin⟩⟩)
    · subst h
      rfl
    · unfold processConversation
      simp only [hlast, h]
    · unfold processConversation
      simp only [hlast, h, List.isEmpty_nil, if_true]
    · have hc : engine.processedMessages.contains (hashMessage ai) = true := by
        simpa using hin
      unfold processConversation
      simp only [hlast, hai, hc, if_true, ite_self]
  · intro t ht
    rcases processConversation_cases host engine conversations t ht with h | ⟨hash, l, h⟩
    · subst h
      exact ⟨fun k hk => hk, fun s hs => by simp at hs⟩
    · obtain ⟨he, extra, hl, hp⟩ :=
        (along_foldl_requestStep deliveredGrows_closed host l _).trans_along deliveredGrows_closed
          (along_deliver deliveredGrows_closed host (l.foldl (requestStep host)
            ⟨{ engine with processedMessages := setAdd engine.processedMessages hash },
              [], [], [], []⟩))
      rw [← h] at he hl
      refine ⟨fun k hk => he k hk, fun s hs k hk => ?_⟩
      rw [hl, List.nil_append] at hs
      exact hp s hs k hk

/-- After "app.js" has been delivered for the message "show me @app.js", a
second call on the same conversation changes nothing and reads nothing. -/
theorem processConversation_noop_witness :
    hashMessage (js "show me @app.js") ∈ [hashMessage (js "show me @app.js")] ∧
    processConversation (plainHost [⟨js "src/app.js", js "app.js", js ".js", js "let x = 1"⟩])
      ⟨[js "src/app.js"], [], [hashMessage (js "show me @app.js")], [js "file:app.js"], ()⟩
      [⟨none, some (js "show me @app.js")⟩]
      = some ⟨⟨[js "src/app.js"], [], [hashMessage (js "show me @app.js")],
          [js "file:app.js"], ()⟩, [], [], [], []⟩ :=
  ⟨List.mem_singleton.mpr rfl,
    (processConversation_noop (plainHost [⟨js "src/app.js", js "app.js", js ".js", js "let x = 1"⟩])
      ⟨[js "src/app.js"], [], [hashMessage (js "show me @app.js")], [js "file:app.js"], ()⟩
      [⟨none, some (js "show me @app.js")⟩]).1
      (Or.inr ⟨⟨none, some (js "show me @app.js")⟩, rfl,
        Or.inr (Or.inr ⟨js "show me @app.js", rfl, List.mem_singleton.mpr rfl⟩)⟩)⟩

/-! ### A name whose delivery key is recorded is skipped -/

theorem requestStep_skip {σ : Type} (host : Host σ) (t : Tick σ) (fileName : JSString)
    (hkey : js "file:" ++ fileName ∈ t.engine.addedFileContents ∨
      js "uploaded:" ++ fileName ∈ t.engine.addedFileContents) :
    requestStep host t fileName = t := by
  unfold requestStep
  by_cases h1 : t.engine.pendingRequests.contains fileName = true
  · rw [if_pos h1]
  · rw [if_neg h1]
    simp only []
    have h2 : (t.engine.addedFileContents.contains (js "file:" ++ fileName)
        || t.engine.addedFileContents.contains (js "uploaded:" ++ fileName)) = true := by
      rcases hkey with h | h
      · simp [h]
      · simp [h]
    rw [if_pos h2]

theorem foldl_requestStep_skip {σ : Type} (host : Host σ) (N : JSString) :
    ∀ (l : List JSString) (t : Tick σ),
      (js "file:" ++ N ∈ t.engine.addedFileContents ∨
        js "uploaded:" ++ N ∈ t.engine.addedFileContents) →
      l.foldl (requestStep host) t = (l.filter (fun x => x != N)).foldl (requestStep host) t
  | [], _, _ => rfl
  | x :: l, t, hkey => by
    by_cases hx : x = N
    · subst hx
      have hf : (x :: l).filter (fun y => y != x) = l.filter (fun y => y != x) := by
        simp
      rw [hf, List.foldl_cons, requestStep_skip host t x hkey]
      exact foldl_requestStep_skip host x l t hkey
    · have hf : (x :: l).filter (fun y => y != N) = x :: l.filter (fun y => y != N) := by
        simp [hx]
      rw [hf, List.foldl_cons, List.foldl_cons]
      apply foldl_requestStep_skip host N l
      have hg := (along_requestStep deliveredGrows_closed host t x).1
      rcases hkey with h | h
      · exact Or.inl (hg _ h)
      · exact Or.inr (hg _ h)

/-- C12 (Scenario D). Let a delivery key of the name N, "file:" + N or
"uploaded:" + N, be in `addedFileContents`, and let the last assistant message
be a new, non-empty one. Then the call returns, and its result is the one of
the same call with N taken out of the extracted requests: the request for N
causes no read, no notice and no write. In particular, when N is the only
request, the call passes no `await` at all and changes nothing but
`processedMessages`. -/
theorem processConversation_skips_delivered {σ : Type} (host : Host σ) (engine : Engine σ)
    (conversations : List Turn) (lastTurn : Turn) (ai N : JSString)
    (hlast : conversations.getLast? = some lastTurn) (hai : lastTurn.ai = some ai)
    (hne : ai ≠ []) (hfresh : hashMessage ai ∉ engine.processedMessages)
    (hkey : js "file:" ++ N ∈ engine.addedFileContents ∨
      js "uploaded:" ++ N ∈ engine.addedFileContents) :
    ∃ fileRequests,
      extractFileRequests (host.parse ai) ai = some fileRequests ∧
      (fileRequests ≠ [] →
        processConversation host engine conversations
          = some (deliver host ((fileRequests.filter (fun x => x != N)).foldl (requestStep host)
            ⟨{ engine with
                processedMessages := setAdd engine.processedMessages (hashMessage ai) },
              [], [], [], []⟩))) ∧
      (fileRequests = [N] →
        processConversation host engine conversations
          = some ⟨{ engine with
              processedMessages := setAdd engine.processedMessages (hashMessage ai) },
            [], [], [], []⟩) := by
  obtain ⟨fileRequests, hx⟩ := extractFileRequests_total (host.parse ai) ai
  have hmain : fileRequests ≠ [] →
      processConversation host engine conversations
        = some (deliver host ((fileRequests.filter (fun x => x != N)).foldl (requestStep host)
          ⟨{ engine with
              processedMessages := setAdd engine.processedMessages (hashMessage ai) },
            [], [], [], []⟩)) := by
    intro hr
    rw [processConversation_fresh host engine conversations lastTurn ai fileRequests hlast hai
      hne hfresh hx hr]
    rw [foldl_requestStep_skip host N fileRequests _ hkey]
  refine ⟨fileRequests, hx, hmain, fun h => ?_⟩
  rw [hmain (by rw [h]; simp), h]
  have hf : [N].filter (fun x => x != N) = [] := by simp
  rw [hf]
  rfl

/-- Scenario D on "app.js": the first message gets the file read and written
to the prompt box once; the second message, which asks for it again, leads to
no `await` and leaves the prompt box as it was. -/
theorem processConversation_skips_delivered_witness :
    (∃ fileRequests,
      extractFileRequests Markup.none (js "share @app.js again") = some fileRequests ∧
      (fileRequests ≠ [] →
        processConversation
          (textBoxHost [⟨js "src/app.js", js "app.js", js ".js", js "let x"⟩] false)
          ⟨[js "src/app.js"], [], [hashMessage (js "show me @app.js")], [js "file:app.js"],
            ⟨js "\n\n```javascript\n// File: app.js\nlet x\n```\n", 42⟩⟩
          [⟨none, some (js "share @app.js again")⟩]
          = some (deliver (textBoxHost [⟨js "src/app.js", js "app.js", js ".js", js "let x"⟩] false)
            ((fileRequests.filter (fun x => x != js "app.js")).foldl
              (requestStep
                (textBoxHost [⟨js "src/app.js", js "app.js", js ".js", js "let x"⟩] false))
              ⟨{ (⟨[js "src/app.js"], [], [hashMessage (js "show me @app.js")],
                    [js "file:app.js"],
                    ⟨js "\n\n```javascript\n// File: app.js\nlet x\n```\n", 42⟩⟩ :
                    Engine TextBox) with
                  processedMessages := setAdd [hashMessage (js "show me @app.js")]
                    (hashMessage (js "share @app.js again")) },
                [], [], [], []⟩))) ∧
      (fileRequests = [js "app.js"] →
        processConversation
          (textBoxHost [⟨js "src/app.js", js "app.js", js ".js", js "let x"⟩] false)
          ⟨[js "src/app.js"], [], [hashMessage (js "show me @app.js")], [js "file:app.js"],
            ⟨js "\n\n```javascript\n// File: app.js\nlet x\n```\n", 42⟩⟩
          [⟨none, some (js "share @app.js again")⟩]
          = some ⟨{ (⟨[js "src/app.js"], [], [hashMessage (js "show me @app.js")],
                    [js "file:app.js"],
                    ⟨js "\n\n```javascript\n// File: app.js\nlet x\n```\n", 42⟩⟩ :
                    Engine TextBox) with
                  processedMessages := setAdd [hashMessage (js "show me @app.js")]
                    (hashMessage (js "share @app.js again")) },
            [], [], [], []⟩)) ∧
    (processConversation
        (textBoxHost [⟨js "src/app.js", js "app.js", js ".js", js "let x"⟩] false)
        ⟨[js "src/app.js"], [], [], [], ⟨[], 0⟩⟩ [⟨none, some (js "show me @app.js")⟩]).map
      (fun t => (t.engine.processedMessages, t.engine.addedFileContents, t.engine.document,
        t.log.map (fun s => s.awaited)))
      = some ([hashMessage (js "show me @app.js")], [js "file:app.js"],
          ⟨js "\n\n```javascript\n// File: app.js\nlet x\n```\n", 42⟩,
          [.readFile (js "src/app.js"),
            .setPromptContent (js "\n<!-- file-content-app.js-0 -->\n```javascript\n// File: app.js\nlet x\n```\n") true]) ∧
    (processConversation
        (textBoxHost [⟨js "src/app.js", js "app.js", js ".js", js "let x"⟩] false)
        ⟨[js "src/app.js"], [], [hashMessage (js "show me @app.js")], [js "file:app.js"],
          ⟨js "\n\n```javascript\n// File: app.js\nlet x\n```\n", 42⟩⟩
        [⟨none, some (js "share @app.js again")⟩]).map
      (fun t => (t.engine.addedFileContents, t.engine.document, t.log.length))
      = some ([js "file:app.js"], ⟨js "\n\n```javascript\n// File: app.js\nlet x\n```\n", 42⟩, 0) :=
  ⟨processConversation_skips_delivered
      (textBoxHost [⟨js "src/app.js", js "app.js", js ".js", js "let x"⟩] false)
      ⟨[js "src/app.js"], [], [hashMessage (js "show me @app.js")], [js "file:app.js"],
        ⟨js "\n\n```javascript\n// File: app.js\nlet x\n```\n", 42⟩⟩
      [⟨none, some (js "share @app.js again")⟩] ⟨none, some (js "share @app.js again")⟩
      (js "share @app.js again") (js "app.js") rfl rfl (by decide) (by decide)
      (Or.inl (by decide)),
    by decide, by decide⟩

/-! ### The two delivery keys of a large file -/

/-- C13 (the code departs from the claim). The project holds "src/big.py", a
file of 300 line breaks, which `isLargeFile` classifies as large. The
assistant message "@big.py" is processed from an empty record, and the
attachment area confirms the paste. When the call returns, `addedFileContents`
holds both "file:big.py" (added by the loop when the file was read, line 772)
and "uploaded:big.py" (added by `autoInsertFileAsAttachment`). The commit of
the autocomplete, `selectFile`, on the same file records "uploaded:big.py"
only. -/
theorem delivery_keys_both :
    isLargeFile (List.replicate 300 10) = true ∧
    (processConversation
        (textBoxHost [⟨js "src/big.py", js "big.py", js ".py", List.replicate 300 10⟩] true)
        ⟨[js "src/big.py"], [], [], [], ⟨[], 0⟩⟩ [⟨none, some (js "@big.py")⟩]).map
      (fun t => (t.engine.addedFileContents, t.log.map (fun s => s.awaited)))
      = some ([js "file:big.py", js "uploaded:big.py"],
          [.readFile (js "src/big.py"), .timeout 500, .timeout 500,
            .autoInsertFileAsAttachment (js "big.py"), .processLargeFilesSequentially]) ∧
    (selectFile
        (textBoxHost [⟨js "src/big.py", js "big.py", js ".py", List.replicate 300 10⟩] true)
        ⟨[js "src/big.py"], [], [], [], ⟨js "@", 1⟩⟩ (js "src/big.py")).engine.addedFileContents
      = [js "uploaded:big.py"] := by
  decide

/-- C14 (the code departs from the claim). The project holds "src/big.py", a
file of 300 line breaks; the assistant message "@big.py" is processed from an
empty record and no check confirms the attachment. The attachment is
attempted and `fallbackFileInsertion` is called, but no `setPromptContent` is
awaited and the prompt box stays empty: the key "file:big.py", which the loop
added when it read the file, makes the fallback return at once. -/
theorem fallback_skipped :
    isLargeFile (List.replicate 300 10) = true ∧
    (processConversation
        (textBoxHost [⟨js "src/big.py", js "big.py", js ".py", List.replicate 300 10⟩] false)
        ⟨[js "src/big.py"], [], [], [], ⟨[], 0⟩⟩ [⟨none, some (js "@big.py")⟩]).map
      (fun t => (t.engine.addedFileContents, t.engine.document,
        t.log.map (fun s => s.awaited)))
      = some ([js "file:big.py"], ⟨[], 0⟩,
          [.readFile (js "src/big.py"), .timeout 500, .timeout 500, .timeout 500,
            .autoInsertFileAsAttachment (js "big.py"), .fallbackFileInsertion (js "big.py"),
            .processLargeFilesSequentially]) := by
  decide

/-! ### The result of the attachment attempt -/

/-- C15 (as stated, refuted). The file "big.js" is pasted into a page on
which no check finds its name, before or after the paste, and the record is
empty: `autoInsertFileAsAttachment` returns true all the same and records
"uploaded:big.js". -/
theorem autoInsertFileAsAttachment_js_counterexample :
    (textBoxHost [] false).attachmentShown ⟨[], 0⟩ (js "big.js") = false ∧
    (textBoxHost [] false).seenAfterPaste ⟨[], 0⟩ ⟨[], 0⟩ (js "big.js") = false ∧
    (textBoxHost [] false).seenAtLast ⟨[], 0⟩ (js "big.js") = false ∧
    (autoInsertFileAsAttachment (textBoxHost [] false)
        ⟨⟨[js "src/big.js"], [], [], [], ⟨[], 0⟩⟩, [], [], [], []⟩
        ⟨js "src/big.js", js "big.js", js ".js", js "let x"⟩).2 = true ∧
    (autoInsertFileAsAttachment (textBoxHost [] false)
        ⟨⟨[js "src/big.js"], [], [], [], ⟨[], 0⟩⟩, [], [], [], []⟩
        ⟨js "src/big.js", js "big.js", js ".js", js "let x"⟩).1.engine.addedFileContents
      = [js "uploaded:big.js"] := by
  decide

/-- C15 (amended). `autoInsertFileAsAttachment` returns true exactly when
focusing the prompt box does not throw and one of these holds: the name is
shown as an attachment before the paste; the upload key is already recorded;
the paste is supported and one of the checks after the first wait or the
final check after the second wait finds the name; or the file name ends in
".js". When it returns true the upload key is recorded, and when it returns
false the record is as before. -/
theorem autoInsertFileAsAttachment_result {σ : Type} (host : Host σ) (t : Tick σ)
    (file : FileRecord) :
    ((autoInsertFileAsAttachment host t file).2 = true ↔
      host.focusThrows t.engine.document = false ∧
      (host.attachmentShown t.engine.document file.name = true ∨
        js "uploaded:" ++ file.name ∈ t.engine.addedFileContents ∨
        (host.pasteSupported = true ∧
          (host.attachmentShown (host.elapse (host.paste t.engine.document file) 500)
              file.name = true ∨
            host.seenAfterPaste t.engine.document
              (host.elapse (host.paste t.engine.document file) 500) file.name = true ∨
            host.seenAtLast
              (host.elapse (host.elapse (host.paste t.engine.document file) 500) 500)
              file.name = true)) ∨
        endsWith file.name (js ".js") = true)) ∧
    ((autoInsertFileAsAttachment host t file).2 = true →
      js "uploaded:" ++ file.name ∈
        (autoInsertFileAsAttachment host t file).1.engine.addedFileContents) ∧
    ((autoInsertFileAsAttachment host t file).2 = false →
      (autoInsertFileAsAttachment host t file).1.engine.addedFileContents
        = t.engine.addedFileContents) := by
  have hin : ∀ u : Tick σ, js "uploaded:" ++ file.name ∈
      (u.addDelivered (js "uploaded:" ++ file.name)).engine.addedFileContents :=
    fun u => mem_setAdd.mpr (Or.inr rfl)
  unfold autoInsertFileAsAttachment
  simp only []
  cases h1 : host.focusThrows t.engine.document
  case true => simp
  case false =>
  cases h2 : host.attachmentShown t.engine.document file.name
  case true => simp [hin]
  case false =>
  cases h3c : t.engine.addedFileContents.contains (js "uploaded:" ++ file.name)
  case true =>
    have h3 : js "uploaded:" ++ file.name ∈ t.engine.addedFileContents := by simpa using h3c
    simp [h3]
  case false =>
    have h3 : js "uploaded:" ++ file.name ∉ t.engine.addedFileContents := by simpa using h3c
    cases h4 : host.pasteSupported
    case false =>
      cases h5 : endsWith file.name (js ".js")
      case false => simp [h3]
      case true => simp [h3, hin]
    case true =>
      cases h6 : host.attachmentShown (host.elapse (host.paste t.engine.document file) 500)
        file.name
      case true => simp [h3, h6, hin, sleep, Tick.setDocument, Tick.await]
      case false =>
      cases h7 : host.seenAfterPaste t.engine.document
        (host.elapse (host.paste t.engine.document file) 500) file.name
      case true => simp [h3, h6, h7, hin, sleep, Tick.setDocument, Tick.await]
      case false =>
      cases h8 : host.seenAtLast
        (host.elapse (host.elapse (host.paste t.engine.document file) 500) 500) file.name
      case true => simp [h3, h6, h7, h8, hin, sleep, Tick.setDocument, Tick.await]
      case false =>
      cases h5 : endsWith file.name (js ".js")
      case false =>
        simp [h3, h6, h7, h8, sleep, Tick.setDocument, Tick.await]
      case true => simp [h3, h6, h7, h8, hin, sleep, Tick.setDocument, Tick.await]

/-! ### Notices, read failures and the pending set -/

/-- C16 (the code departs from the claim). The name "nope.js" of the
assistant message "@nope.js" is neither pending nor delivered and no path of
the project resolves it. The notice is put into `response`, but the call
returns without any `await`, so without a call of `setPromptContent`, and the
prompt box stays empty: the write of `response` sits inside the branch for a
non-empty `regularFiles`. When "app.js" is requested in the same message and
read, the notice is written together with its block. -/
theorem notFound_notice_unwritten :
    findFilePath [js "src/app.js"] (js "nope.js") = none ∧
    (processConversation (textBoxHost [] false) ⟨[js "src/app.js"], [], [], [], ⟨[], 0⟩⟩
        [⟨none, some (js "@nope.js")⟩]).map
      (fun t => (t.response, t.engine.document, t.log.map (fun s => s.awaited)))
      = some (js "\nFile \"nope.js\" not found in the project.\n", ⟨[], 0⟩, []) ∧
    (processConversation
        (textBoxHost [⟨js "src/app.js", js "app.js", js ".js", js "let x"⟩] false)
        ⟨[js "src/app.js"], [], [], [], ⟨[], 0⟩⟩ [⟨none, some (js "@nope.js @app.js")⟩]).map
      (fun t => t.engine.document.value)
      = some (js "\nFile \"nope.js\" not found in the project.\n\n\n```javascript\n// File: app.js\nlet x\n```\n") := by
  decide

theorem setDelete_setAdd {s : List JSString} {x : JSString} (h : x ∉ s) :
    setDelete (setAdd s x) x = s := by
  rw [setAdd_of_not_mem h]
  unfold setDelete
  rw [List.filter_append]
  have h1 : s.filter (fun y => y != x) = s := by
    apply List.filter_eq_self.mpr
    intro a ha
    have : a ≠ x := fun e => h (e ▸ ha)
    simpa using this
  rw [h1]
  simp

/-- A name that is not skipped, resolves, and whose read fails: the round of
the loop leaves the sets, the document and the two queues as they were; it
passes the `await` of the read and appends the error notice to `response`. -/
theorem requestStep_read_error {σ : Type} (host : Host σ) (t : Tick σ)
    (fileName filePath message : JSString)
    (hp : fileName ∉ t.engine.pendingRequests)
    (hk1 : js "file:" ++ fileName ∉ t.engine.addedFileContents)
    (hk2 : js "uploaded:" ++ fileName ∉ t.engine.addedFileContents)
    (hres : findFilePath t.engine.selectedFiles fileName = some filePath)
    (hne : filePath ≠ []) (hread : host.readFile filePath = .error message) :
    requestStep host t fileName =
      { t with
        log := t.log ++ [⟨.readFile filePath,
          { t.engine with pendingRequests := setAdd t.engine.pendingRequests fileName }⟩]
        response := t.response ++ readErrorNotice fileName message } := by
  have h1 : t.engine.pendingRequests.contains fileName = false := by simpa using hp
  have h2 : (t.engine.addedFileContents.contains (js "file:" ++ fileName)
      || t.engine.addedFileContents.contains (js "uploaded:" ++ fileName)) = false := by
    simp [hk1, hk2]
  have h3 : (findFilePath (t.addPending fileName).engine.selectedFiles fileName).filter
      (fun p => !p.isEmpty) = some filePath := by
    have : (t.addPending fileName).engine.selectedFiles = t.engine.selectedFiles := rfl
    rw [this, hres]
    cases filePath with
    | nil => exact absurd rfl hne
    | cons c cs => rfl
  unfold requestStep
  rw [if_neg (by rw [h1]; exact Bool.false_ne_true)]
  simp only []
  rw [if_neg (by rw [h2]; exact Bool.false_ne_true)]
  simp only [h3, hread]
  simp only [Tick.deletePending, Tick.respond, Tick.await, Tick.addPending, setDelete_setAdd hp]

/-- C17 (the code departs from the claim). First input: the project holds
"src/app.py" and "lib/app.py"; the message "@app.py @lib/app.py" requests
both; "app.py" resolves to "src/app.py", whose read fails, and "lib/app.py" is
read, is large, and its attachment is not confirmed. The failure does not stop
the loop, which reads "lib/app.py" next; but when the call returns the record
holds "file:app.py", the key of the name whose read failed, put there by
`fallbackFileInsertion` under the base name of "lib/app.py". Second input:
"@bad.py @big.py", where the read of "src/bad.py" fails and "src/big.py" is
read and is large: the attachment is not confirmed and the call returns
without any `setPromptContent`, so "big.py" is not delivered. -/
theorem read_failure_recorded :
    findFilePath [js "src/app.py", js "lib/app.py"] (js "app.py") = some (js "src/app.py") ∧
    (match (plainHost [⟨js "lib/app.py", js "app.py", js ".py", List.replicate 300 10⟩]).readFile
        (js "src/app.py") with
      | .error message => some message
      | .ok _ => none) = some (js "Failed to read file: src/app.py") ∧
    (processConversation
        (plainHost [⟨js "lib/app.py", js "app.py", js ".py", List.replicate 300 10⟩])
        ⟨[js "src/app.py", js "lib/app.py"], [], [], [], ()⟩
        [⟨none, some (js "@app.py @lib/app.py")⟩]).map
      (fun t => (t.engine.addedFileContents, t.response,
        t.log.filterMap (fun s =>
          match s.awaited with
          | .readFile p => some p
          | _ => none)))
      = some ([js "file:lib/app.py", js "file:app.py"],
          js "\nError reading file \"app.py\": Failed to read file: src/app.py\n",
          [js "src/app.py", js "lib/app.py"]) ∧
    (processConversation
        (plainHost [⟨js "src/big.py", js "big.py", js ".py", List.replicate 300 10⟩])
        ⟨[js "src/bad.py", js "src/big.py"], [], [], [], ()⟩
        [⟨none, some (js "@bad.py @big.py")⟩]).map
      (fun t => (t.engine.addedFileContents, t.log.map (fun s => s.awaited)))
      = some ([js "file:big.py"],
          [.readFile (js "src/bad.py"), .readFile (js "src/big.py"), .timeout 500,
            .autoInsertFileAsAttachment (js "big.py"), .fallbackFileInsertion (js "big.py"),
            .processLargeFilesSequentially]) := by
  decide

/-- C18 (the code departs from the claim). The pending set is empty and the
message "@util.js" names a file that no path of the project resolves: when the
call returns, "util.js" is still in `pendingRequests` (the `continue` of line
744 passes over the `delete` of line 779). A later message that asks for
"util.js" again is then skipped in silence: no notice, no `await`. For
"@app.js", which resolves, the pending set is empty again when the call
returns. -/
theorem pending_left_behind :
    (processConversation (textBoxHost [] false) ⟨[js "src/app.js"], [], [], [], ⟨[], 0⟩⟩
        [⟨none, some (js "@util.js")⟩]).map (fun t => t.engine.pendingRequests)
      = some [js "util.js"] ∧
    (processConversation (textBoxHost [] false)
        ⟨[js "src/app.js"], [js "util.js"], [hashMessage (js "@util.js")], [], ⟨[], 0⟩⟩
        [⟨none, some (js "please share @util.js")⟩]).map
      (fun t => (t.engine.pendingRequests, t.response, t.log.length))
      = some ([js "util.js"], [], 0) ∧
    (processConversation
        (textBoxHost [⟨js "src/app.js", js "app.js", js ".js", js "let x"⟩] false)
        ⟨[js "src/app.js"], [], [], [], ⟨[], 0⟩⟩
        [⟨none, some (js "@app.js")⟩]).map (fun t => t.engine.pendingRequests)
      = some [] := by
  decide

/-! ### Stopping the engine -/

/-- C20 (the code departs from the claim). For every wiring, `stop` leaves
the "input" listeners of the prompt box and the "click" listeners of the
document as they are. From the wiring after `init()`, in which
`attachAutocompleteHandlers` has registered the functions 1 ("input"), 2
("click") and 3 ("keydown"): after `stop` both observers are disconnected, the
dropdown is removed, `isInitialized` is false and no "keydown" listener is
left, but the "input" listener 1 and the "click" listener 2 are still
registered. -/
theorem stop_leaves_listeners :
    (∀ (w : Wiring) (engine : Engine Unit),
      (stop w engine).1.inputListeners = w.inputListeners ∧
      (stop w engine).1.clickListeners = w.clickListeners) ∧
    (initialWiring.inputListeners, initialWiring.clickListeners,
      initialWiring.keydownListeners) = ([1], [2], [3]) ∧
    (stop initialWiring (⟨[], [], [], [], ()⟩ : Engine Unit)).1
      = ⟨false, false, false, 1, none, false, [1], [2], [], 4⟩ :=
  ⟨fun _ _ => ⟨rfl, rfl⟩, by decide, by decide⟩

/-! ### After a reset, a request is served again -/

theorem mem_setDelete {s : List JSString} {x y : JSString} :
    y ∈ setDelete s x ↔ y ∈ s ∧ y ≠ x := by
  simp [setDelete]

theorem Along.log_mem {σ : Type} {R : Engine σ → Engine σ → Prop} {t u : Tick σ}
    (h : Along R t u) {s : Suspension σ} (hs : s ∈ t.log) : s ∈ u.log := by
  obtain ⟨_, extra, hl, _⟩ := h
  rw [hl]
  exact List.mem_append_left _ hs

theorem fileKey_inj {x y : JSString} (h : js "file:" ++ x = js "file:" ++ y) : x = y :=
  List.append_cancel_left h

theorem fileKey_ne_uploadKey (x y : JSString) : js "file:" ++ x ≠ js "uploaded:" ++ y := by
  have h1 : js "file:" = [102, 105, 108, 101, 58] := by decide
  have h2 : js "uploaded:" = [117, 112, 108, 111, 97, 100, 101, 100, 58] := by decide
  rw [h1, h2]
  intro h
  simp at h

/-- What one round of the loop can change: the path set not at all, the
pending set and the record by its own name only, and the queues by pushes. -/
theorem requestStep_bounds {σ : Type} (host : Host σ) (t : Tick σ) (x : JSString) :
    (requestStep host t x).engine.selectedFiles = t.engine.selectedFiles ∧
    (∀ y ∈ (requestStep host t x).engine.pendingRequests,
      y ∈ t.engine.pendingRequests ∨ y = x) ∧
    (∀ k ∈ (requestStep host t x).engine.addedFileContents,
      k ∈ t.engine.addedFileContents ∨ k = js "file:" ++ x) ∧
    t.regularFiles ⊆ (requestStep host t x).regularFiles ∧
    t.largeFiles ⊆ (requestStep host t x).largeFiles := by
  have hsame : (t.engine.selectedFiles = t.engine.selectedFiles ∧
      (∀ y ∈ t.engine.pendingRequests, y ∈ t.engine.pendingRequests ∨ y = x) ∧
      (∀ k ∈ t.engine.addedFileContents,
        k ∈ t.engine.addedFileContents ∨ k = js "file:" ++ x) ∧
      t.regularFiles ⊆ t.regularFiles ∧ t.largeFiles ⊆ t.largeFiles) :=
    ⟨rfl, fun y hy => Or.inl hy, fun k hk => Or.inl hk, List.Subset.refl _,
      List.Subset.refl _⟩
  have hdel : ∀ y ∈ setDelete (setAdd t.engine.pendingRequests x) x,
      y ∈ t.engine.pendingRequests ∨ y = x := fun y hy =>
    mem_setAdd.mp (mem_setDelete.mp hy).1
  unfold requestStep
  by_cases h1 : t.engine.pendingRequests.contains x = true
  · rw [if_pos h1]
    exact hsame
  · rw [if_neg h1]
    simp only []
    by_cases h2 : (t.engine.addedFileContents.contains (js "file:" ++ x)
        || t.engine.addedFileContents.contains (js "uploaded:" ++ x)) = true
    · rw [if_pos h2]
      exact hsame
    · rw [if_neg h2]
      cases (findFilePath (t.addPending x).engine.selectedFiles x).filter
          (fun p => !p.isEmpty) with
      | none =>
        exact ⟨rfl, fun y hy => mem_setAdd.mp hy, fun k hk => Or.inl hk, List.Subset.refl _,
          List.Subset.refl _⟩
      | some filePath =>
        simp only []
        cases host.readFile filePath with
        | error message =>
          exact ⟨rfl, hdel, fun k hk => Or.inl hk, List.Subset.refl _, List.Subset.refl _⟩
        | ok file =>
          simp only []
          by_cases hl : isLargeFile file.content = true
          · rw [if_pos hl]
            exact ⟨rfl, hdel, fun k hk => mem_setAdd.mp hk, List.Subset.refl _,
              List.subset_append_left _ _⟩
          · rw [if_neg hl]
            exact ⟨rfl, hdel, fun k hk => mem_setAdd.mp hk, List.subset_append_left _ _,
              List.Subset.refl _⟩

/-- A round for another name leaves `N` unrecorded. -/
theorem requestStep_unrecorded {σ : Type} (host : Host σ) (t : Tick σ) (x N : JSString)
    (hx : x ≠ N) (h : Unrecorded N t) : Unrecorded N (requestStep host t x) := by
  obtain ⟨_, hp, hk, _, _⟩ := requestStep_bounds host t x
  refine ⟨fun hN => ?_, fun hN => ?_, fun hN => ?_⟩
  · rcases hp N hN with h1 | h1
    · exact h.1 h1
    · exact hx h1.symm
  · rcases hk _ hN with h1 | h1
    · exact h.2.1 h1
    · exact hx (fileKey_inj h1).symm
  · rcases hk _ hN with h1 | h1
    · exact h.2.2 h1
    · exact fileKey_ne_uploadKey x N h1.symm

/-- The round for an unrecorded name that resolves and is read. -/
theorem requestStep_queued {σ : Type} (host : Host σ) (t : Tick σ) (N p : JSString)
    (file : FileRecord) (h : Unrecorded N t)
    (hres : findFilePath t.engine.selectedFiles N = some p) (hpne : p ≠ [])
    (hread : host.readFile p = .ok file) : Queued N p file (requestStep host t N) := by
  have h1 : t.engine.pendingRequests.contains N = false := by simpa using h.1
  have h2 : (t.engine.addedFileContents.contains (js "file:" ++ N)
      || t.engine.addedFileContents.contains (js "uploaded:" ++ N)) = false := by
    simp [h.2.1, h.2.2]
  have h3 : (findFilePath (t.addPending N).engine.selectedFiles N).filter
      (fun q => !q.isEmpty) = some p := by
    have : (t.addPending N).engine.selectedFiles = t.engine.selectedFiles := rfl
    rw [this, hres]
    cases p with
    | nil => exact absurd rfl hpne
    | cons c cs => rfl
  unfold requestStep
  rw [if_neg (by rw [h1]; exact Bool.false_ne_true)]
  simp only []
  rw [if_neg (by rw [h2]; exact Bool.false_ne_true)]
  simp only [h3, hread]
  unfold Queued
  by_cases hl : isLargeFile file.content = true
  · rw [if_pos hl, if_pos hl]
    exact ⟨mem_setAdd.mpr (Or.inr rfl), ⟨_, List.mem_append_right _ (List.mem_singleton.mpr rfl),
      rfl⟩, List.mem_append_right _ (List.mem_singleton.mpr rfl)⟩
  · rw [if_neg hl, if_neg hl]
    exact ⟨mem_setAdd.mpr (Or.inr rfl), ⟨_, List.mem_append_right _ (List.mem_singleton.mpr rfl),
      rfl⟩, List.mem_append_right _ (List.mem_singleton.mpr rfl)⟩

/-- Later rounds keep what a round has queued. -/
theorem requestStep_keeps_queued {σ : Type} (host : Host σ) (t : Tick σ) (x N p : JSString)
    (file : FileRecord) (h : Queued N p file t) : Queued N p file (requestStep host t x) := by
  have ha := along_requestStep deliveredGrows_closed host t x
  obtain ⟨_, _, _, hr, hl⟩ := requestStep_bounds host t x
  obtain ⟨hk, ⟨s, hs, hs2⟩, hq⟩ := h
  refine ⟨ha.1 _ hk, ⟨s, ha.log_mem hs, hs2⟩, ?_⟩
  by_cases hc : isLargeFile file.content = true
  · rw [if_pos hc] at hq ⊢
    exact hl hq
  · rw [if_neg hc] at hq ⊢
    exact hr hq

theorem foldl_requestStep_keeps_queued {σ : Type} (host : Host σ) (N p : JSString)
    (file : FileRecord) :
    ∀ (l : List JSString) (t : Tick σ), Queued N p file t →
      Queued N p file (l.foldl (requestStep host) t)
  | [], _, h => h
  | x :: l, t, h =>
    foldl_requestStep_keeps_queued host N p file l _
      (requestStep_keeps_queued host t x N p file h)

/-- The loop over requests that hold `N`, from a state in which `N` is
unrecorded: `N` is read, recorded and queued. -/
theorem foldl_requestStep_queued {σ : Type} (host : Host σ) (files : List JSString)
    (N p : JSString) (file : FileRecord)
    (hres : findFilePath files N = some p) (hpne : p ≠ [])
    (hread : host.readFile p = .ok file) :
    ∀ (l : List JSString) (t : Tick σ), N ∈ l → t.engine.selectedFiles = files →
      Unrecorded N t → Queued N p file (l.foldl (requestStep host) t)
  | [], _, hN, _, _ => absurd hN (List.not_mem_nil _)
  | x :: l, t, hN, hsel, h => by
    rw [List.foldl_cons]
    by_cases hx : x = N
    · subst hx
      exact foldl_requestStep_keeps_queued host x p file l _
        (requestStep_queued host t x p file h (hsel ▸ hres) hpne hread)
    · have hN2 : N ∈ l := by
        rcases List.mem_cons.mp hN with h1 | h1
        · exact absurd h1.symm hx
        · exact h1
      exact foldl_requestStep_queued host files N p file hres hpne hread l _ hN2
        ((requestStep_bounds host t x).1.trans hsel) (requestStep_unrecorded host t x N hx h)

theorem foldl_respond_fields {σ : Type} (g : FileRecord → JSString) :
    ∀ (files : List FileRecord) (t : Tick σ),
      (files.foldl (fun (u : Tick σ) file => u.respond (g file)) t).engine = t.engine ∧
      (files.foldl (fun (u : Tick σ) file => u.respond (g file)) t).log = t.log ∧
      (files.foldl (fun (u : Tick σ) file => u.respond (g file)) t).largeFiles = t.largeFiles
  | [], _ => ⟨rfl, rfl, rfl⟩
  | file :: files, t => foldl_respond_fields g files (t.respond (g file))

theorem foldl_respond_infix {σ : Type} (g : FileRecord → JSString) (x : JSString) :
    ∀ (files : List FileRecord) (t : Tick σ),
      (x <:+: t.response ∨ ∃ f ∈ files, x = g f) →
      x <:+: (files.foldl (fun (u : Tick σ) file => u.respond (g file)) t).response
  | [], _, h => by
    rcases h with h | ⟨f, hf, _⟩
    · exact h
    · exact absurd hf (List.not_mem_nil _)
  | file :: files, t, h => by
    rw [List.foldl_cons]
    apply foldl_respond_infix g x files
    rcases h with ⟨a, b, hab⟩ | ⟨f, hf, hx⟩
    · refine Or.inl ⟨a, b ++ g file, ?_⟩
      show a ++ x ++ (b ++ g file) = t.response ++ g file
      rw [← hab]
      simp
    · rcases List.mem_cons.mp hf with h1 | h1
      · subst h1
        refine Or.inl ⟨t.response, [], ?_⟩
        show t.response ++ x ++ [] = t.response ++ g f
        rw [hx]
        simp
      · exact Or.inr ⟨f, h1, hx⟩

theorem along_deliverRegular {σ : Type} {R : Engine σ → Engine σ → Prop} (hR : StepClosed R)
    (host : Host σ) (t : Tick σ) : Along R t (deliverRegular host t) := by
  unfold deliverRegular
  simp only []
  apply along_ite
  · apply along_ite
    · exact (along_foldl_respond hR _ _ t).trans_along hR (along_appendToPrompt hR host _ _)
    · exact along_foldl_respond hR _ _ t
  · exact Along.refl_along hR t

theorem along_deliverLarge {σ : Type} {R : Engine σ → Engine σ → Prop} (hR : StepClosed R)
    (host : Host σ) (t : Tick σ) : Along R t (deliverLarge host t) := by
  unfold deliverLarge
  apply along_ite
  · exact (along_largeFiles hR host _ _).trans_along hR (along_await hR _ _)
  · exact Along.refl_along hR _

/-- The batched write leaves the queue of large files alone, and it passes a
`setPromptContent` whose text holds the block of every regular file. -/
theorem deliverRegular_written {σ : Type} (host : Host σ) (t : Tick σ) :
    (deliverRegular host t).largeFiles = t.largeFiles ∧
    ∀ f ∈ t.regularFiles, ∃ s ∈ (deliverRegular host t).log, ∃ text,
      s.awaited = .setPromptContent text true ∧
      ([10] ++ formatFileContent host.now f.name f.extension f.content ++ [10]) <:+: text := by
  unfold deliverRegular
  simp only []
  by_cases h1 : (!t.regularFiles.isEmpty) = true
  · rw [if_pos h1]
    obtain ⟨_, _, hlarge⟩ := foldl_respond_fields
      (fun file => [10] ++ formatFileContent host.now file.name file.extension file.content
        ++ [10]) t.regularFiles t
    have hin := foldl_respond_infix (σ := σ)
      (fun file => [10] ++ formatFileContent host.now file.name file.extension file.content
        ++ [10])
    by_cases h2 : (!(t.regularFiles.foldl (fun (u : Tick σ) file =>
        u.respond ([10] ++ formatFileContent host.now file.name file.extension file.content
          ++ [10])) t).response.isEmpty) = true
    · rw [if_pos h2]
      refine ⟨hlarge, fun f hf => ⟨_, List.mem_append_right _ (List.mem_singleton.mpr rfl), _,
        rfl, ?_⟩⟩
      exact hin _ t.regularFiles t (Or.inr ⟨f, hf, rfl⟩)
    · rw [if_neg h2]
      refine ⟨hlarge, fun f hf => ?_⟩
      exfalso
      obtain ⟨a, b, hab⟩ := hin _ t.regularFiles t (Or.inr ⟨f, hf, rfl⟩)
      apply h2
      rw [← hab]
      simp
  · rw [if_neg h1]
    refine ⟨rfl, fun f hf => ?_⟩
    exfalso
    apply h1
    cases hr : t.regularFiles with
    | nil => rw [hr] at hf; exact absurd hf (List.not_mem_nil _)
    | cons c cs => rfl

/-- The loop over the large files awaits an attachment attempt for each. -/
theorem largeFiles_attempted {σ : Type} (host : Host σ) :
    ∀ (files : List FileRecord) (t : Tick σ), ∀ f ∈ files,
      ∃ s ∈ (processLargeFilesSequentially host files t).log,
        s.awaited = .autoInsertFileAsAttachment f.name
  | [], _, f, hf => absurd hf (List.not_mem_nil _)
  | file :: files, t, f, hf => by
    have hR := deliveredGrows_closed (σ := σ)
    unfold processLargeFilesSequentially
    simp only []
    rcases List.mem_cons.mp hf with h1 | h1
    · subst h1
      have h3 := along_ite (R := DeliveredGrows)
        ((!(autoInsertFileAsAttachment host (sleep host t 500) f).2) = true)
        (((along_fallback hR host ((autoInsertFileAsAttachment host (sleep host t 500) f).1.await
          (.autoInsertFileAsAttachment f.name)) f).trans_along hR
          (along_await hR _ (.fallbackFileInsertion f.name))))
        (Along.refl_along hR ((autoInsertFileAsAttachment host (sleep host t 500) f).1.await
          (.autoInsertFileAsAttachment f.name)))
      have h4 := along_ite (R := DeliveredGrows) ((!files.isEmpty) = true)
        (h3.trans_along hR (along_sleep hR host _ 1000)) h3
      have h5 := h4.trans_along hR (along_largeFiles hR host files _)
      exact ⟨_, h5.log_mem (List.mem_append_right _ (List.mem_singleton.mpr rfl)), rfl⟩
    · exact largeFiles_attempted host files _ f h1

/-- What is queued when the loop ends is delivered by the statements after
it: a regular file is part of the text of an awaited `setPromptContent`, and
for a large file an attachment attempt is awaited. -/
theorem deliver_queued {σ : Type} (host : Host σ) (t : Tick σ) (N p : JSString)
    (file : FileRecord) (h : Queued N p file t) :
    js "file:" ++ N ∈ (deliver host t).engine.addedFileContents ∧
    (∃ s ∈ (deliver host t).log, s.awaited = .readFile p) ∧
    (isLargeFile file.content = false →
      ∃ s ∈ (deliver host t).log, ∃ text, s.awaited = .setPromptContent text true ∧
        ([10] ++ formatFileContent host.now file.name file.extension file.content ++ [10])
          <:+: text) ∧
    (isLargeFile file.content = true →
      ∃ s ∈ (deliver host t).log, s.awaited = .autoInsertFileAsAttachment file.name) := by
  have hR := deliveredGrows_closed (σ := σ)
  have ha := along_deliver hR host t
  have hb : Along DeliveredGrows (deliverRegular host t) (deliver host t) :=
    along_deliverLarge hR host _
  obtain ⟨hk, ⟨s, hs, hs2⟩, hq⟩ := h
  obtain ⟨hlarge, hwritten⟩ := deliverRegular_written host t
  refine ⟨ha.1 _ hk, ⟨s, ha.log_mem hs, hs2⟩, fun hc => ?_, fun hc => ?_⟩
  · rw [hc] at hq
    obtain ⟨s1, hs1, text, h1, h2⟩ := hwritten _ hq
    exact ⟨s1, hb.log_mem hs1, text, h1, h2⟩
  · rw [hc, if_pos rfl] at hq
    have hq2 : ({ file with path := p } : FileRecord) ∈ (deliverRegular host t).largeFiles := by
      rw [hlarge]
      exact hq
    have hne : (!(deliverRegular host t).largeFiles.isEmpty) = true := by
      cases hr : (deliverRegular host t).largeFiles with
      | nil => rw [hr] at hq2; exact absurd hq2 (List.not_mem_nil _)
      | cons c cs => rfl
    obtain ⟨s1, hs1, h1⟩ := largeFiles_attempted host _ (deliverRegular host t) _ hq2
    refine ⟨s1, ?_, h1⟩
    unfold deliver deliverLarge
    rw [if_pos hne]
    exact List.mem_append_left _ hs1

/-- What holds after a reset. `reset()` leaves `processedMessages`,
`addedFileContents` and `pendingRequests` empty and the path set and the
document as they were. Whatever the sets held before, in particular when the
name N was recorded as delivered: after the reset, a call of
`processConversation` on a non-empty last message whose extracted requests
hold N, for an N that resolves to a readable file, returns; the file has been
read in that call (the `await` is in its log), the key "file:" + N is recorded
again, and a regular file is part of the text of an awaited
`setPromptContent`. For a large file only the attachment attempt is awaited:
whether its content reaches the prompt box is not settled here. -/
theorem reset_redelivers {σ : Type} (host : Host σ) (engine : Engine σ)
    (conversations : List Turn) (lastTurn : Turn) (ai N p : JSString) (file : FileRecord)
    (fileRequests : List JSString)
    (hlast : conversations.getLast? = some lastTurn) (hai : lastTurn.ai = some ai)
    (hne : ai ≠ [])
    (hx : extractFileRequests (host.parse ai) ai = some fileRequests) (hN : N ∈ fileRequests)
    (hres : findFilePath engine.selectedFiles N = some p) (hpne : p ≠ [])
    (hread : host.readFile p = .ok file) :
    (reset engine).processedMessages = [] ∧ (reset engine).addedFileContents = [] ∧
    (reset engine).pendingRequests = [] ∧
    (reset engine).selectedFiles = engine.selectedFiles ∧
    (reset engine).document = engine.document ∧
    ∃ t, processConversation host (reset engine) conversations = some t ∧
      js "file:" ++ N ∈ t.engine.addedFileContents ∧
      (∃ s ∈ t.log, s.awaited = .readFile p) ∧
      (isLargeFile file.content = false →
        ∃ s ∈ t.log, ∃ text, s.awaited = .setPromptContent text true ∧
          ([10] ++ formatFileContent host.now file.name file.extension file.content ++ [10])
            <:+: text) ∧
      (isLargeFile file.content = true →
        ∃ s ∈ t.log, s.awaited = .autoInsertFileAsAttachment file.name) := by
  refine ⟨rfl, rfl, rfl, rfl, rfl, _, processConversation_fresh host (reset engine)
    conversations lastTurn ai fileRequests hlast hai hne (List.not_mem_nil _) hx
    (List.ne_nil_of_mem hN), ?_⟩
  apply deliver_queued host _ N p file
  apply foldl_requestStep_queued host engine.selectedFiles N p file hres hpne hread
    fileRequests _ hN rfl
  exact ⟨List.not_mem_nil _, List.not_mem_nil _, List.not_mem_nil _⟩

/-- The regular file "app.js", which the record holds as delivered: after the
reset the message "show me @app.js" gets it read and written again. -/
theorem reset_redelivers_witness :
    js "file:app.js" ∈ [js "file:app.js"] ∧
    (reset (⟨[js "src/app.js"], [], [hashMessage (js "show me @app.js")], [js "file:app.js"],
        ⟨[], 0⟩⟩ : Engine TextBox)).processedMessages = [] ∧
    (reset (⟨[js "src/app.js"], [], [hashMessage (js "show me @app.js")], [js "file:app.js"],
        ⟨[], 0⟩⟩ : Engine TextBox)).addedFileContents = [] ∧
    (reset (⟨[js "src/app.js"], [], [hashMessage (js "show me @app.js")], [js "file:app.js"],
        ⟨[], 0⟩⟩ : Engine TextBox)).pendingRequests = [] ∧
    (reset (⟨[js "src/app.js"], [], [hashMessage (js "show me @app.js")], [js "file:app.js"],
        ⟨[], 0⟩⟩ : Engine TextBox)).selectedFiles = [js "src/app.js"] ∧
    (reset (⟨[js "src/app.js"], [], [hashMessage (js "show me @app.js")], [js "file:app.js"],
        ⟨[], 0⟩⟩ : Engine TextBox)).document = ⟨[], 0⟩ ∧
    ∃ t, processConversation
        (textBoxHost [⟨js "src/app.js", js "app.js", js ".js", js "let x"⟩] false)
        (reset ⟨[js "src/app.js"], [], [hashMessage (js "show me @app.js")],
          [js "file:app.js"], ⟨[], 0⟩⟩)
        [⟨none, some (js "show me @app.js")⟩] = some t ∧
      js "file:" ++ js "app.js" ∈ t.engine.addedFileContents ∧
      (∃ s ∈ t.log, s.awaited = .readFile (js "src/app.js")) ∧
      (isLargeFile (js "let x") = false →
        ∃ s ∈ t.log, ∃ text, s.awaited = .setPromptContent text true ∧
          ([10] ++ formatFileContent 0 (js "app.js") (js ".js") (js "let x") ++ [10])
            <:+: text) ∧
      (isLargeFile (js "let x") = true →
        ∃ s ∈ t.log, s.awaited = .autoInsertFileAsAttachment (js "app.js")) :=
  ⟨List.mem_singleton.mpr rfl,
    reset_redelivers (textBoxHost [⟨js "src/app.js", js "app.js", js ".js", js "let x"⟩] false)
      ⟨[js "src/app.js"], [], [hashMessage (js "show me @app.js")], [js "file:app.js"], ⟨[], 0⟩⟩
      [⟨none, some (js "show me @app.js")⟩] ⟨none, some (js "show me @app.js")⟩
      (js "show me @app.js") (js "app.js") (js "src/app.js")
      ⟨js "src/app.js", js "app.js", js ".js", js "let x"⟩ [js "app.js"]
      rfl rfl (by decide) (by decide) (List.mem_singleton.mpr rfl) (by decide) (by decide) rfl⟩

/-- C19 (Scenario E; the code departs from the claim). For every engine,
`reset()` leaves `processedMessages`, `addedFileContents` and
`pendingRequests` empty and the path set and the document as they were. But a
name delivered before the reset is not always delivered again. The project
holds "src/big.py", a file of 300 line breaks, and no check confirms an
attachment. Before the reset the commit of the autocomplete delivers it:
`selectFile` writes its block through the fallback (one `setPromptContent`,
334 units in the prompt box) and records "file:big.py". Then a new, empty
prompt box is observed and the sets are reset. The tick on "@big.py" after
the reset resolves and reads the file, records "file:big.py" in the loop, and
returns without any `setPromptContent` and with the prompt box still empty:
`fallbackFileInsertion` finds the key that the loop has just added. -/
theorem reset_large_not_redelivered :
    (∀ engine : Engine TextBox,
      (reset engine).processedMessages = [] ∧ (reset engine).addedFileContents = [] ∧
      (reset engine).pendingRequests = [] ∧
      (reset engine).selectedFiles = engine.selectedFiles ∧
      (reset engine).document = engine.document) ∧
    isLargeFile (List.replicate 300 10) = true ∧
    ((selectFile
        (textBoxHost [⟨js "src/big.py", js "big.py", js ".py", List.replicate 300 10⟩] false)
        ⟨[js "src/big.py"], [], [], [], ⟨js "@", 1⟩⟩ (js "src/big.py")).engine.addedFileContents,
      (selectFile
        (textBoxHost [⟨js "src/big.py", js "big.py", js ".py", List.replicate 300 10⟩] false)
        ⟨[js "src/big.py"], [], [], [], ⟨js "@", 1⟩⟩
        (js "src/big.py")).engine.document.value.length,
      (selectFile
        (textBoxHost [⟨js "src/big.py", js "big.py", js ".py", List.replicate 300 10⟩] false)
        ⟨[js "src/big.py"], [], [], [], ⟨js "@", 1⟩⟩ (js "src/big.py")).log.map
        (fun s =>
          match s.awaited with
          | .setPromptContent _ _ => true
          | _ => false))
      = ([js "file:big.py"], 334, [false, false, false, false, true, false]) ∧
    (reset (⟨[js "src/big.py"], [], [], [js "file:big.py"], ⟨[], 0⟩⟩ : Engine TextBox))
      = ⟨[js "src/big.py"], [], [], [], ⟨[], 0⟩⟩ ∧
    findFilePath [js "src/big.py"] (js "big.py") = some (js "src/big.py") ∧
    (processConversation
        (textBoxHost [⟨js "src/big.py", js "big.py", js ".py", List.replicate 300 10⟩] false)
        (reset ⟨[js "src/big.py"], [], [], [js "file:big.py"], ⟨[], 0⟩⟩)
        [⟨none, some (js "@big.py")⟩]).map
      (fun t => (t.engine.addedFileContents, t.engine.document,
        t.log.map (fun s => s.awaited)))
      = some ([js "file:big.py"], ⟨[], 0⟩,
          [.readFile (js "src/big.py"), .timeout 500, .timeout 500, .timeout 500,
            .autoInsertFileAsAttachment (js "big.py"), .fallbackFileInsertion (js "big.py"),
            .processLargeFilesSequentially]) :=
  ⟨fun _ => ⟨rfl, rfl, rfl, rfl, rfl⟩, by decide, by decide, rfl, by decide, by decide⟩

end LiveContext
